import Mathlib

/-!
Alkindus: a verification development.

Shallow embedding of the substitution-cipher solver and of the n-gram model
builder (`score.c`, `crypto.c`, `gen.c`, `ngram.c`, `trie.c`, `prob.c`).

Conventions.

* Characters are their byte codes (`Nat`); `'a'` is 97 and `NUL` is 0.
* `double` values are elements of a linearly ordered field `α` (exact
  arithmetic); `log`, `exp` and `sqrt` are passed as functions, so that every
  definition can be evaluated over `ℚ` and specialised to `ℝ` in theorems.
* A C pointer into a buffer is a function `Nat → Nat` giving the byte at each
  offset, so that reads past the logical end of a buffer see whatever the
  surrounding memory holds.
* A `GArray` is the list of its elements together with a function giving
  the contents of the storage reserved behind them, which
  `g_array_sized_new(FALSE, FALSE, ...)` leaves unwritten.
* The random number generator is the list of values returned by the
  successive calls of `rand()`; a computation that needs more values than the
  list holds has no result (`none`).
-/

namespace Alkindus

/-! ## Constants (`solve.h`) -/

/-- The macro `NUMSYMBOLS`. -/
def NUMSYMBOLS : Nat := 26

/-- The macro `MAXNGRAMLEN`. -/
def MAXNGRAMLEN : Nat := 8

/-- The macro `MAXVOWELS`. -/
def MAXVOWELS : Nat := 7

/-- The byte code of the letter a. -/
def chA : Nat := 97

/-- Signed 32-bit wrap-around of an `int` result. -/
def wrapInt32 (x : Int) : Int := (x + 2 ^ 31) % 2 ^ 32 - 2 ^ 31

/-! ## C strings and GLib string-keyed hash tables -/

/-- The C string stored in a byte buffer: the bytes before the first `NUL`. -/
def cstr (buf : List Nat) : List Nat := buf.takeWhile (fun c => c != 0)

/-- The `k` bytes found at offsets `i, i+1, ..., i+k-1` of `str`
(`memcpy(buf, &str[i], k)`). -/
def memRead (str : Nat → Nat) (i k : Nat) : List Nat :=
  (List.range k).map (fun d => str (i + d))

/-- A `GHashTable` with `g_str_hash`/`g_str_equal`: a finite map from C
strings to values. -/
abbrev HashTable (α : Type) := List (List Nat × α)

/-- The call `g_hash_table_lookup`. -/
def hashLookup {α : Type} : HashTable α → List Nat → Option α
  | [], _ => none
  | (k, v) :: rest, key => if k = key then some v else hashLookup rest key

/-- The call `g_hash_table_insert`: the value of an existing key is replaced. -/
def hashInsert {α : Type} : HashTable α → List Nat → α → HashTable α
  | [], key, v => [(key, v)]
  | (k, w) :: rest, key, v =>
    if k = key then (k, v) :: rest else (k, w) :: hashInsert rest key v

/-! ## The scorer (`score.c`) -/

/-- The static state of `score.c` after loading: `scorePrior`, `scoreCond`,
`scoreZero` and `countZero`. -/
structure ScoreTables (α : Type) where
  scorePrior : HashTable α
  scoreCond : HashTable α
  scoreZero : α
  countZero : Nat

/-- One attempt of `fscanf(fp, " %k[a-z] %lf", ngramBuf, &value)` that did not
hit the end of the file: either both fields were read, or the line is
malformed. -/
inductive ScoreLine (α : Type) where
  | entry (ngram : List Nat) (value : α) : ScoreLine α
  | malformed : ScoreLine α

/-- How `scoreInit` ends: it returns `TRUE` with the tables loaded, returns
`FALSE`, or is stopped by `g_assert(prior != NULL)`. -/
inductive InitResult (α : Type) where
  | loaded (t : ScoreTables α) : InitResult α
  | failed : InitResult α
  | aborted : InitResult α

/-- The value `countZero = pow(NUMSYMBOLS, ngramLen)` stored in a `guint`
(32 bits). For n = 7 and n = 8 the `double` is outside the range of `guint`;
the conversion is taken to keep the low 32 bits, as the x86-64 code does. -/
def countZeroSeed (n : Nat) : Nat := (NUMSYMBOLS ^ n) % 2 ^ 32

/-- The first reading loop of `scoreInit`: the (n-1)-gram file. -/
def loadPrior {α : Type} (log : α → α) :
    List (ScoreLine α) → HashTable α → Option (HashTable α)
  | [], t => some t
  | ScoreLine.malformed :: _, _ => none
  | ScoreLine.entry g v :: rest, t => loadPrior log rest (hashInsert t (cstr g) (log v))

/-- The second reading loop of `scoreInit`: the n-gram file. The state is
`(scoreCond, scoreZero, countZero)`. -/
def loadCond {α : Type} [Field α] (log : α → α) (n : Nat) (prior : HashTable α) :
    List (ScoreLine α) → HashTable α × α × Nat → InitResult α
  | [], (c, z, k) => InitResult.loaded ⟨prior, c, z, k⟩
  | ScoreLine.malformed :: _, _ => InitResult.failed
  | ScoreLine.entry g v :: rest, (c, z, k) =>
    match hashLookup prior (cstr (g.take (n - 1))) with
    | none => InitResult.aborted
    | some pv =>
      loadCond log n prior rest
        (hashInsert c (cstr g) (log v - pv), z - v, (k + 2 ^ 32 - 1) % 2 ^ 32)

/-- The function `scoreInit`. A file that cannot be opened is `none`; an opened
file is the list of its successive `fscanf` results. -/
def scoreInit {α : Type} [Field α] (log : α → α) (n : Nat)
    (priorFile ngramFile : Option (List (ScoreLine α))) : InitResult α :=
  match priorFile with
  | none => InitResult.failed
  | some pl =>
    match loadPrior log pl [] with
    | none => InitResult.failed
    | some prior =>
      match ngramFile with
      | none => InitResult.failed
      | some nl =>
        match loadCond log n prior nl ([], 1, countZeroSeed n) with
        | InitResult.loaded t =>
          InitResult.loaded
            ⟨t.scorePrior, t.scoreCond, log (t.scoreZero / (t.countZero : α)), t.countZero⟩
        | r => r

/-- The value added for the window of `n` bytes at offset `i`: the stored
conditional log-probability, or `scoreZero` on a miss. -/
def condScore {α : Type} (n : Nat) (t : ScoreTables α) (str : Nat → Nat) (i : Nat) : α :=
  match hashLookup t.scoreCond (cstr (memRead str i n)) with
  | some v => v
  | none => t.scoreZero

/-- The value added for the leading (n-1)-gram: its prior, or nothing. -/
def priorScore {α : Type} [Zero α] (n : Nat) (t : ScoreTables α) (str : Nat → Nat) : α :=
  match hashLookup t.scorePrior (cstr (memRead str 0 (n - 1))) with
  | some v => v
  | none => 0

/-- The function `scoreEval`: `none` when `g_assert(len > ngramLen)` fails.
The loop runs `i` from `ngramLen-1` to `len-1` and copies `ngramLen` bytes
from `&str[i]`. -/
def scoreEval {α : Type} [AddMonoid α] (n : Nat) (t : ScoreTables α)
    (str : Nat → Nat) (len : Nat) : Option α :=
  if len > n then
    some ((List.range' (n - 1) (len - (n - 1))).foldl
      (fun score i => score + condScore n t str i) (0 + priorScore n t str))
  else none

/-- The value the specification gives for `scoreEval`: the prior of the
leading (n-1)-gram plus the window values for the offsets `0 .. len-n`. -/
def scoreEvalSpec {α : Type} [AddMonoid α] (n : Nat) (t : ScoreTables α)
    (str : Nat → Nat) (len : Nat) : α :=
  priorScore n t str + ((List.range (len - n + 1)).map (condScore n t str)).sum

/-! ## The cryptogram (`crypto.c`) -/

/-- A key: the 26 bytes of a `char[NUMSYMBOLS+1]` before its terminator. -/
abbrev Key := List Nat

/-- The local array `tryText` of `cryptoEval` seen as memory: its `textLen`
bytes are the decryption of `encText`, and `stack` gives the bytes that follow
the array. -/
def tryText (encText : List Nat) (stack : Nat → Nat) (key : Key) : Nat → Nat :=
  fun i => if i < encText.length then key.getD (encText.getD i 0 - chA) 0 else stack i

/-- The function `cryptoEval`. -/
def cryptoEval {α : Type} [AddMonoid α] (n : Nat) (t : ScoreTables α)
    (encText : List Nat) (stack : Nat → Nat) (key : Key) : Option α :=
  scoreEval n t (tryText encText stack key) encText.length

/-- The identity key `abcdefghijklmnopqrstuvwxyz`. -/
def alphabet : Key := List.range' chA NUMSYMBOLS

/-- A key is a permutation of the letters a..z. -/
def IsKeyPerm (k : Key) : Prop := List.Perm k alphabet

instance (k : Key) : Decidable (IsKeyPerm k) := by
  unfold IsKeyPerm; infer_instance

/-! ## The genetic algorithm (`gen.c`) -/

/-- The macro `MAXSWAPS`. -/
def MAXSWAPS : Nat := 100

/-- The string `genVow` of `genInit`: `"aeiouyt"`. -/
def genVow : List Nat := [97, 101, 105, 111, 117, 121, 116]

/-- The string `genKey` of `genInit`: `"aeiouytbcdfghjklmnpqrsvwxz"`. -/
def genKey : List Nat :=
  [97, 101, 105, 111, 117, 121, 116, 98, 99, 100, 102, 103, 104, 106, 107, 108, 109, 110,
   112, 113, 114, 115, 118, 119, 120, 122]

/-- The three statements `tmp = k[x]; k[x] = k[y]; k[y] = tmp`. -/
def swapKey (k : Key) (x y : Nat) : Key :=
  let tmp := k.getD x 0
  (k.set x (k.getD y 0)).set y tmp

/-- A loop `do { v = rand() % m; } while (!ok(v))`: the first accepted value
and the rest of the random stream, `none` if the stream ends first. -/
def drawUntil (ok : Nat → Bool) (m : Nat) : List Nat → Option (Nat × List Nat)
  | [] => none
  | r :: rs => if ok (r % m) then some (r % m, rs) else drawUntil ok m rs

/-- The first loop of `genInit` for one key: the vowel positions receive the
letters of `genVow` in order (`j` is the index of the next vowel). -/
def placeVowels : List Nat → Nat → Key → Key
  | [], _, k => k
  | v :: vs, j, k => placeVowels vs (j + 1) (k.set (v - chA) (genVow.getD j 0))

/-- The second loop of `genInit` for one key: every position still holding
`NUL` receives the next letter of `genKey` after the first `numVowels`; the
arguments are the bytes of the key not yet visited and the counter `c`. -/
def fillRest (numVowels : Nat) : List Nat → Nat → List Nat
  | [], _ => []
  | x :: xs, c =>
    if x = 0 then genKey.getD (c + numVowels) 0 :: fillRest numVowels xs (c + 1)
    else x :: fillRest numVowels xs c

/-- The seed layout of a key in `genInit`, before the random swaps. -/
def seedKey (vowels : List Nat) : Key :=
  fillRest vowels.length (placeVowels vowels 0 (List.replicate NUMSYMBOLS 0)) 0

/-- One round of the swap loop of `genInit`: two distinct non-vowel positions
are exchanged, then two distinct entries of the vowel list. `none` when the
random stream ends first or when `rand() % numVowels` divides by zero. -/
def initSwap (vowels : List Nat) (isVowel : Nat → Bool) (k : Key) (rng : List Nat) :
    Option (Key × List Nat) :=
  match drawUntil (fun x => !isVowel x) NUMSYMBOLS rng with
  | none => none
  | some (x, rng1) =>
    match drawUntil (fun y => !(isVowel y || y == x)) NUMSYMBOLS rng1 with
    | none => none
    | some (y, rng2) =>
      let k1 := swapKey k x y
      if vowels.length = 0 then none
      else
        match rng2 with
        | [] => none
        | r :: rng3 =>
          let vx := r % vowels.length
          match drawUntil (fun vy => !(vy == vx)) vowels.length rng3 with
          | none => none
          | some (vy, rng4) =>
            some (swapKey k1 (vowels.getD vx 0 - chA) (vowels.getD vy 0 - chA), rng4)

/-- The swap loop of `genInit`, run `numSwaps` times. -/
def initSwaps (vowels : List Nat) (isVowel : Nat → Bool) :
    Nat → Key → List Nat → Option (Key × List Nat)
  | 0, k, rng => some (k, rng)
  | s + 1, k, rng =>
    match initSwap vowels isVowel k rng with
    | none => none
    | some (k1, rng1) => initSwaps vowels isVowel s k1 rng1

/-- The body of the outer loop of `genInit`: one individual. -/
def genInitOne (vowels : List Nat) (isVowel : Nat → Bool) (rng : List Nat) :
    Option (Key × List Nat) :=
  match rng with
  | [] => none
  | r :: rng1 => initSwaps vowels isVowel (r % MAXSWAPS) (seedKey vowels) rng1

/-- The function `genInit`: the keys and fitness values of the `popSize`
individuals, and the rest of the random stream. `ev` is `cryptoEval`. -/
def genInit {α : Type} (ev : Key → α) (vowels : List Nat) (isVowel : Nat → Bool) :
    Nat → List Nat → Option (List Key × List α × List Nat)
  | 0, rng => some ([], [], rng)
  | p + 1, rng =>
    match genInitOne vowels isVowel rng with
    | none => none
    | some (k, rng1) =>
      match genInit ev vowels isVowel p rng1 with
      | none => none
      | some (ks, fs, rng2) => some (k :: ks, ev k :: fs, rng2)

/-- The body of the loop of `genMutate` for one individual. `freq` is the
letter-frequency vector of the ciphertext. -/
def mutateOne {α : Type} (ev : Key → α) (muteRate : Int) (freq : List Nat)
    (k : Key) (f : α) (rng : List Nat) : Option (Key × α × List Nat) :=
  match rng with
  | [] => none
  | r :: rng1 =>
    if ((r % 100 : Nat) : Int) < muteRate then
      match drawUntil (fun x => !(freq.getD x 0 == 0)) NUMSYMBOLS rng1 with
      | none => none
      | some (x, rng2) =>
        match drawUntil (fun y => !(y == x || freq.getD y 0 == 0)) NUMSYMBOLS rng2 with
        | none => none
        | some (y, rng3) => some (swapKey k x y, ev (swapKey k x y), rng3)
    else some (k, f, rng1)

/-- The function `genMutate` on the parallel arrays `popKey`, `popFit`. -/
def genMutate {α : Type} (ev : Key → α) (muteRate : Int) (freq : List Nat) :
    List Key → List α → List Nat → Option (List Key × List α × List Nat)
  | k :: ks, f :: fs, rng =>
    match mutateOne ev muteRate freq k f rng with
    | none => none
    | some (k1, f1, rng1) =>
      match genMutate ev muteRate freq ks fs rng1 with
      | none => none
      | some (ks1, fs1, rng2) => some (k1 :: ks1, f1 :: fs1, rng2)
  | _, _, rng => some ([], [], rng)

/-- The search `for (j = 0; popKey[x][j] != popKey[y][i]; j++);` of
`genCrossover`, bounded by the length of the key: `none` when the letter is
not found among the `fuel` bytes from offset `j` on. -/
def crossFind (px : Key) (c : Nat) : Nat → Nat → Option Nat
  | 0, _ => none
  | fuel + 1, j => if px.getD j 0 ≠ c then crossFind px c fuel (j + 1) else some j

/-- The body of the loop of `genCrossover` at position `i`; the state is
`(testKey, testFit)`. -/
def crossStep {α : Type} [LT α] [DecidableRel (fun a b : α => a < b)] (ev : Key → α)
    (px py : Key) (st : Key × α) (i : Nat) : Option (Key × α) :=
  if px.getD i 0 ≠ py.getD i 0 then
    match crossFind px (py.getD i 0) NUMSYMBOLS 0 with
    | none => none
    | some j =>
      let t1 := swapKey st.1 i j
      if ev t1 < st.2 then some (swapKey t1 i j, st.2) else some (t1, ev t1)
  else some st

/-- The loop of `genCrossover` over the positions of a list. -/
def crossLoop {α : Type} [LT α] [DecidableRel (fun a b : α => a < b)] (ev : Key → α)
    (px py : Key) : List Nat → Key × α → Option (Key × α)
  | [], st => some st
  | i :: is, st =>
    match crossStep ev px py st i with
    | none => none
    | some st1 => crossLoop ev px py is st1

/-- The function `genCrossover`: the child of `popKey[x]` and `popKey[y]`. -/
def genCrossover {α : Type} [LT α] [DecidableRel (fun a b : α => a < b)] (ev : Key → α)
    (popKey : List Key) (x y : Nat) : Option Key :=
  let px := popKey.getD x []
  let py := popKey.getD y []
  (crossLoop ev px py (List.range NUMSYMBOLS) (px, ev px)).map Prod.fst

/-- The inner `while` loop of `genSort`: entries are shifted one place up
while `fit > popFit[n]`; the first argument is `n + 1`, and the result gives
the final `n + 1`. -/
def sortShift {α : Type} [LT α] [DecidableRel (fun a b : α => a < b)] [Zero α] (fit : α) :
    Nat → List Key → List α → Nat × List Key × List α
  | 0, ks, fs => (0, ks, fs)
  | m + 1, ks, fs =>
    if fs.getD m 0 < fit then
      sortShift fit m (ks.set (m + 1) (ks.getD m [])) (fs.set (m + 1) (fs.getD m 0))
    else (m + 1, ks, fs)

/-- The body of the outer loop of `genSort` for index `k`. -/
def sortStep {α : Type} [LT α] [DecidableRel (fun a b : α => a < b)] [Zero α]
    (st : List Key × List α) (k : Nat) : List Key × List α :=
  let key := st.1.getD k []
  let fit := st.2.getD k 0
  let r := sortShift fit k st.1 st.2
  (r.2.1.set r.1 key, r.2.2.set r.1 fit)

/-- The function `genSort`: insertion sort of the parallel arrays by
descending fitness. -/
def genSort {α : Type} [LT α] [DecidableRel (fun a b : α => a < b)] [Zero α]
    (popSize : Nat) (popKey : List Key) (popFit : List α) : List Key × List α :=
  (List.range' 1 (popSize - 1)).foldl sortStep (popKey, popFit)

/-- The global-best record `bestKey`, `bestFit`, `bestTrial`, `bestGen`. -/
structure Best (α : Type) where
  bestKey : Key
  bestFit : α
  bestTrial : Nat
  bestGen : Nat

/-- The critical section of `genSolve` in generation `j` of trial `trial`:
`if (popFit[0] > bestFit && strcmp(bestKey, popKey[0])) { ... }`. -/
def updateBest {α : Type} [LT α] [DecidableRel (fun a b : α => a < b)] (b : Best α)
    (popKey0 : Key) (popFit0 : α) (trial j : Nat) : Best α :=
  if b.bestFit < popFit0 ∧ cstr b.bestKey ≠ cstr popKey0 then
    ⟨popKey0, popFit0, trial, j⟩
  else b

/-- The loop of `genSelect` from index `i` on, with `fuel = popSize - i`
iterations left and `n` the running sum. Leaving the loop without `return`
gives no result. -/
def selectLoop (popSize : Nat) (k : Int) : Nat → Nat → Int → Option Nat
  | 0, _, _ => none
  | fuel + 1, i, n =>
    if k < n + ((popSize : Int) - (i : Int)) then some i
    else selectLoop popSize k fuel (i + 1) (n + ((popSize : Int) - (i : Int)))

/-- The function `genSelect` for the value `r` returned by `rand()`; no result
when `popSize * (popSize+1) / 2` is zero (division by zero). -/
def genSelect (popSize : Nat) (r : Nat) : Option Nat :=
  let m := Int.tdiv (wrapInt32 ((popSize : Int) * ((popSize : Int) + 1))) 2
  if m = 0 then none else selectLoop popSize (Int.tmod (r : Int) m) popSize 0 0

/-- The loop `do { y = genSelect(); } while (y == x)` of `genMate`. -/
def mateSelect (popSize x : Nat) : List Nat → Option (Nat × List Nat)
  | [] => none
  | r :: rs =>
    match genSelect popSize r with
    | none => none
    | some y => if y = x then mateSelect popSize x rs else some (y, rs)

/-- The first loop of `genMate`: the children `childKey[i]` for the indices of
a list. -/
def mateChildren {α : Type} [LT α] [DecidableRel (fun a b : α => a < b)] (ev : Key → α)
    (popSize : Nat) (popKey : List Key) : List Nat → List Nat → Option (List Key × List Nat)
  | [], rng => some ([], rng)
  | i :: is, rng =>
    match mateSelect popSize i rng with
    | none => none
    | some (y, rng1) =>
      match genCrossover ev popKey i y with
      | none => none
      | some child =>
        match mateChildren ev popSize popKey is rng1 with
        | none => none
        | some (cs, rng2) => some (child :: cs, rng2)

/-- The function `genMate`: the children replace the parents and are
re-scored. -/
def genMate {α : Type} [LT α] [DecidableRel (fun a b : α => a < b)] (ev : Key → α)
    (popSize : Nat) (popKey : List Key) (rng : List Nat) :
    Option (List Key × List α × List Nat) :=
  match mateChildren ev popSize popKey (List.range popSize) rng with
  | none => none
  | some (cs, rng1) => some (cs, cs.map ev, rng1)

/-- One iteration `j` of the generation loop of `genSolve` in trial `trial`:
mate, sort, update of the global best, mutate, sort. -/
def genGeneration {α : Type} [LT α] [DecidableRel (fun a b : α => a < b)] [Zero α]
    (ev : Key → α) (popSize : Nat) (muteRate : Int) (freq : List Nat) (trial j : Nat)
    (b : Best α) (popKey : List Key) (rng : List Nat) :
    Option (Best α × List Key × List α × List Nat) :=
  match genMate ev popSize popKey rng with
  | none => none
  | some (ks, fs, rng1) =>
    let s := genSort popSize ks fs
    let b1 := updateBest b (s.1.getD 0 []) (s.2.getD 0 0) trial j
    match genMutate ev muteRate freq s.1 s.2 rng1 with
    | none => none
    | some (ks2, fs2, rng2) =>
      some (b1, (genSort popSize ks2 fs2).1, (genSort popSize ks2 fs2).2, rng2)

/-- The generation loop of `genSolve` for the generations of a list. -/
def genLoop {α : Type} [LT α] [DecidableRel (fun a b : α => a < b)] [Zero α]
    (ev : Key → α) (popSize : Nat) (muteRate : Int) (freq : List Nat) (trial : Nat) :
    List Nat → Best α → List Key → List Nat → Option (Best α × List Key × List Nat)
  | [], b, popKey, rng => some (b, popKey, rng)
  | j :: js, b, popKey, rng =>
    match genGeneration ev popSize muteRate freq trial j b popKey rng with
    | none => none
    | some (b1, ks, _, rng1) => genLoop ev popSize muteRate freq trial js b1 ks rng1

/-- The function `genSolve` for one trial: the global best after the trial. -/
def genSolve {α : Type} [LT α] [DecidableRel (fun a b : α => a < b)] [Zero α]
    (ev : Key → α) (vowels : List Nat) (isVowel : Nat → Bool) (popSize maxGens : Nat)
    (muteRate : Int) (freq : List Nat) (trial : Nat) (b : Best α) (rng : List Nat) :
    Option (Best α × List Nat) :=
  match genInit ev vowels isVowel popSize rng with
  | none => none
  | some (ks, fs, rng1) =>
    match genLoop ev popSize muteRate freq trial (List.range' 1 maxGens) b
        (genSort popSize ks fs).1 rng1 with
    | none => none
    | some (b1, _, rng2) => some (b1, rng2)

/-! ## The trie (`trie.c`, `ngram.h`) and n-gram insertion (`ngram.c`) -/

/-- A `trieNode *`: the `NULL` pointer, or a node with its `ngram` string
(`none` for `NULL`), its `total` and its 26 child pointers. The `parent`
back-reference is determined by the position of the node and is left out. -/
inductive trieNode where
  | null : trieNode
  | node (ngram : Option (List Nat)) (total : Int) (child : Fin 26 → trieNode) : trieNode

/-- The function `trieNodeNew`. -/
def trieNodeNew : trieNode := trieNode.node none 0 (fun _ => trieNode.null)

/-- The field `total` of a node; 0 for a child that does not exist. -/
def totalOf : trieNode → Int
  | trieNode.null => 0
  | trieNode.node _ t _ => t

/-- The sum of the totals of the existing children. -/
def childTotals (ch : Fin 26 → trieNode) : Int := ∑ i : Fin 26, totalOf (ch i)

/-- The statement `node->total += count`. -/
def addTotal (count : Int) : trieNode → trieNode
  | trieNode.null => trieNode.null
  | trieNode.node g t ch => trieNode.node g (t + count) ch

/-- The pointer `tnode` of `ngramInsert` after the block `if (tnode == NULL)`:
the child found by `trieGetChild`, or the node made by `trieNodeInsert`, which
receives a copy of the n-gram when `i == ngramLen-1`. -/
def childOrNew (n : Nat) (ngram : List Nat) (i : Nat) : trieNode → trieNode
  | trieNode.null =>
    trieNode.node (if i = n - 1 then some (ngram.take n) else none) 0 (fun _ => trieNode.null)
  | trieNode.node g t ch => trieNode.node g t ch

/-- The loop of `ngramInsert` from index `i = n - rem` on, with `pnode` the
node given. The result is `pnode` with its subtree updated, or `none` when an
assertion of `trieGetChild`/`trieNodeInsert` fails (a byte that is not a
lowercase letter). -/
def insertFrom (n : Nat) (ngram : List Nat) (count : Int) : Nat → trieNode → Option trieNode
  | 0, p => some p
  | _ + 1, trieNode.null => none
  | rem + 1, trieNode.node g t ch =>
    let i := n - (rem + 1)
    let c := ngram.getD i 0
    if h : chA ≤ c ∧ c - chA < 26 then
      let tnode := childOrNew n ngram i (ch ⟨c - chA, h.2⟩)
      match insertFrom n ngram count rem (addTotal count tnode) with
      | none => none
      | some t2 => some (trieNode.node g t (Function.update ch ⟨c - chA, h.2⟩ t2))
    else none

/-- The function `ngramInsert`. -/
def ngramInsert (n : Nat) (root : trieNode) (ngram : List Nat) (count : Int) :
    Option trieNode :=
  (insertFrom n ngram count n root).map (addTotal count)

/-- A sequence of calls of `ngramInsert` on the same root. -/
def ngramInsertAll (n : Nat) : trieNode → List (List Nat × Int) → Option trieNode
  | t, [] => some t
  | t, (g, c) :: rest =>
    match ngramInsert n t g c with
    | none => none
    | some t1 => ngramInsertAll n t1 rest

/-- The first `n` bytes at `ngram` are lowercase letters. -/
def IsNgram (n : Nat) (ngram : List Nat) : Prop :=
  ∀ i, i < n → chA ≤ ngram.getD i 0 ∧ ngram.getD i 0 - chA < 26

/-- Every node at depth `< n` below (and including) a node at depth `d` has
`total` equal to the sum of the totals of its existing children. -/
def TotalsOk (n : Nat) : Nat → trieNode → Prop
  | _, trieNode.null => True
  | d, trieNode.node _ t ch => (d < n → t = childTotals ch) ∧ ∀ i, TotalsOk n (d + 1) (ch i)

/-! ## Simple Good-Turing smoothing (`prob.c`) -/

/-- The functions of `math.h` used by `prob.c`. -/
structure MathFns (α : Type) where
  log : α → α
  exp : α → α
  sqrt : α → α

/-- The macro `g_array_index(a, gint, i)`: inside the array its element,
past the end whatever the reserved storage holds there (`oob`). -/
def gArrayIndex (a : List Int) (oob : Nat → Int) (i : Nat) : Int :=
  if i < a.length then a.getD i 0 else oob i

/-- The averaging transform: the value of `Z[i]` after the three groups of
assignments (`Z[numCounts-1]` is assigned last). `rAt` and `nAt` read the
arrays `r` and `n`. -/
def zTransform {α : Type} [Field α] (rAt nAt : Nat → Int) (numCounts : Nat) (i : Nat) : α :=
  if i + 1 = numCounts then
    (nAt (numCounts - 1) : α) /
      ((rAt (numCounts - 1) : α) - (rAt ((numCounts + 2 ^ 32 - 2) % 2 ^ 32) : α))
  else if i = 0 then 2 * (nAt 0 : α) / ((rAt 1 : α) - 0)
  else 2 * (nAt i : α) / ((rAt (i + 1) : α) - (rAt (i - 1) : α))

/-- The function `probBestFit`: intercept `a` and slope `b` of the least
squares line through the points `(log_r[i], log_Z[i])`. -/
def probBestFit {α : Type} [Field α] (log_r log_Z : List α) : α × α :=
  let numCounts : α := (log_r.length : α)
  let meanX := log_r.sum / numCounts
  let meanY := log_Z.sum / numCounts
  let XY := ((log_r.zip log_Z).map (fun q => (q.1 - meanX) * (q.2 - meanY))).sum
  let Xsquare := (log_r.map (fun x => (x - meanX) * (x - meanX))).sum
  let b := XY / Xsquare
  (meanY - b * meanX, b)

/-- The macro `SMOOTH(n)` for the line `(a, b)`. -/
def smooth {α : Type} [Field α] (F : MathFns α) (ab : α × α) (x : α) : α :=
  F.exp (ab.1 + ab.2 * F.log x)

/-- The array `rStar` after the SGT loop, before the switchover loop. -/
def sgtEstimates {α : Type} [Field α] (F : MathFns α) (r : List Int) (rAt nAt : Nat → Int) :
    List α :=
  let numCounts := r.length
  let log_Z := (List.range numCounts).map (fun i => F.log (zTransform rAt nAt numCounts i))
  let log_r := r.map (fun (R : Int) => F.log (R : α))
  let ab := probBestFit log_r log_Z
  r.map (fun (R : Int) =>
    ((R + 1 : Int) : α) * smooth F ab ((R + 1 : Int) : α) / smooth F ab (R : α))

/-- The switchover loop `for (i = 0; i < numCounts; i++)`, from index `i` on
with `fuel = numCounts - i` iterations left. It reads `r[i+1]` and `n[i+1]`. -/
def turingLoop {α : Type} [LinearOrderedField α] (F : MathFns α) (rAt nAt : Nat → Int) :
    Nat → Nat → List α → List α
  | 0, _, rStar => rStar
  | fuel + 1, i, rStar =>
    let R := rAt i
    let R1 := rAt (i + 1)
    if R1 ≠ R + 1 then rStar
    else
      let N : α := (nAt i : α)
      let N1 : α := (nAt (i + 1) : α)
      let x := ((R + 1 : Int) : α) * N1 / N
      let d := abs (x - rStar.getD i 0)
      if d ≤ (196 / 100) *
          F.sqrt ((wrapInt32 ((R + 1) * (R + 1)) : α) * (N1 / (N * N)) * (1 + N1 / N)) then
        rStar
      else turingLoop F rAt nAt fuel (i + 1) (rStar.set i x)

/-- The array `rStar` when the renormalisation starts. -/
def rStarFinal {α : Type} [LinearOrderedField α] (F : MathFns α) (r n : List Int)
    (oobR oobN : Nat → Int) : List α :=
  turingLoop F (gArrayIndex r oobR) (gArrayIndex n oobN) r.length 0
    (sgtEstimates F r (gArrayIndex r oobR) (gArrayIndex n oobN))

/-- The variable `newTotal` of `probGoodTuring`. -/
def newTotal {α : Type} [LinearOrderedField α] (F : MathFns α) (r n : List Int)
    (oobR oobN : Nat → Int) : α :=
  ((List.range r.length).map
    (fun i => (rStarFinal F r n oobR oobN).getD i 0 * (gArrayIndex n oobN i : α))).sum

/-- The variable `pZero` of `probGoodTuring`. -/
def pZeroOf {α : Type} [Field α] (n : List Int) (oobN : Nat → Int) (ngramTotal : Nat) : α :=
  (gArrayIndex n oobN 0 : α) / (ngramTotal : α)

/-- The function `probGoodTuring` up to the emission of the table: the array
`p` and `pZero`, from the arrays `r`, `n` and the counter `ngramTotal` left by
`probGetCounts`. `oobR` and `oobN` give the contents of the storage reserved
behind the arrays. An empty `r` has no result (`Z[numCounts-1]` is written far
outside the allocation). -/
def probGoodTuring {α : Type} [LinearOrderedField α] (F : MathFns α) (r n : List Int)
    (oobR oobN : Nat → Int) (ngramTotal : Nat) : Option (List α × α) :=
  if r.length = 0 then none
  else
    let pZero : α := pZeroOf n oobN ngramTotal
    some ((rStarFinal F r n oobR oobN).map
        (fun rs => (1 - pZero) * rs / newTotal F r n oobR oobN), pZero)

/-! ## Trie traversal (`trie.c`) -/

/-- The field `ngram` of a node (`none` for `NULL`). -/
def ngramOf : trieNode → Option (List Nat)
  | trieNode.null => none
  | trieNode.node g _ _ => g

/-- The function `trieTraverseLeaf`: the nodes on which `func` is called, in
the order of the calls. A `NULL` child is skipped. -/
def trieTraverseLeaf : trieNode → List trieNode
  | trieNode.null => []
  | trieNode.node (some g) t ch => [trieNode.node (some g) t ch]
  | trieNode.node none _ ch => (List.finRange 26).flatMap (fun i => trieTraverseLeaf (ch i))

/-- The function `trieTraverseLevel`: the nodes on which `func` is called, in
the order of the calls. A `NULL` child is skipped. -/
def trieTraverseLevel : trieNode → Nat → List trieNode
  | trieNode.null, _ => []
  | trieNode.node g t ch, 0 => [trieNode.node g t ch]
  | trieNode.node _ _ ch, k + 1 =>
    (List.finRange 26).flatMap (fun i => trieTraverseLevel (ch i) k)

/-! ## The frequency table and the emitted lines (`prob.c`) -/

/-- The loop of `probCountNode` over the arrays `r` and `n`, which always have
the same length: the count `total` (a `glong`) is compared with the entries
of `r`; `g_array_insert_val` and `g_array_append_val` store its low 32 bits. -/
def countInsert (total : Int) : List Int → List Int → List Int × List Int
  | R :: rs, N :: ns =>
    if total ≤ R then
      if total = R then (R :: rs, wrapInt32 (N + 1) :: ns)
      else (wrapInt32 total :: R :: rs, 1 :: N :: ns)
    else (R :: (countInsert total rs ns).1, N :: (countInsert total rs ns).2)
  | rs, ns => (rs ++ [wrapInt32 total], ns ++ [1])

/-- The arrays `r` and `n` and the counter `ngramTotal` (a `guint`). -/
structure Counts where
  r : List Int
  n : List Int
  ngramTotal : Nat

/-- The function `probCountNode`. -/
def probCountNode (s : Counts) (node : trieNode) : Counts :=
  ⟨(countInsert (totalOf node) s.r s.n).1, (countInsert (totalOf node) s.r s.n).2,
    (((s.ngramTotal : Int) + totalOf node) % 2 ^ 32).toNat⟩

/-- The function `probGetCounts`, on the empty arrays made by
`probGoodTuring`. -/
def probGetCounts (root : trieNode) (level : Nat) : Counts :=
  (trieTraverseLevel root level).foldl probCountNode ⟨[], [], 0⟩

/-- The comparison `cmp_int` of `probEmitProb`: an `int` subtraction. -/
def cmp_int (u v : Int) : Int := wrapInt32 (u - v)

/-- The loop of the library function `bsearch` with the comparison `cmp_int`:
binary search between the bounds `l` and `u`; `none` is the result `NULL`. -/
def bsearchLoop (key : Int) (base : List Int) : Nat → Nat → Nat → Option Nat
  | 0, _, _ => none
  | fuel + 1, l, u =>
    if l < u then
      let idx := (l + u) / 2
      let c := cmp_int key (base.getD idx 0)
      if c < 0 then bsearchLoop key base fuel l idx
      else if 0 < c then bsearchLoop key base fuel (idx + 1) u
      else some idx
    else none

/-- The call `bsearch(key, base, nmemb, sizeof(gint), cmp_int)`: the index of
the element found. -/
def bsearch (key : Int) (base : List Int) (nmemb : Nat) : Option Nat :=
  bsearchLoop key base (nmemb + 1) 0 nmemb

/-- The function `probEmitProb`: the line written for `node`, the `ngramLen`
bytes of its n-gram and the value `p[index]`. There is no line to speak of
(`none`) when `node->ngram` is `NULL` or when `bsearch` returns `NULL`; the key
handed to `cmp_int` is the low 32 bits of `node->total`. -/
def probEmitProb {α : Type} (ngramLen : Nat) (r : List Int) (p : List α) (node : trieNode) :
    Option (List Nat × α) :=
  match ngramOf node, bsearch (wrapInt32 (totalOf node)) r r.length with
  | some g, some index => (p.get? index).map (fun x => (g.take ngramLen, x))
  | _, _ => none

/-- The macro `MAXTOKENLEN`. -/
def MAXTOKENLEN : Nat := 255

/-- The array `punct`: the bytes `, . : ; - + / \ ' & @ _`. -/
def punct : List Nat := [44, 46, 58, 59, 45, 43, 47, 92, 39, 38, 64, 95]

/-- The library function `isspace` in the C locale. -/
def isspace (c : Nat) : Bool := c == 32 || (9 ≤ c && c ≤ 13)

/-- The library function `isalpha` in the C locale. -/
def isalpha (c : Nat) : Bool := (65 ≤ c && c ≤ 90) || (97 ≤ c && c ≤ 122)

/-- The library function `ispunct` in the C locale. -/
def ispunct (c : Nat) : Bool :=
  (33 ≤ c && c ≤ 47) || (58 ≤ c && c ≤ 64) || (91 ≤ c && c ≤ 96) || (123 ≤ c && c ≤ 126)

/-- The library function `tolower` in the C locale. -/
def tolower (c : Nat) : Nat := if 65 ≤ c ∧ c ≤ 90 then c + 32 else c

/-- The static variables of `token.c`: `file` holds the bytes of the stream
`fp` not yet read and `eof` its end-of-file indicator, `cur` the bytes from
`cp` up to `ep`, `tok` the C string in the token buffer. The counter `line`
only appears in messages and is left out. -/
structure Tokenizer where
  file : List Nat
  eof : Bool
  cur : List Nat
  tok : List Nat
  tokenWaiting : Bool

/-- The function `tokenInit` on a file that `fopen` could open. The token
buffer is not read before it is written. -/
def tokenInit (bytes : List Nat) : Tokenizer := ⟨bytes, false, [], [], false⟩

/-- The call `getline(&bp, &n, fp)`: the line read with its newline and the
bytes left in the stream; a last line without newline is ended by the end of
the file, which sets the end-of-file indicator, and so does a call that finds
no byte to read (result `none`, the return value -1). -/
def getline (file : List Nat) : Option (List Nat) × List Nat × Bool :=
  match file with
  | [] => (none, [], true)
  | _ :: _ =>
    match file.dropWhile (fun c => c != 10) with
    | [] => (some file, [], true)
    | _ :: rest => (some (file.takeWhile (fun c => c != 10) ++ [10]), rest, false)

/-- The function `tokenNext` on the bytes from `cp` to `ep`: its result, the
string left in `tok`, and the bytes from the new `cp` to `ep`. -/
def tokenNext (cur : List Nat) : Bool × List Nat × List Nat :=
  match cur.dropWhile isspace with
  | [] => (true, [], [])
  | c :: rest =>
    ((c :: rest).takeWhile (fun x => !isspace x) |>.any (fun x => !isalpha x),
      cstr (((c :: rest).takeWhile (fun x => !isspace x)).map tolower),
      (c :: rest).dropWhile (fun x => !isspace x))

/-- The function `tokenProcess(tp, strlen(tp))` on the string at `tp`: its
result and the string left at `tp`. Every recursive call is on a string
shorter by one byte; `fuel` bounds the depth of the recursion. -/
def tokenProcess : Nat → List Nat → Bool × List Nat
  | 0, s => (false, s)
  | fuel + 1, s =>
    match s with
    | [] => (false, s)
    | c :: rest =>
      if isspace c && rest.isEmpty then (false, s)
      else if ispunct c then tokenProcess fuel rest
      else if ispunct (s.getLastD 0) then tokenProcess fuel s.dropLast
      else
        match punct.find? (fun p => s.contains p) with
        | some p => tokenProcess fuel (s.erase p)
        | none => (s.all isalpha, s)

/-- The loop `while (!feof(fp))` of `tokenGetBlock`, with `block` the
`nchars` bytes placed in `buf` so far. The result is the block returned and
the state left; there is none when `&buf[nchars-ngramLen+1]` lies before the
buffer (the unsigned index wraps around), or when `fuel` runs out. -/
def blockLoop (ngramLen len : Nat) : Nat → List Nat → Tokenizer →
    Option (List Nat × Tokenizer)
  | 0, _, _ => none
  | fuel + 1, block, s =>
    if s.eof then some (block, s)
    else
      let rd := getline s.file
      if s.cur.isEmpty && rd.1.isNone then some (block, { s with file := rd.2.1, eof := true })
      else
        let s1 : Tokenizer :=
          if s.cur.isEmpty then { s with file := rd.2.1, eof := rd.2.2, cur := rd.1.getD [] }
          else s
        let nx := tokenNext s1.cur
        let pr := if nx.1 then tokenProcess (nx.2.1.length + 1) nx.2.1 else (true, nx.2.1)
        let s2 : Tokenizer := { s1 with cur := nx.2.2, tok := pr.2 }
        if pr.1 then
          if len - block.length < pr.2.length then
            if ngramLen - 1 ≤ block.length then
              some (block, { s2 with
                tok := block.drop (block.length - (ngramLen - 1)) ++ pr.2,
                tokenWaiting := true })
            else none
          else blockLoop ngramLen len fuel (block ++ pr.2) s2
        else blockLoop ngramLen len fuel block s2

/-- The function `tokenGetBlock(buf, len)`: the bytes placed in `buf` (their
number is the return value) and the state left. The assertion
`len > MAXTOKENLEN` fails for a shorter buffer (no result). Every iteration of
the loop takes at least one byte of the file, which bounds their number. -/
def tokenGetBlock (ngramLen len : Nat) (s : Tokenizer) : Option (List Nat × Tokenizer) :=
  if len ≤ MAXTOKENLEN then none
  else if s.tokenWaiting then
    if len < s.tok.length then some ([], s)
    else blockLoop ngramLen len (s.cur.length + s.file.length + 2) s.tok s
  else blockLoop ngramLen len (s.cur.length + s.file.length + 2) [] s

/-! ## Extraction of the n-grams and the model builder (`ngram.c`) -/

/-- The macro `BLOCKSIZE`. -/
def BLOCKSIZE : Nat := 65536

/-- The loop `for (int i = 0; i <= nchars - ngramLen; i++)` of `ngramExtract`
from `i` on: the window starts on which `ngramInsert` is called, and the root
left (`none` when a call fails an assertion, or when `fuel` runs out: with
`fuel = 2^31 - i` that is the overflow of `i`). `ngramLen` is a `guint`, so
the bound and the comparison are unsigned. -/
def extractLoop (n : Nat) (buf : Nat → Nat) (nchars : Nat) :
    Nat → Nat → trieNode → List Nat × Option trieNode
  | 0, _, _ => ([], none)
  | fuel + 1, i, root =>
    if i ≤ (nchars + 2 ^ 32 - n) % 2 ^ 32 then
      match ngramInsert n root (memRead buf i n) 1 with
      | none => ([i], none)
      | some t =>
        (i :: (extractLoop n buf nchars fuel (i + 1) t).1,
          (extractLoop n buf nchars fuel (i + 1) t).2)
    else ([], some root)

/-- The memory at `buf` after `block` has been copied to its start. -/
def bufWrite (block : List Nat) (buf : Nat → Nat) : Nat → Nat :=
  fun i => if i < block.length then block.getD i 0 else buf i

/-- The loop `while ((nchars = tokenGetBlock(buf, len)) > 0)` of
`ngramExtract`, for at most `fuel` blocks: the root left when a call returns
0 (`none` when a call fails, or when `fuel` blocks do not end the loop). -/
def extractBlocks (n len : Nat) : Nat → (Nat → Nat) → Tokenizer → trieNode → Option trieNode
  | 0, _, _, _ => none
  | fuel + 1, buf, s, root =>
    match tokenGetBlock n len s with
    | none => none
    | some (block, s1) =>
      if 0 < block.length then
        match (extractLoop n (bufWrite block buf) block.length (2 ^ 31) 0 root).2 with
        | none => none
        | some root1 => extractBlocks n len fuel (bufWrite block buf) s1 root1
      else some root

/-- The function `ngramExtract`: `file` is `none` when `fopen` fails (the
function returns `FALSE` and the trie is unchanged); `heap` gives the bytes of
the fresh `g_malloc` block. -/
def ngramExtract (n fuel : Nat) (heap : Nat → Nat) (file : Option (List Nat))
    (root : trieNode) : Option trieNode :=
  match file with
  | none => some root
  | some bytes => extractBlocks n BLOCKSIZE fuel heap (tokenInit bytes) root

/-- The loop of `main` over the input files. -/
def extractFiles (n fuel : Nat) (heap : Nat → Nat) :
    List (Option (List Nat)) → trieNode → Option trieNode
  | [], root => some root
  | f :: rest, root =>
    match ngramExtract n fuel heap f root with
    | none => none
    | some root1 => extractFiles n fuel heap rest root1

/-- The statement `cmat[i][j] += 1`. -/
def cmatInc (cmat : Nat → Nat → Int) (i j : Nat) : Nat → Nat → Int :=
  fun x y => if x = i ∧ y = j then cmat x y + 1 else cmat x y

/-- The loop that fills the adjacency matrix, `for (i = 1; i < textLen; i++)`,
on the text from `encText[i-1]` on. The text holds lowercase letters, so the
indices `encText[i]-'a'` are in 0..25. -/
def cmatFill : List Nat → (Nat → Nat → Int) → (Nat → Nat → Int)
  | a :: b :: rest, cmat =>
    cmatFill (b :: rest) (cmatInc (cmatInc cmat (b - chA) (a - chA)) (a - chA) (b - chA))
  | _, cmat => cmat

/-- The matrix `cmat` after the loop over `j`, which clears the diagonal. -/
def cmatOf (encText : List Nat) : Nat → Nat → Int :=
  fun x y => if x = y then 0 else cmatFill encText (fun _ _ => 0) x y

/-- The array `csum` after the loop over `j`: the sum of row `j` of `cmat`. -/
def csumOf (encText : List Nat) : Nat → Int :=
  fun j => ∑ k in Finset.range NUMSYMBOLS, cmatOf encText j k

/-- The arrays `isVowel` and `csum` and the entries `vowels[0..numVowels)`;
`numVowels` is the length of `vowels`. -/
structure VowState where
  isVowel : Nat → Bool
  csum : Nat → Int
  vowels : List Nat

/-- The loop `for (i = 0; i < NUMSYMBOLS; i++)` that looks for the largest
sum, over the indices given: the variables `maxSum` and `index` (`none` while
`index` is not initialised). -/
def maxScan (isVowel : Nat → Bool) (csum : Nat → Int) :
    List Nat → Int × Option Nat → Int × Option Nat
  | [], acc => acc
  | i :: rest, acc =>
    if isVowel i = false ∧ acc.1 < csum i then maxScan isVowel csum rest (csum i, some i)
    else maxScan isVowel csum rest acc

/-- The loop `while (1)` of `vowIdentify`; every iteration but the last adds a
vowel, and `fuel` bounds the number of iterations. -/
def vowLoop (cmat : Nat → Nat → Int) : Nat → VowState → VowState
  | 0, st => st
  | fuel + 1, st =>
    match maxScan st.isVowel st.csum (List.range NUMSYMBOLS) (0, none) with
    | (maxSum, some index) =>
      if 0 < maxSum ∧ st.vowels.length < MAXVOWELS then
        vowLoop cmat fuel
          ⟨fun i => if i = index then true else st.isVowel i,
            fun i => if i < NUMSYMBOLS ∧ i ≠ index ∧ st.isVowel i = false
              then st.csum i - cmat i index * 2 else st.csum i,
            st.vowels ++ [chA + index]⟩
      else st
    | (_, none) => st

/-- The function `vowIdentify` on the text `encText`, entered with the
entries `vowels0` in `vowels` (`numVowels` is their number): the arrays and
the vowels at the end. -/
def vowIdentify (encText : List Nat) (vowels0 : List Nat) : VowState :=
  vowLoop (cmatOf encText) (MAXVOWELS + 1) ⟨fun _ => false, csumOf encText, vowels0⟩

/-! ## Loading the cryptogram (`crypto.c`) and the solver's `main` (`main.c`) -/

/-- The macro `MAXCIPHERLEN`. -/
def MAXCIPHERLEN : Nat := 512

/-- The variables of the reading loop of `cryptoLoad`: the block at `encText`
(its length is `bufsize`), `textLen`, and the array `freq`. -/
structure LoadState where
  encText : List Nat
  textLen : Nat
  freq : Nat → Int

/-- The body of the loop `while (!feof(fp))` of `cryptoLoad` for the value `c`
returned by `getc` (`none` is `EOF`). The blocks grow only when
`textLen > bufsize`; `g_realloc` keeps the `bufsize` bytes of the old block and
the new bytes are whatever the heap holds (`heap`). A write at index `bufsize`
lands behind the block and is not part of it. -/
def loadStep (heap : Nat → Nat) (s : LoadState) (c : Option Nat) : LoadState :=
  let enc1 :=
    if s.encText.length < s.textLen then
      s.encText ++ (List.range MAXCIPHERLEN).map (fun d => heap (s.encText.length + d))
    else s.encText
  match c with
  | some b =>
    if isalpha b then
      ⟨enc1.set s.textLen (tolower b), s.textLen + 1,
        fun j => if j = tolower b - chA then s.freq j + 1 else s.freq j⟩
    else ⟨enc1, s.textLen, s.freq⟩
  | none => ⟨enc1, s.textLen, s.freq⟩

/-- The function `cryptoLoad` without solution file, on the bytes of a
cryptogram file that could be opened: the state after the reading loop, which
runs once for every byte and once more for the `EOF` that ends it. The array
`freq` starts from its static initialiser. -/
def cryptoLoad (bytes : List Nat) (heap : Nat → Nat) : LoadState :=
  loadStep heap
    (bytes.foldl (fun s b => loadStep heap s (some b))
      ⟨(List.range MAXCIPHERLEN).map heap, 0, fun _ => 0⟩)
    none

/-- The array `encKey` of `main` after the loop
`encKey[bestKey[i]-'a'] = 'a'+i`; `init` holds the 26 bytes of the array
before the loop. The statement `encKey[NUMSYMBOLS] = NUL` that follows writes
behind the array. -/
def encKeyOf (bestKey : Key) (init : List Nat) : List Nat :=
  (List.range NUMSYMBOLS).foldl (fun enc i => enc.set (bestKey.getD i 0 - chA) (chA + i)) init

/-- The options checked by the solver's `main` and `argc`, after the parsing
of the command line. -/
structure Options where
  ngramLen : Int
  maxThreads : Int
  numTrials : Int
  muteRate : Int
  argc : Nat

/-- The function `main` of the solver, as far as its control flow goes: its
exit status and whether `cryptoSolve` is run, from the result of the parsing
of the options, the way `scoreInit` ends and the result of `cryptoLoad`. The
value returned by `scoreInit` is not looked at. -/
def solverMain {α : Type} (parseOk : Bool) (o : Options) (init : InitResult α)
    (loadOk : Bool) : Option (Int × Bool) :=
  if parseOk = false then some (1, false)
  else if o.ngramLen < 1 ∨ (MAXNGRAMLEN : Int) < o.ngramLen then some (1, false)
  else if o.maxThreads < 1 then some (1, false)
  else if o.numTrials < 1 then some (1, false)
  else if o.muteRate < 0 ∨ 100 < o.muteRate then some (1, false)
  else if o.argc < 2 then some (1, false)
  else
    match init with
    | InitResult.aborted => none
    | _ => if loadOk then some (0, true) else some (0, false)

/-! ## Test data -/

/-- Tables holding one prior, for the 1-gram `a` (value `a`), and one
conditional entry, for the 2-gram with bytes `g` (value `b`), with
`scoreZero = c`. -/
def twoGramTables {α : Type} (g : List Nat) (a b c : α) : ScoreTables α :=
  ⟨[([97], a)], [(g, b)], c, 675⟩

/-- The memory holding the bytes `s` followed by the bytes given by `rest`. -/
def memOf (s : List Nat) (rest : Nat → Nat) : Nat → Nat :=
  fun i => if i < s.length then s.getD i 0 else rest i

/-- The probability read on a line (0 for a malformed line). -/
def lineValue {α : Type} [Zero α] : ScoreLine α → α
  | ScoreLine.entry _ v => v
  | ScoreLine.malformed => 0

/-- Insertion of the pair `x` into a sorted prefix given in reverse order (its
head is the entry just below the hole): entries with a smaller fitness move
up. -/
def insRev {α : Type} [LT α] [DecidableRel (fun a b : α => a < b)] (x : Key × α) :
    List (Key × α) → List (Key × α)
  | [] => [x]
  | y :: ys => if y.2 < x.2 then y :: insRev x ys else x :: y :: ys

/-- The effect of one outer iteration of `genSort` on the list of pairs. -/
def stepPairs {α : Type} [LT α] [DecidableRel (fun a b : α => a < b)] [Zero α]
    (l : List (Key × α)) (k : Nat) : List (Key × α) :=
  (insRev (l.getD k ([], 0)) (l.take k).reverse).reverse ++ l.drop (k + 1)

/-- The probability mass given to the observed n-grams: the sum of
`p[i] * n[i]`. -/
def seenMass {α : Type} [Field α] (p : List α) (n : List Int) : α :=
  ((List.range n.length).map (fun i => p.getD i 0 * (n.getD i 0 : α))).sum

/-- The node reached from a node along a path of child slots (`NULL` when a
child on the way does not exist). -/
def nodeAt : trieNode → List (Fin 26) → trieNode
  | t, [] => t
  | trieNode.null, _ :: _ => trieNode.null
  | trieNode.node _ _ ch, i :: p => nodeAt (ch i) p

/-- The slot paths of the calls made by `trieTraverseLevel`, in the order of
the calls. -/
def levelPaths : trieNode → Nat → List (List (Fin 26))
  | trieNode.null, _ => []
  | trieNode.node _ _ _, 0 => [[]]
  | trieNode.node _ _ ch, k + 1 =>
    (List.finRange 26).flatMap (fun i => (levelPaths (ch i) k).map (fun p => i :: p))

/-- The letters of a slot path. -/
def pathLetters (p : List (Fin 26)) : List Nat := p.map (fun i => chA + i.val)

/-- Below a node reached along the letters `path`, a node carries an n-gram
string exactly at depth `n`, and the string is the letters of its path. -/
def NgramOk (n : Nat) : List Nat → trieNode → Prop
  | _, trieNode.null => True
  | path, trieNode.node g _ ch =>
    g = (if path.length = n then some path else none) ∧
    ∀ i : Fin 26, NgramOk n (path ++ [chA + i.val]) (ch i)

/-- Every node below (and including) the node given has a `total` between 0
and `B`. -/
def TotalsIn (B : Int) : trieNode → Prop
  | trieNode.null => True
  | trieNode.node _ t ch => (0 ≤ t ∧ t ≤ B) ∧ ∀ i, TotalsIn B (ch i)

/-- The number of places where the letter with index `j` stands next to
another letter, in a text given by the indices of its letters. -/
def countAdj (j : Nat) : List Nat → Int
  | a :: b :: rest =>
    (if j = b ∧ a ≠ j then 1 else 0) + (if j = a ∧ b ≠ j then 1 else 0) + countAdj j (b :: rest)
  | _ => 0

/-- The text `amanaplanacanalpanama`. -/
def panama : List Nat :=
  [97, 109, 97, 110, 97, 112, 108, 97, 110, 97, 99, 97, 110, 97, 108, 112, 97, 110, 97, 109, 97]

/-- The text `amanaplanacanalpanama` repeated and cut to 500 letters. -/
def panama500 : List Nat := ((List.replicate 24 panama).flatten).take 500

/-- The ciphertext of `plain` under the substitution that sends the letter
with index `i` to `key[i]`. -/
def encryptWith (key : Key) (plain : List Nat) : List Nat :=
  plain.map (fun p => key.getD (p - chA) 0)

/-- The alphabetic bytes of `bytes`, in order and lowercased. -/
def lettersOf (bytes : List Nat) : List Nat := (bytes.filter isalpha).map tolower

/-- The token that remains after deleting the leading and the trailing
punctuation of `s` and every embedded character of the list `punct`. -/
def cleanToken (s : List Nat) : List Nat :=
  (((s.dropWhile ispunct).reverse.dropWhile ispunct).reverse).filter
    (fun c => !punct.contains c)

/-- The reference procedure: `A[x][y]`, the number of adjacent positions of
the text (letter indices) that hold the letters `x` and `y` in either order,
with zero diagonal. -/
def sukhotinA (t : List Nat) (x y : Nat) : Int :=
  if x = y then 0
  else (((t.zip t.tail).filter
    (fun q => decide ((q.1 = x ∧ q.2 = y) ∨ (q.1 = y ∧ q.2 = x)))).length : Int)

/-- The reference procedure: `S[x]`, the sum over `y` of `A[x][y]`. -/
def sukhotinS (t : List Nat) (x : Nat) : Int := ∑ y in Finset.range 26, sukhotinA t x y

/-- The reference procedure: the lowest-index non-vowel `v` with maximal
`S[v]`. -/
def sukhotinSelect (isV : Nat → Bool) (S : Nat → Int) : Option Nat :=
  (List.range 26).find?
    (fun v => !isV v && (List.range 26).all (fun i => isV i || decide (S i ≤ S v)))

/-- The reference procedure: the rounds. A round accepts the letter selected
only if its sum is positive and fewer than 7 vowels are chosen, and then
lowers the sum of every remaining non-vowel `i` by `2 * A[i][v]`. -/
def sukhotinRounds (A : Nat → Nat → Int) : Nat → VowState → List Nat
  | 0, st => st.vowels
  | fuel + 1, st =>
    match sukhotinSelect st.isVowel st.csum with
    | some v =>
      if 0 < st.csum v ∧ st.vowels.length < 7 then
        sukhotinRounds A fuel
          ⟨fun i => if i = v then true else st.isVowel i,
            fun i => if i < 26 ∧ i ≠ v ∧ st.isVowel i = false
              then st.csum i - 2 * A i v else st.csum i,
            st.vowels ++ [97 + v]⟩
      else st.vowels
    | none => st.vowels

/-- The reference Sukhotin procedure on a text: the list of vowels. -/
def sukhotin (encText : List Nat) : List Nat :=
  sukhotinRounds (sukhotinA (encText.map (fun c => c - 97))) 8
    ⟨fun _ => false, sukhotinS (encText.map (fun c => c - 97)), []⟩

/-- The entry of `n` that stands at the index of the value `x` in `r` (0 when
`x` does not occur in `r`). -/
def lookupN (x : Int) : List Int → List Int → Int
  | R :: rs, N :: ns => if R = x then N else lookupN x rs ns
  | _, _ => 0

/-- The sum over `i` of `r[i] * n[i]`. -/
def dotRN (r n : List Int) : Int := ((r.zip n).map (fun q => q.1 * q.2)).sum

/-- The effect of one mutation of `genMutate` on an individual with key `k`,
at the positions `x` and `y`: they are distinct, `freq[x] > 0` and
`freq[y] > 0`, the letters at `x` and `y` are exchanged, every other position
keeps its letter, the new key `k1` differs from `k`, and the fitness `f1` is
`cryptoEval` of the new key. -/
def IsMutation {α : Type} (ev : Key → α) (freq : List Nat) (k k1 : Key) (f1 : α)
    (x y : Nat) : Prop :=
  x < 26 ∧ y < 26 ∧ x ≠ y ∧ 0 < freq.getD x 0 ∧ 0 < freq.getD y 0 ∧
    k1.length = k.length ∧ k1.getD x 0 = k.getD y 0 ∧ k1.getD y 0 = k.getD x 0 ∧
    (∀ t, t ≠ x → t ≠ y → k1.getD t 0 = k.getD t 0) ∧ k1 ≠ k ∧ f1 = ev k1

/-- The variables of `cryptoLoad` when its reading loop has consumed the
bytes `bytes` and the end of the file has not been seen yet. The length of
`encText` is the capacity `bufsize` of the block. -/
def loadPrefix (bytes : List Nat) (heap : Nat → Nat) : LoadState :=
  bytes.foldl (fun s b => loadStep heap s (some b))
    ⟨(List.range MAXCIPHERLEN).map heap, 0, fun _ => 0⟩

/-- The key positions `vowels[j] - 'a'` of the vowels found by the seeder, in
the order of `vowels`. -/
def vowelPositions (vowels : List Nat) : List Nat := vowels.map (fun v => v - chA)

/-- The key positions not marked in `isVowel`, in ascending order. -/
def otherPositions (isVowel : Nat → Bool) : List Nat :=
  (List.range NUMSYMBOLS).filter (fun x => !isVowel x)

/-- The letters of a key at the positions given, in their order. -/
def lettersAt (k : Key) (ps : List Nat) : List Nat := ps.map (fun p => k.getD p 0)

/-- The ciphertext `abacdc`, in which the seeder finds the vowels `a` and `d`. -/
def abacdc : List Nat := [97, 98, 97, 99, 100, 99]

/-! # Theorems -/

/-! ## The scorer -/

theorem foldl_add_eq_sum {α : Type} [AddMonoid α] (f : Nat → α) (l : List Nat) (a : α) :
    l.foldl (fun s i => s + f i) a = a + (l.map f).sum := by
  induction l generalizing a with
  | nil => simp
  | cons x xs ih => simp [ih, add_assoc]

/-- What `scoreEval` computes: the prior of the leading (n-1)-gram plus the
window values for the offsets `n-1 .. len-1`. -/
theorem scoreEval_eq_sum {α : Type} [AddMonoid α] (n : Nat) (t : ScoreTables α)
    (str : Nat → Nat) (len : Nat) (h : len > n) :
    scoreEval n t str len
      = some (priorScore n t str
          + ((List.range' (n - 1) (len - (n - 1))).map (condScore n t str)).sum) := by
  simp [scoreEval, h, foldl_add_eq_sum]

/-- For 1-grams the windows of `scoreEval` are those of the specification. -/
theorem scoreEval_one_eq_spec {α : Type} [AddMonoid α] (t : ScoreTables α)
    (str : Nat → Nat) (len : Nat) (h : len > 1) :
    scoreEval 1 t str len = some (scoreEvalSpec 1 t str len) := by
  rw [scoreEval_eq_sum 1 t str len h]
  have e : len - 1 + 1 = len := by omega
  simp [scoreEvalSpec, e, List.range_eq_range']

/-- C1 (fails on the code): with the tables loaded from the files
`a 0.5` and `ab 0.25` and n = 2, `scoreEval("abc", 3)` is
`prior(a) + scoreZero + scoreZero` whatever follows the text in memory, since
its windows start at the offsets 1 and 2; the specification's sum over the
offsets 0 and 1 is `prior(a) + cond(ab) + scoreZero`, a different number.
Moreover the result on the text `cca` changes with the byte stored behind
the text. -/
theorem scoreEval_windows_start_at_n_minus_1 :
    scoreInit Real.log 2 (some [ScoreLine.entry [97] (1 / 2)])
        (some [ScoreLine.entry [97, 98] (1 / 4)])
      = InitResult.loaded (twoGramTables [97, 98] (Real.log (1 / 2))
          (Real.log (1 / 4) - Real.log (1 / 2)) (Real.log ((1 - 1 / 4) / ((675 : Nat) : ℝ)))) ∧
    (∀ (a b c : ℝ) (rest : Nat → Nat),
      scoreEval 2 (twoGramTables [97, 98] a b c) (memOf [97, 98, 99] rest) 3
        = some (a + c + c) ∧
      scoreEvalSpec 2 (twoGramTables [97, 98] a b c) (memOf [97, 98, 99] rest) 3
        = a + (b + c)) ∧
    Real.log (1 / 2) + Real.log ((1 - 1 / 4) / ((675 : Nat) : ℝ))
        + Real.log ((1 - 1 / 4) / ((675 : Nat) : ℝ))
      ≠ Real.log (1 / 2) + ((Real.log (1 / 4) - Real.log (1 / 2))
        + Real.log ((1 - 1 / 4) / ((675 : Nat) : ℝ))) ∧
    (∀ a b c : ℝ,
      scoreEval 2 (twoGramTables [97, 98] a b c) (memOf [99, 99, 97] (fun _ => 98)) 3
        = some (0 + c + b) ∧
      scoreEval 2 (twoGramTables [97, 98] a b c) (memOf [99, 99, 97] (fun _ => 99)) 3
        = some (0 + c + c)) := by
  refine ⟨?_, ?_, ?_, ?_⟩
  · simp [scoreInit, loadPrior, loadCond, hashInsert, hashLookup, cstr, countZeroSeed,
      NUMSYMBOLS, twoGramTables]
  · intro a b c rest
    constructor
    · simp [scoreEval, condScore, priorScore, memRead, memOf, hashLookup, cstr, twoGramTables,
        List.range', List.range, List.range.loop]
    · simp [scoreEvalSpec, condScore, priorScore, memRead, memOf, hashLookup, cstr,
        twoGramTables, List.range, List.range.loop]
  · have h3 : Real.log ((1 - 1 / 4) / ((675 : Nat) : ℝ)) = Real.log (1 / 900) := by
      congr 1; norm_num
    have h4 : Real.log (1 / 4) - Real.log (1 / 2) = Real.log (1 / 2) := by
      rw [← Real.log_div (by norm_num) (by norm_num)]; congr 1; norm_num
    rw [h3, h4]
    intro h
    have h5 : Real.log (1 / 900) = Real.log (1 / 2) := by linarith
    have := Real.log_injOn_pos (by simp) (by simp) h5
    norm_num at this
  · intro a b c
    constructor <;>
    simp [scoreEval, condScore, priorScore, memRead, memOf, hashLookup, cstr, twoGramTables,
      List.range', List.range, List.range.loop]

/-- When no stored value and not `scoreZero` is positive, `scoreEval` is at
most 0. -/
theorem scoreEval_nonpos {α : Type} [LinearOrderedField α] (n : Nat) (t : ScoreTables α)
    (str : Nat → Nat) (len : Nat) (v : α)
    (hp : ∀ k w, hashLookup t.scorePrior k = some w → w ≤ 0)
    (hc : ∀ k w, hashLookup t.scoreCond k = some w → w ≤ 0)
    (hz : t.scoreZero ≤ 0)
    (h : scoreEval n t str len = some v) : v ≤ 0 := by
  unfold scoreEval at h
  split at h
  · rename_i hlen
    have h' := scoreEval_eq_sum n t str len hlen
    unfold scoreEval at h'
    simp only [hlen, if_true] at h'
    rw [h'] at h
    simp only [Option.some.injEq] at h
    subst h
    apply add_nonpos
    · unfold priorScore
      split
      · rename_i w hw; exact hp _ _ hw
      · exact le_refl _
    · have hs := List.sum_le_card_nsmul
        ((List.range' (n - 1) (len - (n - 1))).map (condScore n t str)) (0 : α) (by
          intro x hx
          simp only [List.mem_map] at hx
          obtain ⟨i, _, rfl⟩ := hx
          unfold condScore
          split
          · rename_i w hw; exact hc _ _ hw
          · exact hz)
      simpa using hs
  · simp at h

/-- C4 (fails on the code): with the tables loaded from the files `a 0.001`
and `aa 0.5` and n = 2, the ciphertext `aaaaa` and the identity key,
`cryptoEval` returns `log 0.001 + 3 (log 0.5 - log 0.001)` plus the value of
the window that starts at the last letter (`log 0.5 - log 0.001` when the
byte behind the text is an `a`, `scoreZero` otherwise): a positive number in
both cases. -/
theorem cryptoEval_positive_score :
    scoreInit Real.log 2 (some [ScoreLine.entry [97] (1 / 1000)])
        (some [ScoreLine.entry [97, 97] (1 / 2)])
      = InitResult.loaded (twoGramTables [97, 97] (Real.log (1 / 1000))
          (Real.log (1 / 2) - Real.log (1 / 1000))
          (Real.log ((1 - 1 / 2) / ((675 : Nat) : ℝ)))) ∧
    (∀ (a b c : ℝ) (stack : Nat → Nat),
      cryptoEval 2 (twoGramTables [97, 97] a b c) [97, 97, 97, 97, 97] stack alphabet
        = some (a + b + b + b + (if stack 5 = 97 then b else c))) ∧
    0 < Real.log (1 / 1000) + (Real.log (1 / 2) - Real.log (1 / 1000))
        + (Real.log (1 / 2) - Real.log (1 / 1000)) + (Real.log (1 / 2) - Real.log (1 / 1000))
        + Real.log ((1 - 1 / 2) / ((675 : Nat) : ℝ)) ∧
    0 < Real.log (1 / 1000) + (Real.log (1 / 2) - Real.log (1 / 1000))
        + (Real.log (1 / 2) - Real.log (1 / 1000)) + (Real.log (1 / 2) - Real.log (1 / 1000))
        + (Real.log (1 / 2) - Real.log (1 / 1000)) := by
  have h1 : Real.log (1 / 1000) = - Real.log 1000 := by rw [one_div, Real.log_inv]
  have h2 : Real.log (1 / 2) = - Real.log 2 := by rw [one_div, Real.log_inv]
  have h3 : Real.log ((1 - 1 / 2) / ((675 : Nat) : ℝ)) = - Real.log 1350 := by
    rw [show ((1 : ℝ) - 1 / 2) / ((675 : Nat) : ℝ) = (1350)⁻¹ by norm_num, Real.log_inv]
  have h4 : Real.log 1350 + 3 * Real.log 2 < 2 * Real.log 1000 := by
    have e1 : Real.log 1350 + 3 * Real.log 2 = Real.log (1350 * 2 ^ 3) := by
      rw [Real.log_mul (by norm_num) (by norm_num), Real.log_pow]; norm_num
    have e2 : 2 * Real.log 1000 = Real.log (1000 ^ 2) := by
      rw [Real.log_pow]; norm_num
    rw [e1, e2]
    exact Real.log_lt_log (by norm_num) (by norm_num)
  have h5 : Real.log 2 < Real.log 1000 := Real.log_lt_log (by norm_num) (by norm_num)
  have h6 : 0 < Real.log 1350 := Real.log_pos (by norm_num)
  refine ⟨?_, ?_, ?_, ?_⟩
  · simp [scoreInit, loadPrior, loadCond, hashInsert, hashLookup, cstr, countZeroSeed,
      NUMSYMBOLS, twoGramTables]
  · intro a b c stack
    by_cases h : stack 5 = 97
    · simp [cryptoEval, tryText, alphabet, chA, NUMSYMBOLS, scoreEval, condScore, priorScore,
        memRead, hashLookup, cstr, twoGramTables, List.range', List.range, List.range.loop, h]
    · by_cases h0 : stack 5 = 0
      · simp [cryptoEval, tryText, alphabet, chA, NUMSYMBOLS, scoreEval, condScore,
          priorScore, memRead, hashLookup, cstr, twoGramTables, List.range', List.range,
          List.range.loop, h, h0]
      · have hb : (stack 5 != 0) = true := by simpa using h0
        have hs : ¬ 97 = stack 5 := fun e => h e.symm
        simp [cryptoEval, tryText, alphabet, chA, NUMSYMBOLS, scoreEval, condScore,
          priorScore, memRead, hashLookup, cstr, twoGramTables, List.range', List.range,
          List.range.loop, h, hb, hs]
  · rw [h1, h2, h3]
    linarith
  · rw [h1, h2]
    linarith

/-- Up to n = 6 the seed of `countZero` is 26^n. -/
theorem countZeroSeed_small (n : Nat) (h : n ≤ 6) : countZeroSeed n = 26 ^ n := by
  unfold countZeroSeed NUMSYMBOLS
  interval_cases n <;> norm_num

theorem loadCond_loaded {α : Type} [Field α] (log : α → α) (n : Nat) (prior : HashTable α)
    (lines : List (ScoreLine α)) (c : HashTable α) (z : α) (k : Nat) (t : ScoreTables α)
    (hk : lines.length ≤ k) (hk2 : k < 2 ^ 32)
    (h : loadCond log n prior lines (c, z, k) = InitResult.loaded t) :
    t.scoreZero = z - (lines.map lineValue).sum ∧ t.countZero = k - lines.length := by
  induction lines generalizing c z k with
  | nil =>
    simp only [loadCond, InitResult.loaded.injEq] at h
    subst h
    simp
  | cons l rest ih =>
    cases l with
    | malformed => simp [loadCond] at h
    | entry g v =>
      simp only [loadCond] at h
      split at h
      · simp at h
      · simp only [List.length_cons] at hk
        have hk' : (k + 2 ^ 32 - 1) % 2 ^ 32 = k - 1 := by omega
        rw [hk'] at h
        obtain ⟨h1, h2⟩ := ih _ _ _ (by omega) (by omega) h
        refine ⟨?_, ?_⟩
        · rw [h1]; simp [lineValue]; ring
        · rw [h2]; simp; omega

/-- Up to n = 6 and for a file of at most 26^n lines, a successful
`scoreInit` ends with `scoreZero = log((1 - P) / (26^n - s))`. -/
theorem scoreInit_scoreZero {α : Type} [Field α] (log : α → α) (n : Nat)
    (pf : Option (List (ScoreLine α))) (nl : List (ScoreLine α)) (t : ScoreTables α)
    (hn : n ≤ 6) (hs : nl.length ≤ 26 ^ n)
    (h : scoreInit log n pf (some nl) = InitResult.loaded t) :
    t.scoreZero = log ((1 - (nl.map lineValue).sum) / ((26 ^ n - nl.length : Nat) : α)) := by
  unfold scoreInit at h
  cases pf with
  | none => simp at h
  | some pl =>
    simp only at h
    cases hp : loadPrior log pl [] with
    | none => simp [hp] at h
    | some prior =>
      simp only [hp] at h
      cases hc : loadCond log n prior nl ([], 1, countZeroSeed n) with
      | failed => simp [hc] at h
      | aborted => simp [hc] at h
      | loaded t1 =>
        simp only [hc, InitResult.loaded.injEq] at h
        have hseed := countZeroSeed_small n hn
        have hlt : countZeroSeed n < 2 ^ 32 := by
          unfold countZeroSeed; exact Nat.mod_lt _ (by norm_num)
        obtain ⟨h1, h2⟩ := loadCond_loaded log n prior nl [] 1 (countZeroSeed n) t1
          (by rw [hseed]; exact hs) hlt hc
        subst h
        simp only
        rw [h1, h2, hseed]

/-- C10 (fails on the code): for n = 7 the 32-bit counter `countZero` starts
at 26^7 mod 2^32 = 3736842880, not at 26^7 = 8031810176 (and for n = 8 it
does not start at 26^8 either; no value of a 32-bit counter reaches 26^7);
with empty files `scoreInit` ends with `scoreZero = log(1 / 3736842880)`,
which is not `log((1 - 0) / (26^7 - 0))`. -/
theorem countZero_seed_wraps :
    countZeroSeed 7 = 3736842880 ∧ countZeroSeed 7 ≠ 26 ^ 7 ∧ countZeroSeed 8 ≠ 26 ^ 8 ∧
    (∀ n, countZeroSeed n < 2 ^ 32) ∧ 2 ^ 32 < 26 ^ 7 ∧
    scoreInit Real.log 7 (some []) (some [])
      = InitResult.loaded ⟨[], [], Real.log (1 / ((3736842880 : Nat) : ℝ)), 3736842880⟩ ∧
    Real.log (1 / ((3736842880 : Nat) : ℝ)) ≠ Real.log ((1 - 0) / ((26 ^ 7 - 0 : Nat) : ℝ)) := by
  refine ⟨by decide, by decide, by decide, ?_, by decide, ?_, ?_⟩
  · intro n
    unfold countZeroSeed
    exact Nat.mod_lt _ (by decide)
  · simp [scoreInit, loadPrior, loadCond, countZeroSeed, NUMSYMBOLS]
  · intro h
    have := Real.log_injOn_pos (by simp) (by simp) h
    norm_num at this

/-! ## Keys and swaps -/

theorem length_swapKey (k : Key) (x y : Nat) : (swapKey k x y).length = k.length := by
  simp [swapKey]

theorem getD_swapKey (k : Key) (x y t : Nat) (hx : x < k.length) (hy : y < k.length) :
    (swapKey k x y).getD t 0
      = if t = y then k.getD x 0 else if t = x then k.getD y 0 else k.getD t 0 := by
  simp only [swapKey, List.getD_eq_getElem?_getD, List.getElem?_set, List.length_set]
  by_cases h1 : y = t
  · subst h1; simp [hy]
  · by_cases h2 : x = t
    · subst h2; simp [h1, hx, Ne.symm h1]
    · simp [h1, h2, Ne.symm h1, Ne.symm h2]

theorem getD_ext (k l : List Nat) (hl : k.length = l.length)
    (h : ∀ t, t < k.length → k.getD t 0 = l.getD t 0) : k = l := by
  apply List.ext_getElem hl
  intro t h1 h2
  have := h t h1
  simpa [List.getD_eq_getElem?_getD, List.getElem?_eq_getElem h1,
    List.getElem?_eq_getElem h2] using this

theorem swapKey_swapKey (k : Key) (x y : Nat) (hx : x < k.length) (hy : y < k.length) :
    swapKey (swapKey k x y) x y = k := by
  apply getD_ext
  · simp [length_swapKey]
  · intro t _
    rw [getD_swapKey (swapKey k x y) x y t (by simpa [length_swapKey] using hx)
      (by simpa [length_swapKey] using hy)]
    rw [getD_swapKey k x y x hx hy, getD_swapKey k x y y hx hy, getD_swapKey k x y t hx hy]
    by_cases a : t = y
    · subst a
      by_cases b : x = t
      · subst b; simp
      · simp [b]
    · by_cases b : t = x
      · subst b; simp [a]
      · simp [a, b]

theorem swapKey_perm (k : Key) (x y : Nat) (hx : x < k.length) (hy : y < k.length) :
    List.Perm (swapKey k x y) k := by
  rw [List.perm_iff_count]
  intro b
  have e2 : k.getD y 0 = k[y] := by simp [hy]
  have e3 : k.getD x 0 = k[x] := by simp [hx]
  unfold swapKey
  simp only
  rw [e2, e3]
  rw [List.count_set _ _ _ _ (by simpa using hy), List.count_set _ _ _ _ hx]
  have hy2 : y < (k.set x k[y]).length := by simpa using hy
  have e1 : (k.set x k[y])[y] = k[y] := by
    rw [List.getElem_set]
    split
    · rename_i h; subst h; rfl
    · rfl
  rw [e1]
  have b1 : (if k[x] == b then 1 else 0) ≤ k.count b := by
    split
    · rename_i h
      have : k[x] = b := by simpa using h
      have hm : b ∈ k := this ▸ List.getElem_mem hx
      exact List.count_pos_iff.mpr hm
    · omega
  generalize (if k[x] == b then 1 else 0) = u at *
  generalize (if k[y] == b then 1 else 0) = v at *
  omega

theorem IsKeyPerm.length {k : Key} (h : IsKeyPerm k) : k.length = 26 := by
  have := List.Perm.length_eq h
  simpa [alphabet, NUMSYMBOLS] using this

theorem IsKeyPerm.swapKey {k : Key} (h : IsKeyPerm k) (x y : Nat) (hx : x < 26) (hy : y < 26) :
    IsKeyPerm (swapKey k x y) :=
  List.Perm.trans (swapKey_perm k x y (by rw [h.length]; exact hx) (by rw [h.length]; exact hy)) h

theorem crossFind_some (px : Key) (c : Nat) (fuel j r : Nat)
    (h : crossFind px c fuel j = some r) : j ≤ r ∧ r < j + fuel ∧ px.getD r 0 = c := by
  induction fuel generalizing j with
  | zero => simp [crossFind] at h
  | succ f ih =>
    simp only [crossFind] at h
    split at h
    · obtain ⟨h1, h2, h3⟩ := ih (j + 1) h
      exact ⟨by omega, by omega, h3⟩
    · rename_i hc
      simp only [Option.some.injEq] at h
      subst h
      exact ⟨le_refl _, by omega, by simpa using hc⟩

theorem crossFind_exists (px : Key) (c : Nat) (fuel j r : Nat)
    (h1 : j ≤ r) (h2 : r < j + fuel) (h3 : px.getD r 0 = c) :
    ∃ s, crossFind px c fuel j = some s := by
  induction fuel generalizing j with
  | zero => omega
  | succ f ih =>
    simp only [crossFind]
    split
    · rename_i hc
      have hne : j ≠ r := by
        intro e; subst e; exact hc h3
      exact ih (j + 1) (by omega) (by omega)
    · exact ⟨j, rfl⟩

/-- In a permutation key every letter that occurs in a permutation key is found. -/
theorem crossFind_perm (px py : Key) (hx : IsKeyPerm px) (hy : IsKeyPerm py) (i : Nat)
    (hi : i < 26) :
    ∃ j, crossFind px (py.getD i 0) NUMSYMBOLS 0 = some j ∧ j < 26 ∧
      px.getD j 0 = py.getD i 0 := by
  have hly := hy.length
  have hlx := hx.length
  have hmem : py.getD i 0 ∈ px := by
    have h1 : py.getD i 0 ∈ py := by
      have hi2 : i < py.length := by omega
      have : py.getD i 0 = py[i] := by simp [hi2]
      rw [this]; exact List.getElem_mem _
    exact (List.Perm.mem_iff hx).mpr ((List.Perm.mem_iff hy).mp h1)
  obtain ⟨r, hr, hr2⟩ := List.getElem_of_mem hmem
  have hr3 : px.getD r 0 = py.getD i 0 := by
    rw [← hr2]; simp [hr]
  obtain ⟨s, hs⟩ := crossFind_exists px (py.getD i 0) NUMSYMBOLS 0 r (Nat.zero_le _)
    (by simp [NUMSYMBOLS]; omega) hr3
  obtain ⟨_, h2, h3⟩ := crossFind_some _ _ _ _ _ hs
  exact ⟨s, hs, by simpa [NUMSYMBOLS] using h2, h3⟩

theorem crossStep_spec {α : Type} [LinearOrder α] (ev : Key → α) (px py : Key)
    (st : Key × α) (i : Nat) (hx : IsKeyPerm px) (hy : IsKeyPerm py)
    (hst : st.1.length = 26) (hi : i < 26) (hd : px.getD i 0 ≠ py.getD i 0) :
    ∃ j, j < 26 ∧ j ≠ i ∧ px.getD j 0 = py.getD i 0 ∧
      crossStep ev px py st i
        = some (if st.2 ≤ ev (swapKey st.1 i j) then (swapKey st.1 i j, ev (swapKey st.1 i j))
                else st) := by
  obtain ⟨j, hj, hj26, hjc⟩ := crossFind_perm px py hx hy i hi
  refine ⟨j, hj26, ?_, hjc, ?_⟩
  · intro e; subst e; exact hd hjc
  · unfold crossStep
    simp only [hd, ne_eq, not_false_eq_true, if_true, hj]
    by_cases hlt : ev (swapKey st.1 i j) < st.2
    · simp only [hlt, if_true, not_le.mpr hlt, if_false]
      rw [swapKey_swapKey _ _ _ (by omega) (by omega)]
    · simp only [hlt, if_false, not_lt.mp hlt, if_true]

theorem crossStep_same {α : Type} [LinearOrder α] (ev : Key → α) (px py : Key)
    (st : Key × α) (i : Nat) (hd : px.getD i 0 = py.getD i 0) :
    crossStep ev px py st i = some st := by
  simp only [crossStep, hd, ne_eq, not_true_eq_false, if_false]

theorem crossLoop_perm {α : Type} [LinearOrder α] (ev : Key → α) (px py : Key)
    (hx : IsKeyPerm px) (hy : IsKeyPerm py) (is : List Nat) (his : ∀ i ∈ is, i < 26)
    (st : Key × α) (hst : IsKeyPerm st.1) :
    ∃ st1, crossLoop ev px py is st = some st1 ∧ IsKeyPerm st1.1 := by
  induction is generalizing st with
  | nil => exact ⟨st, rfl, hst⟩
  | cons i rest ih =>
    have hi : i < 26 := his i (List.mem_cons_self _ _)
    have hrest : ∀ t ∈ rest, t < 26 := fun t ht => his t (List.mem_cons_of_mem _ ht)
    simp only [crossLoop]
    by_cases hd : px.getD i 0 = py.getD i 0
    · rw [crossStep_same ev px py st i hd]
      exact ih hrest st hst
    · obtain ⟨j, hj, _, _, hstep⟩ := crossStep_spec ev px py st i hx hy hst.length hi hd
      rw [hstep]
      apply ih hrest
      split
      · exact hst.swapKey i j hi hj
      · exact hst

theorem genCrossover_perm {α : Type} [LinearOrder α] (ev : Key → α) (popKey : List Key)
    (x y : Nat) (hx : IsKeyPerm (popKey.getD x [])) (hy : IsKeyPerm (popKey.getD y [])) :
    ∃ child, genCrossover ev popKey x y = some child ∧ IsKeyPerm child := by
  obtain ⟨st1, h1, h2⟩ := crossLoop_perm ev _ _ hx hy (List.range NUMSYMBOLS)
    (by intro i hi; simpa [NUMSYMBOLS] using hi) (popKey.getD x [], ev (popKey.getD x [])) hx
  refine ⟨st1.1, ?_, h2⟩
  unfold genCrossover
  simp only [h1, Option.map_some']

/-- C2 (as amended): at a position `i` where two permutation parents differ,
the letter of the second parent is found at a position `j` of the first, and
the tentative swap of the working key at `i` and `j` is kept, with its
re-scored fitness, exactly when that fitness is greater than or equal to the
fitness before the swap; it is reverted, leaving key and fitness as they
were, exactly when it is strictly lower. -/
theorem crossStep_keeps_unless_lower {α : Type} [LinearOrder α] (ev : Key → α) (px py : Key)
    (st : Key × α) (i : Nat) (hx : IsKeyPerm px) (hy : IsKeyPerm py)
    (hst : st.1.length = 26) (hi : i < 26) (hd : px.getD i 0 ≠ py.getD i 0) :
    ∃ j, j < 26 ∧ j ≠ i ∧ px.getD j 0 = py.getD i 0 ∧
      crossStep ev px py st i
        = some (if st.2 ≤ ev (swapKey st.1 i j) then (swapKey st.1 i j, ev (swapKey st.1 i j))
                else st) :=
  crossStep_spec ev px py st i hx hy hst hi hd

/-- C2, witness: the parents `abcd...` and `acbd...` at position 1 with a
constant fitness. -/
theorem crossStep_keeps_unless_lower_witness :
    ∃ j, j < 26 ∧ j ≠ 1 ∧ alphabet.getD j 0 = (swapKey alphabet 1 2).getD 1 0 ∧
      crossStep (fun _ => (0 : Int)) alphabet (swapKey alphabet 1 2) (alphabet, 0) 1
        = some (if (0 : Int) ≤ (fun _ => (0 : Int)) (swapKey alphabet 1 j)
                then (swapKey alphabet 1 j, (fun _ => (0 : Int)) (swapKey alphabet 1 j))
                else (alphabet, 0)) :=
  crossStep_keeps_unless_lower (fun _ => (0 : Int)) alphabet (swapKey alphabet 1 2)
    (alphabet, 0) 1 (by decide) (by decide) (by decide) (by decide) (by decide)

/-- C2 (fails as stated): with 1-gram tables, the ciphertext `aa` and the
parents `abcd...` and `acbd...`, the swap of the positions 1 and 2 leaves the
fitness at -2, the value before the swap, and is kept. -/
theorem crossStep_keeps_equal_fitness :
    crossStep (fun k => (cryptoEval 1 ⟨[], [], (-1 : Int), 25⟩ [97, 97] (fun _ => 0) k).getD 0)
        alphabet (swapKey alphabet 1 2)
        (alphabet, (cryptoEval 1 ⟨[], [], (-1 : Int), 25⟩ [97, 97] (fun _ => 0) alphabet).getD 0)
        1
      = some (swapKey alphabet 1 2, -2) ∧
    (cryptoEval 1 ⟨[], [], (-1 : Int), 25⟩ [97, 97] (fun _ => 0) alphabet).getD 0 = -2 ∧
    swapKey alphabet 1 2 ≠ alphabet := by
  decide


/-! ## The initial population and mutation -/

theorem set_zero_perm (k : List Nat) (p g : Nat) (hp : p < k.length) (h0 : k.getD p 0 = 0) :
    List.Perm (k.set p g) (g :: k.erase 0) := by
  rw [List.perm_iff_count]
  intro b
  have e : k[p] = 0 := by simpa [hp] using h0
  rw [List.count_set _ _ _ _ hp, List.count_cons, List.count_erase, e]

theorem take_succ_drop (l : List Nat) (j n : Nat) (hj : j < l.length) :
    (l.drop j).take (n + 1) = l.getD j 0 :: (l.drop (j + 1)).take n := by
  rw [List.drop_eq_getElem_cons hj, List.take_succ_cons]
  simp [hj]

theorem placeVowels_perm (vs : List Nat) (j : Nat) (k A : List Nat) (m : Nat)
    (hk : List.Perm k (A ++ List.replicate m 0)) (hnd : vs.Nodup)
    (hv : ∀ v ∈ vs, chA ≤ v ∧ v - chA < k.length ∧ k.getD (v - chA) 0 = 0)
    (hj : j + vs.length ≤ 7) (hm : vs.length ≤ m) :
    List.Perm (placeVowels vs j k)
      (A ++ ((genVow.drop j).take vs.length ++ List.replicate (m - vs.length) 0)) := by
  induction vs generalizing j k A m with
  | nil => simpa [placeVowels] using hk
  | cons v vs ih =>
    simp only [placeVowels]
    obtain ⟨hv1, hv2, hv3⟩ := hv v (List.mem_cons_self _ _)
    simp only [List.length_cons] at hj hm
    have hnd2 := List.nodup_cons.mp hnd
    obtain ⟨m1, rfl⟩ : ∃ m1, m = m1 + 1 := ⟨m - 1, by omega⟩
    have hk1 : List.Perm (k.set (v - chA) (genVow.getD j 0))
        ((A ++ [genVow.getD j 0]) ++ List.replicate m1 0) := by
      refine (set_zero_perm k _ _ hv2 hv3).trans ?_
      have h1 : List.Perm (k.erase 0) (A ++ List.replicate m1 0) := by
        have h2 := List.Perm.erase 0
          (hk.trans (@List.perm_middle Nat 0 A (List.replicate m1 0)))
        simpa [List.replicate_succ] using h2
      refine (List.Perm.cons _ h1).trans ?_
      simp only [List.append_assoc, List.singleton_append]
      exact List.perm_middle.symm
    have := ih (j + 1) (k.set (v - chA) (genVow.getD j 0)) (A ++ [genVow.getD j 0]) m1 hk1
      hnd2.2 (by
        intro w hw
        obtain ⟨hw1, hw2, hw3⟩ := hv w (List.mem_cons_of_mem _ hw)
        refine ⟨hw1, by simpa using hw2, ?_⟩
        have hne : v - chA ≠ w - chA := by
          intro e
          have : v = w := by omega
          exact hnd2.1 (this ▸ hw)
        rw [List.getD_eq_getElem?_getD, List.getElem?_set_ne hne, ← List.getD_eq_getElem?_getD]
        exact hw3) (by omega) (by omega)
    simp only [List.length_cons]
    rw [take_succ_drop genVow j vs.length (by simp [genVow]; omega)]
    have e : m1 + 1 - (vs.length + 1) = m1 - vs.length := by omega
    rw [e]
    simpa [List.append_assoc] using this

theorem fillRest_perm (nv : Nat) (xs : List Nat) (c z : Nat) (hz : xs.count 0 = z)
    (hb : c + nv + z ≤ 26) :
    List.Perm (fillRest nv xs c)
      (xs.filter (fun x => x != 0) ++ (genKey.drop (c + nv)).take z) := by
  induction xs generalizing c z with
  | nil => simp at hz; subst hz; simp [fillRest]
  | cons x xs ih =>
    simp only [fillRest]
    split
    · rename_i hx
      subst hx
      simp only [List.count_cons_self] at hz
      subst hz
      have h1 := ih (c + 1) (xs.count 0) rfl (by omega)
      rw [take_succ_drop genKey (c + nv) _ (by simp [genKey]; omega)]
      simp only [bne_self_eq_false, Bool.false_eq_true, not_false_eq_true, List.filter_cons_of_neg]
      refine (List.Perm.cons _ ?_).trans List.perm_middle.symm
      have e : c + 1 + nv = c + nv + 1 := by omega
      rw [e] at h1
      exact h1
    · rename_i hx
      have hz2 : xs.count 0 = z := by
        rw [List.count_cons_of_ne (fun h => hx h.symm)] at hz
        exact hz
      have h1 := ih c z hz2 hb
      have : (x != 0) = true := by simpa using hx
      simp only [this, List.filter_cons_of_pos, List.cons_append]
      exact List.Perm.cons _ h1

theorem seedKey_perm (vowels : List Nat) (hnd : vowels.Nodup)
    (hv : ∀ v ∈ vowels, chA ≤ v ∧ v < chA + 26) (hl : vowels.length ≤ 7) :
    IsKeyPerm (seedKey vowels) := by
  have hP := placeVowels_perm vowels 0 (List.replicate NUMSYMBOLS 0) [] 26
    (by simp [NUMSYMBOLS]) hnd
    (by
      intro v h
      obtain ⟨h1, h2⟩ := hv v h
      refine ⟨h1, by simp [NUMSYMBOLS]; omega, ?_⟩
      have key : ∀ n i : Nat, (List.replicate n 0).getD i 0 = 0 := by
        intro n i
        rw [List.getD_eq_getElem?_getD, List.getElem?_replicate]
        split <;> rfl
      exact key _ _)
    (by omega) (by omega)
  simp only [List.drop_zero, List.nil_append] at hP
  have hnz : ∀ a ∈ genVow.take vowels.length, a ≠ 0 := by
    intro a ha
    have := List.mem_of_mem_take ha
    intro h0; subst h0
    simp [genVow] at this
  have hcount : (placeVowels vowels 0 (List.replicate NUMSYMBOLS 0)).count 0
      = 26 - vowels.length := by
    rw [List.Perm.count_eq hP, List.count_append, List.count_replicate_self]
    have : (genVow.take vowels.length).count 0 = 0 := by
      rw [List.count_eq_zero]
      intro h; exact hnz 0 h rfl
    omega
  have hF := fillRest_perm vowels.length (placeVowels vowels 0 (List.replicate NUMSYMBOLS 0))
    0 (26 - vowels.length) hcount (by omega)
  unfold IsKeyPerm seedKey
  refine hF.trans ?_
  have hfil : List.Perm ((placeVowels vowels 0 (List.replicate NUMSYMBOLS 0)).filter
      (fun x => x != 0)) (genVow.take vowels.length) := by
    refine (List.Perm.filter _ hP).trans ?_
    rw [List.filter_append, List.filter_replicate_of_neg (by simp), List.append_nil,
      List.filter_eq_self.mpr (by intro a ha; simpa using hnz a ha)]
  refine (List.Perm.append_right _ hfil).trans ?_
  have e1 : genVow.take vowels.length = genKey.take vowels.length := by
    have : genVow = genKey.take 7 := by decide
    rw [this, List.take_take, min_eq_left hl]
  have e2 : (genKey.drop (0 + vowels.length)).take (26 - vowels.length)
      = genKey.drop vowels.length := by
    rw [zero_add]
    apply List.take_of_length_le
    simp [genKey]
  rw [e1, e2, List.take_append_drop]
  decide

theorem drawUntil_some (ok : Nat → Bool) (m : Nat) (hm : 0 < m) (rng : List Nat) (v : Nat)
    (rest : List Nat) (h : drawUntil ok m rng = some (v, rest)) :
    v < m ∧ ok v = true := by
  induction rng with
  | nil => simp [drawUntil] at h
  | cons r rs ih =>
    simp only [drawUntil] at h
    split at h
    · rename_i hok
      simp only [Option.some.injEq, Prod.mk.injEq] at h
      obtain ⟨h1, _⟩ := h
      subst h1
      exact ⟨Nat.mod_lt _ hm, hok⟩
    · exact ih h

theorem initSwap_perm (vowels : List Nat) (isVowel : Nat → Bool) (k : Key) (rng : List Nat)
    (k1 : Key) (rng1 : List Nat) (hv : ∀ v ∈ vowels, chA ≤ v ∧ v < chA + 26)
    (hk : IsKeyPerm k) (h : initSwap vowels isVowel k rng = some (k1, rng1)) :
    IsKeyPerm k1 := by
  unfold initSwap at h
  split at h
  · simp at h
  · rename_i x r1 hx
    split at h
    · simp at h
    · rename_i y r2 hy
      simp only at h
      split at h
      · simp at h
      · rename_i hlen
        split at h
        · simp at h
        · rename_i r r3
          split at h
          · simp at h
          · rename_i vy r4 hvy
            simp only [Option.some.injEq, Prod.mk.injEq] at h
            obtain ⟨h1, _⟩ := h
            subst h1
            have hx26 := (drawUntil_some _ _ (by simp [NUMSYMBOLS]) _ _ _ hx).1
            have hy26 := (drawUntil_some _ _ (by simp [NUMSYMBOLS]) _ _ _ hy).1
            have hpos : 0 < vowels.length := Nat.pos_of_ne_zero hlen
            have hvy2 := (drawUntil_some _ _ hpos _ _ _ hvy).1
            have hvx2 : r % vowels.length < vowels.length := Nat.mod_lt _ hpos
            have hpos26 : ∀ t, t < vowels.length → vowels.getD t 0 - chA < 26 := by
              intro t ht
              have hm : vowels.getD t 0 ∈ vowels := by
                have : vowels.getD t 0 = vowels[t] := by simp [ht]
                rw [this]; exact List.getElem_mem _
              obtain ⟨a, b⟩ := hv _ hm
              omega
            exact (hk.swapKey x y hx26 hy26).swapKey _ _ (hpos26 _ hvx2) (hpos26 _ hvy2)

theorem initSwaps_perm (vowels : List Nat) (isVowel : Nat → Bool) (s : Nat) (k : Key)
    (rng : List Nat) (k1 : Key) (rng1 : List Nat) (hv : ∀ v ∈ vowels, chA ≤ v ∧ v < chA + 26)
    (hk : IsKeyPerm k) (h : initSwaps vowels isVowel s k rng = some (k1, rng1)) :
    IsKeyPerm k1 := by
  induction s generalizing k rng with
  | zero =>
    simp only [initSwaps, Option.some.injEq, Prod.mk.injEq] at h
    exact h.1 ▸ hk
  | succ s ih =>
    simp only [initSwaps] at h
    split at h
    · simp at h
    · rename_i k2 rng2 h2
      exact ih k2 rng2 (initSwap_perm vowels isVowel k rng k2 rng2 hv hk h2) h

theorem genInit_perm {α : Type} (ev : Key → α) (vowels : List Nat) (isVowel : Nat → Bool)
    (popSize : Nat) (rng : List Nat) (keys : List Key) (fits : List α) (rest : List Nat)
    (hnd : vowels.Nodup) (hv : ∀ v ∈ vowels, chA ≤ v ∧ v < chA + 26) (hl : vowels.length ≤ 7)
    (h : genInit ev vowels isVowel popSize rng = some (keys, fits, rest)) :
    keys.length = popSize ∧ ∀ k ∈ keys, IsKeyPerm k := by
  induction popSize generalizing rng keys fits rest with
  | zero =>
    simp only [genInit, Option.some.injEq, Prod.mk.injEq] at h
    obtain ⟨h1, _⟩ := h
    subst h1
    simp
  | succ p ih =>
    simp only [genInit] at h
    split at h
    · simp at h
    · rename_i k rng1 hk
      split at h
      · simp at h
      · rename_i ks fs rng2 hrec
        simp only [Option.some.injEq, Prod.mk.injEq] at h
        obtain ⟨h1, _⟩ := h
        subst h1
        obtain ⟨i1, i2⟩ := ih rng1 ks fs rng2 hrec
        refine ⟨by simp [i1], ?_⟩
        intro k0 hk0
        rcases List.mem_cons.mp hk0 with e | e
        · subst e
          unfold genInitOne at hk
          split at hk
          · simp at hk
          · exact initSwaps_perm vowels isVowel _ _ _ _ _ hv (seedKey_perm vowels hnd hv hl) hk
        · exact i2 k0 e

theorem mutateOne_perm {α : Type} (ev : Key → α) (muteRate : Int) (freq : List Nat)
    (k : Key) (f : α) (rng : List Nat) (k1 : Key) (f1 : α) (rng1 : List Nat)
    (hk : IsKeyPerm k) (h : mutateOne ev muteRate freq k f rng = some (k1, f1, rng1)) :
    IsKeyPerm k1 := by
  unfold mutateOne at h
  split at h
  · simp at h
  · split at h
    · split at h
      · simp at h
      · rename_i x r2 hx
        split at h
        · simp at h
        · rename_i y r3 hy
          simp only [Option.some.injEq, Prod.mk.injEq] at h
          obtain ⟨h1, _⟩ := h
          subst h1
          exact hk.swapKey x y (drawUntil_some _ _ (by simp [NUMSYMBOLS]) _ _ _ hx).1
            (drawUntil_some _ _ (by simp [NUMSYMBOLS]) _ _ _ hy).1
    · simp only [Option.some.injEq, Prod.mk.injEq] at h
      exact h.1 ▸ hk

theorem genMutate_perm {α : Type} (ev : Key → α) (muteRate : Int) (freq : List Nat)
    (popKey : List Key) (popFit : List α) (rng : List Nat) (keys : List Key) (fits : List α)
    (rest : List Nat) (hk : ∀ k ∈ popKey, IsKeyPerm k)
    (h : genMutate ev muteRate freq popKey popFit rng = some (keys, fits, rest)) :
    ∀ k ∈ keys, IsKeyPerm k := by
  induction popKey generalizing popFit rng keys fits rest with
  | nil =>
    simp only [genMutate, Option.some.injEq, Prod.mk.injEq] at h
    obtain ⟨h1, _⟩ := h
    subst h1
    simp
  | cons k ks ih =>
    cases popFit with
    | nil =>
      simp only [genMutate, Option.some.injEq, Prod.mk.injEq] at h
      obtain ⟨h1, _⟩ := h
      subst h1
      simp
    | cons f fs =>
      simp only [genMutate] at h
      split at h
      · simp at h
      · rename_i k1 f1 rng1 h1
        split at h
        · simp at h
        · rename_i ks1 fs1 rng2 h2
          simp only [Option.some.injEq, Prod.mk.injEq] at h
          obtain ⟨e, _⟩ := h
          subst e
          intro k0 hk0
          rcases List.mem_cons.mp hk0 with e | e
          · subst e
            exact mutateOne_perm ev muteRate freq k f rng k0 f1 rng1
              (hk k (List.mem_cons_self _ _)) h1
          · exact ih fs rng1 ks1 fs1 rng2 (fun q hq => hk q (List.mem_cons_of_mem _ hq)) h2 k0 e

/-- C3: every candidate key is a permutation of a..z. (1) For pairwise
distinct vowel letters, at most 7 of them, and every random stream, `genInit`
produces `popSize` keys, each of them a permutation; (2) `genCrossover` of two
permutations returns a child, which is a permutation; (3) `genMutate` of
permutations produces permutations. -/
theorem keys_stay_permutations {α : Type} [LinearOrder α] (ev : Key → α) :
    (∀ (vowels : List Nat) (isVowel : Nat → Bool) (popSize : Nat) (rng : List Nat)
        (keys : List Key) (fits : List α) (rest : List Nat),
      vowels.Nodup → (∀ v ∈ vowels, chA ≤ v ∧ v < chA + 26) → vowels.length ≤ 7 →
      genInit ev vowels isVowel popSize rng = some (keys, fits, rest) →
      keys.length = popSize ∧ ∀ k ∈ keys, IsKeyPerm k) ∧
    (∀ (popKey : List Key) (x y : Nat),
      IsKeyPerm (popKey.getD x []) → IsKeyPerm (popKey.getD y []) →
      ∃ child, genCrossover ev popKey x y = some child ∧ IsKeyPerm child) ∧
    (∀ (muteRate : Int) (freq : List Nat) (popKey : List Key) (popFit : List α)
        (rng : List Nat) (keys : List Key) (fits : List α) (rest : List Nat),
      (∀ k ∈ popKey, IsKeyPerm k) →
      genMutate ev muteRate freq popKey popFit rng = some (keys, fits, rest) →
      ∀ k ∈ keys, IsKeyPerm k) := by
  refine ⟨?_, ?_, ?_⟩
  · intro vowels isVowel popSize rng keys fits rest hnd hv hl h
    exact genInit_perm ev vowels isVowel popSize rng keys fits rest hnd hv hl h
  · intro popKey x y hx hy
    exact genCrossover_perm ev popKey x y hx hy
  · intro muteRate freq popKey popFit rng keys fits rest hk h
    exact genMutate_perm ev muteRate freq popKey popFit rng keys fits rest hk h

/-- C3, witness: the vowel list `e a`, one individual and the random values
1, 1, 2, 0, 1 for `genInit`; the parents `abcd...` and `acbd...` for
`genCrossover`; the identity key and the random values 2, 29, 3, 27 for
`genMutate`. -/
theorem keys_stay_permutations_witness :
    IsKeyPerm [97, 111, 105, 117, 101, 121, 116, 98, 99, 100, 102, 103, 104, 106, 107, 108,
      109, 110, 112, 113, 114, 115, 118, 119, 120, 122] ∧
    (∃ child, genCrossover (fun _ => (0 : Int)) [alphabet, swapKey alphabet 1 2] 0 1
      = some child ∧ IsKeyPerm child) ∧
    IsKeyPerm [97, 100, 99, 98, 101, 102, 103, 104, 105, 106, 107, 108, 109, 110, 111, 112,
      113, 114, 115, 116, 117, 118, 119, 120, 121, 122] :=
  ⟨((keys_stay_permutations (fun _ => (0 : Int))).1 [101, 97] (fun x => x == 4 || x == 0) 1
      [1, 1, 2, 0, 1] _ [0] [] (by decide) (by decide) (by decide) (by decide)).2 _
      (List.mem_singleton.mpr rfl),
   (keys_stay_permutations (fun _ => (0 : Int))).2.1 [alphabet, swapKey alphabet 1 2] 0 1
      (by decide) (by decide),
   (keys_stay_permutations (fun _ => (0 : Int))).2.2 3 [2, 1, 0, 5] [alphabet] [0]
      [2, 29, 3, 27] _ [0] [] (by decide) (by decide) _ (List.mem_singleton.mpr rfl)⟩


/-! ## Sorting the population -/

theorem sortShift_pairs {α : Type} [LinearOrder α] [Zero α] (key : Key) (fit : α)
    (rp : List (Key × α)) (hk : Key) (hf : α) (SK : List Key) (SF : List α) :
    ((sortShift fit rp.length (rp.reverse.map Prod.fst ++ hk :: SK)
          (rp.reverse.map Prod.snd ++ hf :: SF)).2.1.set
        (sortShift fit rp.length (rp.reverse.map Prod.fst ++ hk :: SK)
          (rp.reverse.map Prod.snd ++ hf :: SF)).1 key,
     (sortShift fit rp.length (rp.reverse.map Prod.fst ++ hk :: SK)
          (rp.reverse.map Prod.snd ++ hf :: SF)).2.2.set
        (sortShift fit rp.length (rp.reverse.map Prod.fst ++ hk :: SK)
          (rp.reverse.map Prod.snd ++ hf :: SF)).1 fit)
    = ((insRev (key, fit) rp).reverse.map Prod.fst ++ SK,
       (insRev (key, fit) rp).reverse.map Prod.snd ++ SF) := by
  induction rp generalizing hk hf SK SF with
  | nil => simp [sortShift, insRev]
  | cons y ys ih =>
    have e1 : (y :: ys).reverse.map Prod.fst ++ hk :: SK
        = ys.reverse.map Prod.fst ++ y.1 :: hk :: SK := by simp
    have e2 : (y :: ys).reverse.map Prod.snd ++ hf :: SF
        = ys.reverse.map Prod.snd ++ y.2 :: hf :: SF := by simp
    have l1 : (ys.reverse.map Prod.fst).length = ys.length := by simp
    have l2 : (ys.reverse.map Prod.snd).length = ys.length := by simp
    have g1 : (ys.reverse.map Prod.snd ++ y.2 :: hf :: SF).getD ys.length 0 = y.2 := by
      rw [List.getD_eq_getElem?_getD, List.getElem?_append_right (by simp)]
      simp
    have g2 : (ys.reverse.map Prod.fst ++ y.1 :: hk :: SK).getD ys.length [] = y.1 := by
      rw [List.getD_eq_getElem?_getD, List.getElem?_append_right (by simp)]
      simp
    have s1 : ∀ v, (ys.reverse.map Prod.fst ++ y.1 :: hk :: SK).set (ys.length + 1) v
        = ys.reverse.map Prod.fst ++ y.1 :: v :: SK := by
      intro v
      rw [List.set_append_right _ _ (by simp)]
      simp
    have s2 : ∀ v, (ys.reverse.map Prod.snd ++ y.2 :: hf :: SF).set (ys.length + 1) v
        = ys.reverse.map Prod.snd ++ y.2 :: v :: SF := by
      intro v
      rw [List.set_append_right _ _ (by simp)]
      simp
    rw [e1, e2]
    simp only [List.length_cons, sortShift, g1, g2]
    by_cases hlt : y.2 < fit
    · simp only [hlt, if_true, s1, s2, insRev]
      rw [ih y.1 y.2 (y.1 :: SK) (y.2 :: SF)]
      simp
    · simp only [hlt, if_false, s1, s2, insRev]
      simp

theorem sortStep_pairs {α : Type} [LinearOrder α] [Zero α] (l : List (Key × α)) (k : Nat)
    (hk : k < l.length) :
    sortStep (l.map Prod.fst, l.map Prod.snd) k
      = ((stepPairs l k).map Prod.fst, (stepPairs l k).map Prod.snd) := by
  have hl : l = (l.take k).reverse.reverse ++ l[k] :: l.drop (k + 1) := by
    rw [List.reverse_reverse, ← List.drop_eq_getElem_cons hk, List.take_append_drop]
  have hlen : (l.take k).reverse.length = k := by
    simp [List.length_take]; omega
  have hg : l.getD k ([], 0) = l[k] := by simp [hk]
  have h := sortShift_pairs (l[k]).1 (l[k]).2 (l.take k).reverse (l[k]).1 (l[k]).2
    ((l.drop (k + 1)).map Prod.fst) ((l.drop (k + 1)).map Prod.snd)
  have ef : l.map Prod.fst = (l.take k).reverse.reverse.map Prod.fst
      ++ (l[k]).1 :: (l.drop (k + 1)).map Prod.fst := by
    have := congrArg (List.map Prod.fst) hl
    simpa only [List.map_append, List.map_cons] using this
  have es : l.map Prod.snd = (l.take k).reverse.reverse.map Prod.snd
      ++ (l[k]).2 :: (l.drop (k + 1)).map Prod.snd := by
    have := congrArg (List.map Prod.snd) hl
    simpa only [List.map_append, List.map_cons] using this
  rw [hlen] at h
  have gk : (l.map Prod.fst).getD k [] = (l[k]).1 := by simp [hk]
  have gf : (l.map Prod.snd).getD k 0 = (l[k]).2 := by simp [hk]
  unfold sortStep stepPairs
  simp only [gk, gf, hg]
  rw [ef, es, h]
  simp

theorem insRev_perm {α : Type} [LinearOrder α] (x : Key × α) (rp : List (Key × α)) :
    List.Perm (insRev x rp) (x :: rp) := by
  induction rp with
  | nil => simp [insRev]
  | cons y ys ih =>
    simp only [insRev]
    split
    · exact (List.Perm.cons y ih).trans (List.Perm.swap x y ys)
    · exact List.Perm.refl _

theorem insRev_sorted {α : Type} [LinearOrder α] (x : Key × α) (rp : List (Key × α))
    (h : rp.Pairwise (fun a b => a.2 ≤ b.2)) :
    (insRev x rp).Pairwise (fun a b => a.2 ≤ b.2) := by
  induction rp with
  | nil => simp [insRev]
  | cons y ys ih =>
    simp only [insRev]
    rw [List.pairwise_cons] at h
    split
    · rename_i hlt
      rw [List.pairwise_cons]
      refine ⟨?_, ih h.2⟩
      intro b hb
      rcases List.mem_cons.mp ((insRev_perm x ys).mem_iff.mp hb) with e | e
      · subst e; exact le_of_lt hlt
      · exact h.1 b e
    · rename_i hlt
      have hxy : x.2 ≤ y.2 := not_lt.mp hlt
      rw [List.pairwise_cons]
      refine ⟨?_, List.pairwise_cons.mpr h⟩
      intro b hb
      rcases List.mem_cons.mp hb with e | e
      · subst e; exact hxy
      · exact le_trans hxy (h.1 b e)

theorem stepPairs_perm {α : Type} [LinearOrder α] [Zero α] (l : List (Key × α)) (k : Nat)
    (hk : k < l.length) : List.Perm (stepPairs l k) l := by
  unfold stepPairs
  have hg : l.getD k ([], 0) = l[k] := by simp [hk]
  rw [hg]
  have h1 : List.Perm (insRev l[k] (l.take k).reverse).reverse (l.take k ++ [l[k]]) := by
    refine (List.reverse_perm _).trans ((insRev_perm _ _).trans ?_)
    refine (List.Perm.cons _ (List.reverse_perm _)).trans ?_
    exact List.perm_append_singleton _ _ |>.symm
  refine (List.Perm.append_right _ h1).trans ?_
  rw [List.append_assoc, List.singleton_append, ← List.drop_eq_getElem_cons hk,
    List.take_append_drop]

theorem stepPairs_length {α : Type} [LinearOrder α] [Zero α] (l : List (Key × α)) (k : Nat)
    (hk : k < l.length) : (stepPairs l k).length = l.length :=
  (stepPairs_perm l k hk).length_eq

theorem stepPairs_take {α : Type} [LinearOrder α] [Zero α] (l : List (Key × α)) (k : Nat)
    (hk : k < l.length) :
    (stepPairs l k).take (k + 1) = (insRev (l.getD k ([], 0)) (l.take k).reverse).reverse := by
  unfold stepPairs
  have hlen : (insRev (l.getD k ([], 0)) (l.take k).reverse).reverse.length = k + 1 := by
    rw [List.length_reverse, (insRev_perm _ _).length_eq]
    simp [List.length_take]; omega
  rw [List.take_append_of_le_length (by omega), List.take_of_length_le (by omega)]

theorem stepPairs_sorted {α : Type} [LinearOrder α] [Zero α] (l : List (Key × α)) (k : Nat)
    (hk : k < l.length) (h : (l.take k).Pairwise (fun a b => b.2 ≤ a.2)) :
    ((stepPairs l k).take (k + 1)).Pairwise (fun a b => b.2 ≤ a.2) := by
  rw [stepPairs_take l k hk, List.pairwise_reverse]
  apply insRev_sorted
  rw [List.pairwise_reverse]
  exact h

theorem zip_map_fst_map_snd {β γ : Type} (l : List (β × γ)) :
    List.zip (l.map Prod.fst) (l.map Prod.snd) = l := by
  induction l with
  | nil => rfl
  | cons x xs ih => simp [ih]

theorem genSort_loop_pairs {α : Type} [LinearOrder α] [Zero α] (n s : Nat)
    (l : List (Key × α)) (hlen : s + n ≤ l.length)
    (hs : (l.take s).Pairwise (fun a b => b.2 ≤ a.2)) :
    ∃ l1 : List (Key × α),
      (List.range' s n).foldl sortStep (l.map Prod.fst, l.map Prod.snd)
        = (l1.map Prod.fst, l1.map Prod.snd) ∧
      List.Perm l1 l ∧ (l1.take (s + n)).Pairwise (fun a b => b.2 ≤ a.2) := by
  induction n generalizing s l with
  | zero => exact ⟨l, by simp, List.Perm.refl _, by simpa using hs⟩
  | succ n ih =>
    have hk : s < l.length := by omega
    rw [List.range'_succ, List.foldl_cons, sortStep_pairs l s hk]
    obtain ⟨l1, h1, h2, h3⟩ := ih (s + 1) (stepPairs l s)
      (by rw [stepPairs_length l s hk]; omega) (stepPairs_sorted l s hk hs)
    refine ⟨l1, h1, h2.trans (stepPairs_perm l s hk), ?_⟩
    have e : s + (n + 1) = s + 1 + n := by omega
    rw [e]; exact h3

theorem genSort_pairs {α : Type} [LinearOrder α] [Zero α] (l : List (Key × α)) :
    ∃ l1 : List (Key × α),
      genSort l.length (l.map Prod.fst) (l.map Prod.snd) = (l1.map Prod.fst, l1.map Prod.snd) ∧
      List.Perm l1 l ∧ l1.Pairwise (fun a b => b.2 ≤ a.2) := by
  unfold genSort
  cases l with
  | nil => exact ⟨[], by simp, List.Perm.refl _, List.Pairwise.nil⟩
  | cons x xs =>
    obtain ⟨l1, h1, h2, h3⟩ := genSort_loop_pairs (xs.length + 1 - 1) 1 (x :: xs)
      (by simp only [List.length_cons]; omega) (by simp)
    refine ⟨l1, h1, h2, ?_⟩
    have hl : l1.length = xs.length + 1 := by simpa using h2.length_eq
    have e : 1 + (xs.length + 1 - 1) = l1.length := by omega
    rw [e, List.take_length] at h3
    exact h3

/-- C8: for every population with as many keys as fitness values, after
`genSort` the fitness array is in non-increasing order, no entry exceeds the
entry at index 0, and the sequence of (key, fitness) pairs is a permutation
of the pairs before the sort. -/
theorem genSort_sorted_perm {α : Type} [LinearOrder α] [Zero α] (popKey : List Key)
    (popFit : List α) (h : popKey.length = popFit.length) :
    (genSort popKey.length popKey popFit).2.Pairwise (fun a b => b ≤ a) ∧
    (∀ f ∈ (genSort popKey.length popKey popFit).2,
      f ≤ (genSort popKey.length popKey popFit).2.getD 0 0) ∧
    List.Perm (List.zip (genSort popKey.length popKey popFit).1
        (genSort popKey.length popKey popFit).2) (List.zip popKey popFit) := by
  obtain ⟨l1, h1, h2, h3⟩ := genSort_pairs (List.zip popKey popFit)
  have ef : (List.zip popKey popFit).map Prod.fst = popKey :=
    List.map_fst_zip _ _ (le_of_eq h)
  have es : (List.zip popKey popFit).map Prod.snd = popFit :=
    List.map_snd_zip _ _ (le_of_eq h.symm)
  have el : (List.zip popKey popFit).length = popKey.length := by
    simp [List.length_zip, h]
  rw [ef, es, el] at h1
  rw [h1]
  have hp : (l1.map Prod.snd).Pairwise (fun a b => b ≤ a) := by
    rw [List.pairwise_map]; exact h3
  refine ⟨hp, ?_, ?_⟩
  · intro f hf
    cases hl : l1.map Prod.snd with
    | nil => simp only [hl] at hf; simp at hf
    | cons a rest =>
      simp only [hl] at hf hp ⊢
      rw [List.pairwise_cons] at hp
      rcases List.mem_cons.mp hf with e | e
      · subst e; simp
      · simpa using hp.1 f e
  · simp only [zip_map_fst_map_snd]
    exact h2

/-- C8, witness: a population of three keys with the fitness values 1, 3, 2. -/
theorem genSort_sorted_perm_witness :
    (genSort 3 [alphabet, genKey, swapKey alphabet 1 2] [(1 : Int), 3, 2]).2.Pairwise
      (fun a b => b ≤ a) ∧
    (∀ f ∈ (genSort 3 [alphabet, genKey, swapKey alphabet 1 2] [(1 : Int), 3, 2]).2,
      f ≤ (genSort 3 [alphabet, genKey, swapKey alphabet 1 2] [(1 : Int), 3, 2]).2.getD 0 0) ∧
    List.Perm (List.zip (genSort 3 [alphabet, genKey, swapKey alphabet 1 2] [(1 : Int), 3, 2]).1
        (genSort 3 [alphabet, genKey, swapKey alphabet 1 2] [(1 : Int), 3, 2]).2)
      (List.zip [alphabet, genKey, swapKey alphabet 1 2] [(1 : Int), 3, 2]) :=
  genSort_sorted_perm [alphabet, genKey, swapKey alphabet 1 2] [(1 : Int), 3, 2] rfl


/-! ## The global best -/

theorem updateBest_cases {α : Type} [LinearOrder α] (b : Best α) (k : Key) (f : α)
    (t j : Nat) :
    (b.bestFit < f ∧ cstr b.bestKey ≠ cstr k ∧ updateBest b k f t j = ⟨k, f, t, j⟩) ∨
    (¬ (b.bestFit < f ∧ cstr b.bestKey ≠ cstr k) ∧ updateBest b k f t j = b) := by
  unfold updateBest
  by_cases h : b.bestFit < f ∧ cstr b.bestKey ≠ cstr k
  · left; exact ⟨h.1, h.2, by rw [if_pos h]⟩
  · right; exact ⟨h, by rw [if_neg h]⟩

theorem updateBest_le {α : Type} [LinearOrder α] (b : Best α) (k : Key) (f : α) (t j : Nat) :
    b.bestFit ≤ (updateBest b k f t j).bestFit := by
  rcases updateBest_cases b k f t j with ⟨h1, _, h3⟩ | ⟨_, h2⟩
  · rw [h3]; exact le_of_lt h1
  · rw [h2]

theorem genGeneration_best {α : Type} [LinearOrder α] [Zero α] (ev : Key → α) (popSize : Nat)
    (muteRate : Int) (freq : List Nat) (trial j : Nat) (b : Best α) (popKey : List Key)
    (rng : List Nat) (b1 : Best α) (ks : List Key) (fs : List α) (rng1 : List Nat)
    (h : genGeneration ev popSize muteRate freq trial j b popKey rng = some (b1, ks, fs, rng1)) :
    ∃ ks0 fs0 rng0, genMate ev popSize popKey rng = some (ks0, fs0, rng0) ∧
      b1 = updateBest b ((genSort popSize ks0 fs0).1.getD 0 [])
        ((genSort popSize ks0 fs0).2.getD 0 0) trial j := by
  unfold genGeneration at h
  split at h
  · simp at h
  · rename_i ks0 fs0 rng0 hm
    simp only at h
    split at h
    · simp at h
    · simp only [Option.some.injEq, Prod.mk.injEq] at h
      exact ⟨ks0, fs0, rng0, hm, h.1.symm⟩

theorem foldl_updateBest_le {α : Type} [LinearOrder α] (steps : List (Key × α × Nat × Nat))
    (b : Best α) :
    b.bestFit ≤ (steps.foldl (fun c s => updateBest c s.1 s.2.1 s.2.2.1 s.2.2.2) b).bestFit := by
  induction steps generalizing b with
  | nil => exact le_refl _
  | cons s rest ih =>
    rw [List.foldl_cons]
    exact le_trans (updateBest_le b s.1 s.2.1 s.2.2.1 s.2.2.2) (ih _)

theorem genLoop_best_le {α : Type} [LinearOrder α] [Zero α] (ev : Key → α) (popSize : Nat)
    (muteRate : Int) (freq : List Nat) (trial : Nat) (js : List Nat) (b : Best α)
    (popKey : List Key) (rng : List Nat) (b1 : Best α) (ks : List Key) (rng1 : List Nat)
    (h : genLoop ev popSize muteRate freq trial js b popKey rng = some (b1, ks, rng1)) :
    b.bestFit ≤ b1.bestFit := by
  induction js generalizing b popKey rng with
  | nil =>
    simp only [genLoop, Option.some.injEq, Prod.mk.injEq] at h
    rw [h.1]
  | cons j js ih =>
    simp only [genLoop] at h
    split at h
    · simp at h
    · rename_i b2 ks2 fs2 rng2 hg
      obtain ⟨_, _, _, _, e⟩ := genGeneration_best ev popSize muteRate freq trial j b popKey rng
        b2 ks2 fs2 rng2 hg
      refine le_trans ?_ (ih b2 ks2 rng2 h)
      rw [e]; exact updateBest_le _ _ _ _ _

/-- C9: (1) the critical section overwrites the global-best record exactly
when `popFit[0] > bestFit` and `popKey[0]` differs from `bestKey`, and then
with `(popKey[0], popFit[0], trial, generation)`; (2) the record that a
generation of `genSolve` leaves is the result of that critical section on
the head of the sorted children; (3) over any sequence of critical sections,
taken by any trials in any order, and (4) over the whole generation loop of a
trial, `bestFit` does not decrease. -/
theorem bestFit_never_decreases {α : Type} [LinearOrder α] [Zero α] :
    (∀ (b : Best α) (k : Key) (f : α) (t j : Nat),
      (b.bestFit < f ∧ cstr b.bestKey ≠ cstr k ∧ updateBest b k f t j = ⟨k, f, t, j⟩) ∨
      (¬ (b.bestFit < f ∧ cstr b.bestKey ≠ cstr k) ∧ updateBest b k f t j = b)) ∧
    (∀ (ev : Key → α) (popSize : Nat) (muteRate : Int) (freq : List Nat) (trial j : Nat)
        (b : Best α) (popKey : List Key) (rng : List Nat) (b1 : Best α) (ks : List Key)
        (fs : List α) (rng1 : List Nat),
      genGeneration ev popSize muteRate freq trial j b popKey rng = some (b1, ks, fs, rng1) →
      ∃ ks0 fs0 rng0, genMate ev popSize popKey rng = some (ks0, fs0, rng0) ∧
        b1 = updateBest b ((genSort popSize ks0 fs0).1.getD 0 [])
          ((genSort popSize ks0 fs0).2.getD 0 0) trial j) ∧
    (∀ (steps : List (Key × α × Nat × Nat)) (b : Best α),
      b.bestFit
        ≤ (steps.foldl (fun c s => updateBest c s.1 s.2.1 s.2.2.1 s.2.2.2) b).bestFit) ∧
    (∀ (ev : Key → α) (popSize : Nat) (muteRate : Int) (freq : List Nat) (trial : Nat)
        (js : List Nat) (b : Best α) (popKey : List Key) (rng : List Nat) (b1 : Best α)
        (ks : List Key) (rng1 : List Nat),
      genLoop ev popSize muteRate freq trial js b popKey rng = some (b1, ks, rng1) →
      b.bestFit ≤ b1.bestFit) :=
  ⟨updateBest_cases, genGeneration_best, foldl_updateBest_le, genLoop_best_le⟩

/-- C9, witness: one generation of a population of two keys, scored by the
first letter of the key, with the random values 0, 2, 0, 50, 50. -/
theorem bestFit_never_decreases_witness :
    ∃ ks0 fs0 rng0,
      genMate (fun k => (k.getD 0 0 : Int)) 2 [alphabet, swapKey alphabet 0 1]
          [0, 2, 0, 50, 50] = some (ks0, fs0, rng0) ∧
        (⟨swapKey alphabet 0 1, 98, 1, 1⟩ : Best Int)
          = updateBest ⟨[], -100, 0, 0⟩ ((genSort 2 ks0 fs0).1.getD 0 [])
              ((genSort 2 ks0 fs0).2.getD 0 0) 1 1 :=
  bestFit_never_decreases.2.1 (fun k => (k.getD 0 0 : Int)) 2 3 [1, 1, 0, 5] 1 1
    ⟨[], -100, 0, 0⟩ [alphabet, swapKey alphabet 0 1] [0, 2, 0, 50, 50]
    ⟨swapKey alphabet 0 1, 98, 1, 1⟩ [swapKey alphabet 0 1, swapKey alphabet 0 1] [98, 98] []
    rfl


/-! ## The trie -/

theorem TotalsOk_node (n d : Nat) (g : Option (List Nat)) (t : Int) (ch : Fin 26 → trieNode) :
    TotalsOk n d (trieNode.node g t ch)
      ↔ ((d < n → t = childTotals ch) ∧ ∀ i, TotalsOk n (d + 1) (ch i)) := by
  simp [TotalsOk]

theorem TotalsOk_null (n d : Nat) : TotalsOk n d trieNode.null := by
  simp [TotalsOk]

theorem childTotals_update (ch : Fin 26 → trieNode) (i : Fin 26) (t : trieNode) :
    childTotals (Function.update ch i t) = childTotals ch - totalOf (ch i) + totalOf t := by
  unfold childTotals
  have h1 := Finset.sum_update_of_mem (Finset.mem_univ i) (fun j => totalOf (ch j)) (totalOf t)
  have h2 : (fun j => totalOf (Function.update ch i t j))
      = Function.update (fun j => totalOf (ch j)) i (totalOf t) := by
    funext j
    by_cases hj : j = i
    · subst hj; simp
    · simp [Function.update_noteq hj]
  rw [h2, h1]
  have h3 := Finset.sum_erase_add Finset.univ (fun j => totalOf (ch j)) (Finset.mem_univ i)
  have h4 : Finset.univ \ {i} = Finset.univ.erase i := by
    ext x; simp
  rw [h4]
  linarith

theorem childTotals_null : childTotals (fun _ => trieNode.null) = 0 := by
  simp [childTotals, totalOf]

theorem insertFrom_inv (n : Nat) (g : List Nat) (c : Int) (rem : Nat) (gg : Option (List Nat))
    (t : Int) (ch : Fin 26 → trieNode) (p : trieNode) (hrem : rem ≤ n)
    (hch : ∀ i, TotalsOk n (n - rem + 1) (ch i))
    (h : insertFrom n g c rem (trieNode.node gg t ch) = some p) :
    ∃ ch1, p = trieNode.node gg t ch1 ∧ (∀ i, TotalsOk n (n - rem + 1) (ch1 i)) ∧
      childTotals ch1 = childTotals ch + (if rem = 0 then 0 else c) := by
  induction rem generalizing gg t ch p with
  | zero =>
    simp only [insertFrom, Option.some.injEq] at h
    exact ⟨ch, h.symm, hch, by simp⟩
  | succ rem ih =>
    simp only [insertFrom] at h
    split at h
    · rename_i hc
      have hd : n - rem = n - (rem + 1) + 1 := by omega
      -- the child reached, as a node, with its invariant
      obtain ⟨g1, t1, ch1, htn, ht1, hok1, htot⟩ :
          ∃ g1 t1 ch1,
            childOrNew n g (n - (rem + 1)) (ch ⟨g.getD (n - (rem + 1)) 0 - chA, hc.2⟩)
              = trieNode.node g1 t1 ch1 ∧
            (n - rem < n → t1 = childTotals ch1) ∧ (∀ i, TotalsOk n (n - rem + 1) (ch1 i)) ∧
            totalOf (ch ⟨g.getD (n - (rem + 1)) 0 - chA, hc.2⟩) = t1 := by
        have hci := hch ⟨g.getD (n - (rem + 1)) 0 - chA, hc.2⟩
        cases hcc : ch ⟨g.getD (n - (rem + 1)) 0 - chA, hc.2⟩ with
        | null =>
          refine ⟨_, 0, fun _ => trieNode.null, rfl, ?_, ?_, by simp [totalOf]⟩
          · intro _; exact childTotals_null.symm
          · intro i; exact TotalsOk_null _ _
        | node g1 t1 ch1 =>
          rw [hcc, TotalsOk_node, ← hd] at hci
          exact ⟨g1, t1, ch1, rfl, hci.1, hci.2, by simp [totalOf]⟩
      rw [htn] at h
      simp only [addTotal] at h
      split at h
      · simp at h
      · rename_i t2 h2
        simp only [Option.some.injEq] at h
        obtain ⟨ch2, e2, hok2, hsum2⟩ := ih g1 (t1 + c) ch1 t2 (by omega) hok1 h2
        refine ⟨_, h.symm, ?_, ?_⟩
        · intro i
          by_cases hi : i = ⟨g.getD (n - (rem + 1)) 0 - chA, hc.2⟩
          · subst hi
            rw [Function.update_same, e2, ← hd, TotalsOk_node]
            refine ⟨?_, hok2⟩
            intro hlt
            have hr : rem ≠ 0 := by omega
            rw [hsum2, if_neg hr, ht1 hlt]
          · rw [Function.update_noteq hi]
            exact hch i
        · rw [childTotals_update, htot, e2]
          simp only [totalOf, Nat.succ_ne_zero, if_false]
          ring
    · simp at h

theorem insertFrom_total (n : Nat) (g : List Nat) (c : Int) (rem : Nat)
    (gg : Option (List Nat)) (t : Int) (ch : Fin 26 → trieNode) (hg : IsNgram n g)
    (hrem : rem ≤ n) :
    ∃ p, insertFrom n g c rem (trieNode.node gg t ch) = some p := by
  induction rem generalizing gg t ch with
  | zero => exact ⟨_, rfl⟩
  | succ rem ih =>
    simp only [insertFrom]
    have hc := hg (n - (rem + 1)) (by omega)
    rw [dif_pos hc]
    cases hcc : ch ⟨g.getD (n - (rem + 1)) 0 - chA, hc.2⟩ with
    | null =>
      simp only [childOrNew, addTotal]
      obtain ⟨p, hp⟩ := ih (if n - (rem + 1) = n - 1 then some (g.take n) else none) (0 + c)
        (fun _ => trieNode.null) (by omega)
      rw [hp]
      exact ⟨_, rfl⟩
    | node g1 t1 ch1 =>
      simp only [childOrNew, addTotal]
      obtain ⟨p, hp⟩ := ih g1 (t1 + c) ch1 (by omega)
      rw [hp]
      exact ⟨_, rfl⟩

/-- The root after one `ngramInsert`. -/
theorem ngramInsert_inv (n : Nat) (g : List Nat) (c : Int) (gg : Option (List Nat))
    (t : Int) (ch : Fin 26 → trieNode) (p : trieNode)
    (hok : TotalsOk n 0 (trieNode.node gg t ch))
    (h : ngramInsert n (trieNode.node gg t ch) g c = some p) :
    ∃ ch1, p = trieNode.node gg (t + c) ch1 ∧ TotalsOk n 0 p := by
  unfold ngramInsert at h
  cases hi : insertFrom n g c n (trieNode.node gg t ch) with
  | none => simp [hi] at h
  | some q =>
    rw [hi] at h
    simp only [Option.map_some', Option.some.injEq] at h
    rw [TotalsOk_node] at hok
    obtain ⟨ch1, e1, hok1, hsum⟩ := insertFrom_inv n g c n gg t ch q (le_refl _)
      (by simpa using hok.2) hi
    subst e1
    simp only [addTotal] at h
    refine ⟨ch1, h.symm, ?_⟩
    rw [← h, TotalsOk_node]
    refine ⟨?_, by simpa using hok1⟩
    intro hn
    have hn0 : n ≠ 0 := by omega
    rw [hsum, if_neg hn0, hok.1 hn]

theorem ngramInsertAll_inv (n : Nat) (gs : List (List Nat × Int)) (gg : Option (List Nat))
    (t : Int) (ch : Fin 26 → trieNode) (p : trieNode)
    (hok : TotalsOk n 0 (trieNode.node gg t ch))
    (h : ngramInsertAll n (trieNode.node gg t ch) gs = some p) :
    totalOf p = t + (gs.map Prod.snd).sum ∧ TotalsOk n 0 p := by
  induction gs generalizing t ch with
  | nil =>
    simp only [ngramInsertAll, Option.some.injEq] at h
    subst h
    simpa [totalOf] using hok
  | cons x rest ih =>
    obtain ⟨g, c⟩ := x
    simp only [ngramInsertAll] at h
    split at h
    · simp at h
    · rename_i q hq
      obtain ⟨ch1, e1, hok1⟩ := ngramInsert_inv n g c gg t ch q hok hq
      subst e1
      obtain ⟨h1, h2⟩ := ih (t + c) ch1 hok1 h
      refine ⟨?_, h2⟩
      rw [h1]; simp; ring

theorem ngramInsertAll_total (n : Nat) (gs : List (List Nat × Int)) (gg : Option (List Nat))
    (t : Int) (ch : Fin 26 → trieNode) (hg : ∀ x ∈ gs, IsNgram n x.1) :
    ∃ p, ngramInsertAll n (trieNode.node gg t ch) gs = some p := by
  induction gs generalizing gg t ch with
  | nil => exact ⟨_, rfl⟩
  | cons x rest ih =>
    obtain ⟨g, c⟩ := x
    simp only [ngramInsertAll]
    obtain ⟨q, hq⟩ := insertFrom_total n g c n gg t ch (hg (g, c) (List.mem_cons_self _ _))
      (le_refl _)
    have : ngramInsert n (trieNode.node gg t ch) g c = some (addTotal c q) := by
      simp [ngramInsert, hq]
    rw [this]
    cases hq2 : addTotal c q with
    | null =>
      cases q with
      | null =>
        -- the result of insertFrom on a node is a node
        cases n with
        | zero => simp [insertFrom] at hq
        | succ m =>
          simp only [insertFrom] at hq
          split at hq
          · split at hq <;> simp at hq
          · simp at hq
      | node a b c1 => simp [addTotal] at hq2
    | node g1 t1 ch1 =>
      exact ih g1 t1 ch1 (fun y hy => hg y (List.mem_cons_of_mem _ hy))

/-- C6: starting from an empty root, whenever a sequence of calls of
`ngramInsert` with a fixed n returns, `root.total` is the sum of the counts
inserted; when every n-gram consists of n lowercase letters the calls do
return; and after k insertions with count 1 the total is k. -/
theorem root_total_counts_insertions (n : Nat) :
    (∀ (gs : List (List Nat × Int)) (t : trieNode),
      ngramInsertAll n trieNodeNew gs = some t → totalOf t = (gs.map Prod.snd).sum) ∧
    (∀ gs : List (List Nat × Int), (∀ x ∈ gs, IsNgram n x.1) →
      ∃ t, ngramInsertAll n trieNodeNew gs = some t ∧ totalOf t = (gs.map Prod.snd).sum) ∧
    (∀ grams : List (List Nat), (∀ g ∈ grams, IsNgram n g) →
      ∃ t, ngramInsertAll n trieNodeNew (grams.map (fun g => (g, (1 : Int)))) = some t ∧
        totalOf t = (grams.length : Int)) := by
  have hnew : TotalsOk n 0 trieNodeNew := by
    unfold trieNodeNew
    rw [TotalsOk_node]
    exact ⟨fun _ => childTotals_null.symm, fun _ => TotalsOk_null _ _⟩
  have h1 : ∀ (gs : List (List Nat × Int)) (t : trieNode),
      ngramInsertAll n trieNodeNew gs = some t → totalOf t = (gs.map Prod.snd).sum := by
    intro gs t h
    have := (ngramInsertAll_inv n gs none 0 (fun _ => trieNode.null) t hnew h).1
    simpa using this
  have h2 : ∀ gs : List (List Nat × Int), (∀ x ∈ gs, IsNgram n x.1) →
      ∃ t, ngramInsertAll n trieNodeNew gs = some t ∧ totalOf t = (gs.map Prod.snd).sum := by
    intro gs hg
    obtain ⟨t, ht⟩ := ngramInsertAll_total n gs none 0 (fun _ => trieNode.null) hg
    exact ⟨t, ht, h1 gs t ht⟩
  refine ⟨h1, h2, ?_⟩
  intro grams hg
  obtain ⟨t, ht, hs⟩ := h2 (grams.map (fun g => (g, (1 : Int)))) (by
    intro x hx
    obtain ⟨g, hgm, rfl⟩ := List.mem_map.mp hx
    exact hg g hgm)
  refine ⟨t, ht, ?_⟩
  rw [hs, List.map_map]
  have : (Prod.snd ∘ fun g : List Nat => (g, (1 : Int))) = fun _ => (1 : Int) := rfl
  rw [this, List.map_const', List.sum_replicate]
  simp

/-- C6, witness: the 2-grams `ab`, `ac`, `ab`. -/
theorem root_total_counts_insertions_witness :
    ∃ t, ngramInsertAll 2 trieNodeNew
        ([[97, 98], [97, 99], [97, 98]].map (fun g => (g, (1 : Int)))) = some t ∧
      totalOf t = (([[97, 98], [97, 99], [97, 98]] : List (List Nat)).length : Int) :=
  (root_total_counts_insertions 2).2.2 [[97, 98], [97, 99], [97, 98]] (by
    intro g hg i hi
    simp only [List.mem_cons, List.mem_singleton, List.not_mem_nil, or_false] at hg
    rcases hg with rfl | rfl | rfl <;> interval_cases i <;> decide)

/-- C7: in every trie reached from the empty root by calls of `ngramInsert`
with a fixed n, every node at depth `< n`, the root included, has `total`
equal to the sum of the totals of its existing children. -/
theorem totals_equal_children_sum (n : Nat) (gs : List (List Nat × Int)) (t : trieNode)
    (h : ngramInsertAll n trieNodeNew gs = some t) : TotalsOk n 0 t := by
  have hnew : TotalsOk n 0 trieNodeNew := by
    unfold trieNodeNew
    rw [TotalsOk_node]
    exact ⟨fun _ => childTotals_null.symm, fun _ => TotalsOk_null _ _⟩
  exact (ngramInsertAll_inv n gs none 0 (fun _ => trieNode.null) t hnew h).2

/-- C7, witness: the trie of the 2-grams `ab`, `ac`, `ab`. -/
theorem totals_equal_children_sum_witness :
    ∃ t, ngramInsertAll 2 trieNodeNew [([97, 98], 1), ([97, 99], 1), ([97, 98], 1)] = some t ∧
      TotalsOk 2 0 t :=
  (ngramInsertAll_total 2 [([97, 98], 1), ([97, 99], 1), ([97, 98], 1)] none 0
      (fun _ => trieNode.null) (by
        intro x hx i hi
        simp only [List.mem_cons, List.mem_singleton, List.not_mem_nil, or_false] at hx
        rcases hx with rfl | rfl | rfl <;> interval_cases i <;> decide)).elim
    (fun t ht => ⟨t, ht, totals_equal_children_sum 2 _ t ht⟩)


/-! ## Simple Good-Turing smoothing -/

theorem gArrayIndex_lt (a : List Int) (oob : Nat → Int) (i : Nat) (h : i < a.length) :
    gArrayIndex a oob i = a.getD i 0 := by
  simp [gArrayIndex, h]

theorem gArrayIndex_ge (a : List Int) (oob : Nat → Int) (i : Nat) (h : a.length ≤ i) :
    gArrayIndex a oob i = oob i := by
  have : ¬ i < a.length := by omega
  simp [gArrayIndex, this]

theorem getD_mem_of_lt (a : List Int) (i : Nat) (h : i < a.length) : a.getD i 0 ∈ a := by
  have : a.getD i 0 = a[i] := by simp [h]
  rw [this]; exact List.getElem_mem _

theorem turingLoop_pos {α : Type} [LinearOrderedField α] (F : MathFns α) (rAt nAt : Nat → Int)
    (L : Nat) (hr : ∀ t, t < L → 0 < rAt t) (hn : ∀ t, t < L → 0 < nAt t)
    (hoob : (∀ s, s < L → rAt (s + 1) = rAt s + 1) → 0 < nAt L)
    (fuel i : Nat) (rs : List α) (hlen : rs.length = L) (hi : i + fuel ≤ L)
    (hcons : ∀ s, s < i → rAt (s + 1) = rAt s + 1)
    (hpos : ∀ t, t < L → 0 < rs.getD t 0) :
    (turingLoop F rAt nAt fuel i rs).length = L ∧
      ∀ t, t < L → 0 < (turingLoop F rAt nAt fuel i rs).getD t 0 := by
  induction fuel generalizing i rs with
  | zero => exact ⟨hlen, hpos⟩
  | succ fuel ih =>
    simp only [turingLoop]
    split
    · exact ⟨hlen, hpos⟩
    · rename_i hR1
      split
      · exact ⟨hlen, hpos⟩
      · have hiL : i < L := by omega
        have hR1b : rAt (i + 1) = rAt i + 1 := by simpa using hR1
        have hcons1 : ∀ s, s < i + 1 → rAt (s + 1) = rAt s + 1 := by
          intro s hs
          by_cases hsi : s < i
          · exact hcons s hsi
          · have : s = i := by omega
            rw [this]; exact hR1b
        have hN1 : 0 < nAt (i + 1) := by
          by_cases hc : i + 1 < L
          · exact hn _ hc
          · have e : i + 1 = L := by omega
            rw [e]
            apply hoob
            intro s hs
            exact hcons1 s (by omega)
        have hx : (0 : α) < ((rAt i + 1 : Int) : α) * (nAt (i + 1) : α) / (nAt i : α) := by
          have h1 : (0 : α) < ((rAt i + 1 : Int) : α) := by
            have := hr i hiL
            exact_mod_cast (by omega : (0 : Int) < rAt i + 1)
          have h2 : (0 : α) < (nAt (i + 1) : α) := by exact_mod_cast hN1
          have h3 : (0 : α) < (nAt i : α) := by exact_mod_cast hn i hiL
          positivity
        apply ih (i + 1) _ (by simpa using hlen) (by omega) hcons1
        intro t ht
        rw [List.getD_eq_getElem?_getD, List.getElem?_set]
        split
        · rename_i hit
          subst hit
          simp only [hlen, hiL, if_true, Option.getD_some]
          exact hx
        · rw [← List.getD_eq_getElem?_getD]; exact hpos t ht

theorem sgtEstimates_pos {α : Type} [LinearOrderedField α] (F : MathFns α)
    (hexp : ∀ x, 0 < F.exp x) (r : List Int) (rAt nAt : Nat → Int)
    (hr : ∀ R ∈ r, 0 < R) :
    (sgtEstimates F r rAt nAt).length = r.length ∧
      ∀ t, t < r.length → 0 < (sgtEstimates F r rAt nAt).getD t 0 := by
  unfold sgtEstimates
  refine ⟨by simp, ?_⟩
  intro t ht
  simp only [List.getD_eq_getElem?_getD, List.getElem?_map, List.getElem?_eq_getElem ht,
    Option.map_some', Option.getD_some]
  have hR : 0 < r[t] := hr _ (List.getElem_mem _)
  have h1 : (0 : α) < ((r[t] + 1 : Int) : α) := by
    exact_mod_cast (by omega : (0 : Int) < r[t] + 1)
  have h2 := hexp
  unfold smooth
  exact div_pos (mul_pos h1 (hexp _)) (hexp _)

theorem rStarFinal_pos {α : Type} [LinearOrderedField α] (F : MathFns α)
    (hexp : ∀ x, 0 < F.exp x) (r n : List Int) (oobR oobN : Nat → Int)
    (hlen : n.length = r.length) (hr : ∀ R ∈ r, 0 < R)
    (hn : ∀ N ∈ n, 0 < N)
    (hoob : (∀ s, s < r.length → gArrayIndex r oobR (s + 1) = gArrayIndex r oobR s + 1) →
      0 < oobN r.length) :
    ∀ t, t < r.length → 0 < (rStarFinal F r n oobR oobN).getD t 0 := by
  unfold rStarFinal
  obtain ⟨h1, h2⟩ := sgtEstimates_pos F hexp r (gArrayIndex r oobR) (gArrayIndex n oobN) hr
  refine (turingLoop_pos F (gArrayIndex r oobR) (gArrayIndex n oobN) r.length ?_ ?_ ?_
    r.length 0 _ h1 (by omega) (by intro s hs; omega) h2).2
  · intro t ht
    rw [gArrayIndex_lt _ _ _ ht]
    exact hr _ (getD_mem_of_lt r t ht)
  · intro t ht
    rw [gArrayIndex_lt _ _ _ (by omega)]
    exact hn _ (getD_mem_of_lt n t (by omega))
  · intro h
    rw [gArrayIndex_ge n _ _ (by omega)]
    exact hoob h

theorem newTotal_pos {α : Type} [LinearOrderedField α] (F : MathFns α)
    (hexp : ∀ x, 0 < F.exp x) (r n : List Int) (oobR oobN : Nat → Int)
    (hlen : n.length = r.length) (hL : 0 < r.length) (hr : ∀ R ∈ r, 0 < R)
    (hn : ∀ N ∈ n, 0 < N)
    (hoob : (∀ s, s < r.length → gArrayIndex r oobR (s + 1) = gArrayIndex r oobR s + 1) →
      0 < oobN r.length) :
    0 < newTotal F r n oobR oobN := by
  unfold newTotal
  apply List.sum_pos
  · intro x hx
    obtain ⟨i, hi, rfl⟩ := List.mem_map.mp hx
    have hi2 : i < r.length := List.mem_range.mp hi
    have h1 := rStarFinal_pos F hexp r n oobR oobN hlen hr hn hoob i hi2
    have h2 : (0 : α) < (gArrayIndex n oobN i : α) := by
      rw [gArrayIndex_lt _ _ _ (by omega)]
      exact_mod_cast hn _ (getD_mem_of_lt n i (by omega))
    exact mul_pos h1 h2
  · intro h
    have := congrArg List.length h
    simp only [List.length_map, List.length_range, List.length_nil] at this
    omega

theorem getD_map_zero {α : Type} [Zero α] (f : α → α) (hf : f 0 = 0) (l : List α) (i : Nat) :
    (l.map f).getD i 0 = f (l.getD i 0) := by
  simp only [List.getD_eq_getElem?_getD, List.getElem?_map]
  cases l[i]? with
  | none => simp [hf]
  | some v => simp

/-- For a table of at least two strictly increasing positive counts `r` with
positive multiplicities `n` (so that no division of the computation has a
zero denominator), the smoothed mass of the observed n-grams plus the unseen
mass is 1, provided the switchover loop is not misled by the storage behind
the arrays: either two successive counts are not consecutive (the loop then
stops inside the arrays), or the word behind `n` is positive. -/
theorem probGoodTuring_mass_one {α : Type} [LinearOrderedField α] (F : MathFns α)
    (hexp : ∀ x, 0 < F.exp x) (r n : List Int) (oobR oobN : Nat → Int) (ngramTotal : Nat)
    (hlen : n.length = r.length) (h2 : 2 ≤ r.length) (_hs : r.Pairwise (fun a b => a < b))
    (hr : ∀ R ∈ r, 0 < R) (hn : ∀ N ∈ n, 0 < N)
    (hoob : (∀ s, s < r.length → gArrayIndex r oobR (s + 1) = gArrayIndex r oobR s + 1) →
      0 < oobN r.length) :
    ∃ p pZero, probGoodTuring F r n oobR oobN ngramTotal = some (p, pZero) ∧
      seenMass p n + pZero = 1 := by
  have hL : 0 < r.length := by omega
  have hL0 : r.length ≠ 0 := by omega
  unfold probGoodTuring
  rw [if_neg hL0]
  refine ⟨_, _, rfl, ?_⟩
  have hNT := newTotal_pos F hexp r n oobR oobN hlen hL hr hn hoob
  unfold seenMass
  have e : ∀ i ∈ List.range n.length,
      ((rStarFinal F r n oobR oobN).map
          (fun rs => (1 - pZeroOf n oobN ngramTotal) * rs / newTotal F r n oobR oobN)).getD i 0
        * (n.getD i 0 : α)
      = (1 - pZeroOf n oobN ngramTotal) / newTotal F r n oobR oobN
        * ((rStarFinal F r n oobR oobN).getD i 0 * (gArrayIndex n oobN i : α)) := by
    intro i hi
    rw [getD_map_zero _ (by simp), gArrayIndex_lt _ _ _ (List.mem_range.mp hi)]
    ring
  rw [List.map_congr_left e, List.sum_map_mul_left, hlen]
  have : ((List.range r.length).map
      (fun i => (rStarFinal F r n oobR oobN).getD i 0 * (gArrayIndex n oobN i : α))).sum
      = newTotal F r n oobR oobN := rfl
  rw [this]
  field_simp

theorem probBestFit_two {α : Type} [Field α] [CharZero α] (x0 x1 y0 y1 : α) (h : x0 ≠ x1) :
    ((probBestFit [x0, x1] [y0, y1]).1 + (probBestFit [x0, x1] [y0, y1]).2 * x1)
      - ((probBestFit [x0, x1] [y0, y1]).1 + (probBestFit [x0, x1] [y0, y1]).2 * x0)
      = y1 - y0 := by
  have hd : x1 - x0 ≠ 0 := sub_ne_zero.mpr (Ne.symm h)
  simp only [probBestFit, List.sum_cons, List.sum_nil, List.length_cons, List.length_nil,
    List.zip_cons_cons, List.zip_nil_right, List.map_cons, List.map_nil]
  have hXsq : (x0 - (x0 + (x1 + 0)) / ((0 + 1 + 1 : Nat) : α)) * (x0 - (x0 + (x1 + 0)) / ((0 + 1 + 1 : Nat) : α))
      + ((x1 - (x0 + (x1 + 0)) / ((0 + 1 + 1 : Nat) : α)) * (x1 - (x0 + (x1 + 0)) / ((0 + 1 + 1 : Nat) : α)) + 0)
      = (x1 - x0) ^ 2 / 2 := by
    push_cast; ring
  have hXY : (x0 - (x0 + (x1 + 0)) / ((0 + 1 + 1 : Nat) : α)) * (y0 - (y0 + (y1 + 0)) / ((0 + 1 + 1 : Nat) : α))
      + ((x1 - (x0 + (x1 + 0)) / ((0 + 1 + 1 : Nat) : α)) * (y1 - (y0 + (y1 + 0)) / ((0 + 1 + 1 : Nat) : α)) + 0)
      = (x1 - x0) * (y1 - y0) / 2 := by
    push_cast; ring
  rw [hXsq, hXY]
  have hb : ((x1 - x0) * (y1 - y0) / 2) / ((x1 - x0) ^ 2 / 2) = (y1 - y0) / (x1 - x0) := by
    field_simp
    ring
  rw [hb]
  have e : ∀ m : α, m - (y1 - y0) / (x1 - x0) * ((x0 + (x1 + 0)) / ((0 + 1 + 1 : Nat) : α))
        + (y1 - y0) / (x1 - x0) * x1
      - (m - (y1 - y0) / (x1 - x0) * ((x0 + (x1 + 0)) / ((0 + 1 + 1 : Nat) : α))
        + (y1 - y0) / (x1 - x0) * x0)
      = (y1 - y0) / (x1 - x0) * (x1 - x0) := by
    intro m; ring
  rw [e, div_mul_cancel₀ _ hd]

theorem sgt_two_first (z0 z1 : ℝ) (hz0 : 0 < z0) (hz1 : 0 < z1) (x0 x1 : ℝ) (hx : x0 ≠ x1)
    (ab : ℝ × ℝ) (hab : ab = probBestFit [x0, x1] [Real.log z0, Real.log z1]) :
    Real.exp (ab.1 + ab.2 * x1) / Real.exp (ab.1 + ab.2 * x0) = z1 / z0 := by
  rw [← Real.exp_sub, hab, probBestFit_two x0 x1 _ _ hx, Real.exp_sub, Real.exp_log hz0,
    Real.exp_log hz1]

theorem sgtEstimates_two_three :
    ∃ e1 : ℝ, 0 < e1 ∧
      sgtEstimates (⟨Real.log, Real.exp, Real.sqrt⟩ : MathFns ℝ) ([2, 3] : List Int)
        (gArrayIndex ([2, 3] : List Int) (fun _ => 4)) (gArrayIndex ([100, 100] : List Int) (fun _ => -75))
        = [9 / 2, e1] := by
  have hlog : Real.log 2 ≠ Real.log 3 := by
    intro h
    have := Real.log_injOn_pos (by simp) (by simp) h
    norm_num at this
  have hz0 : (zTransform (gArrayIndex ([2, 3] : List Int) (fun _ => 4))
      (gArrayIndex ([100, 100] : List Int) (fun _ => -75)) 2 0 : ℝ) = 200 / 3 := by
    simp [zTransform, gArrayIndex]; norm_num
  have hz1 : (zTransform (gArrayIndex ([2, 3] : List Int) (fun _ => 4))
      (gArrayIndex ([100, 100] : List Int) (fun _ => -75)) 2 1 : ℝ) = 100 := by
    simp [zTransform, gArrayIndex]; norm_num
  have hform : sgtEstimates (⟨Real.log, Real.exp, Real.sqrt⟩ : MathFns ℝ) ([2, 3] : List Int)
        (gArrayIndex ([2, 3] : List Int) (fun _ => 4)) (gArrayIndex ([100, 100] : List Int) (fun _ => -75))
      = [((2 + 1 : Int) : ℝ)
          * Real.exp ((probBestFit [Real.log ((2 : Int) : ℝ), Real.log ((3 : Int) : ℝ)]
              [Real.log (200 / 3), Real.log 100]).1
            + (probBestFit [Real.log ((2 : Int) : ℝ), Real.log ((3 : Int) : ℝ)]
              [Real.log (200 / 3), Real.log 100]).2 * Real.log ((2 + 1 : Int) : ℝ))
          / Real.exp ((probBestFit [Real.log ((2 : Int) : ℝ), Real.log ((3 : Int) : ℝ)]
              [Real.log (200 / 3), Real.log 100]).1
            + (probBestFit [Real.log ((2 : Int) : ℝ), Real.log ((3 : Int) : ℝ)]
              [Real.log (200 / 3), Real.log 100]).2 * Real.log ((2 : Int) : ℝ)),
         ((3 + 1 : Int) : ℝ)
          * Real.exp ((probBestFit [Real.log ((2 : Int) : ℝ), Real.log ((3 : Int) : ℝ)]
              [Real.log (200 / 3), Real.log 100]).1
            + (probBestFit [Real.log ((2 : Int) : ℝ), Real.log ((3 : Int) : ℝ)]
              [Real.log (200 / 3), Real.log 100]).2 * Real.log ((3 + 1 : Int) : ℝ))
          / Real.exp ((probBestFit [Real.log ((2 : Int) : ℝ), Real.log ((3 : Int) : ℝ)]
              [Real.log (200 / 3), Real.log 100]).1
            + (probBestFit [Real.log ((2 : Int) : ℝ), Real.log ((3 : Int) : ℝ)]
              [Real.log (200 / 3), Real.log 100]).2 * Real.log ((3 : Int) : ℝ))] := by
    simp only [sgtEstimates, List.length_cons, List.length_nil, List.map_cons, List.map_nil,
      List.range, List.range.loop, hz0, hz1, smooth]
  rw [hform]
  refine ⟨_, ?_, List.cons_eq_cons.mpr ⟨?_, rfl⟩⟩
  · have h1 : (0 : ℝ) < ((3 + 1 : Int) : ℝ) := by norm_num
    exact div_pos (mul_pos h1 (Real.exp_pos _)) (Real.exp_pos _)
  · have e2 : ((2 : Int) : ℝ) = 2 := by norm_num
    have e3 : ((3 : Int) : ℝ) = 3 := by norm_num
    have e : ((2 + 1 : Int) : ℝ) = 3 := by norm_num
    rw [e, e2, e3]
    have h := sgt_two_first (200 / 3) 100 (by norm_num) (by norm_num) (Real.log 2) (Real.log 3)
      hlog _ rfl
    rw [mul_div_assoc, h]
    norm_num

theorem turingLoop_two_three (e1 : ℝ) (he1 : 0 < e1) :
    turingLoop (⟨Real.log, Real.exp, Real.sqrt⟩ : MathFns ℝ)
      (gArrayIndex ([2, 3] : List Int) (fun _ => 4))
      (gArrayIndex ([100, 100] : List Int) (fun _ => -75)) 2 0 [9 / 2, e1] = [3, -3] := by
  have r0 : gArrayIndex ([2, 3] : List Int) (fun _ => 4) 0 = 2 := by simp [gArrayIndex]
  have r1 : gArrayIndex ([2, 3] : List Int) (fun _ => 4) 1 = 3 := by simp [gArrayIndex]
  have r2 : gArrayIndex ([2, 3] : List Int) (fun _ => 4) 2 = 4 := by simp [gArrayIndex]
  have n0 : gArrayIndex ([100, 100] : List Int) (fun _ => -75) 0 = 100 := by
    simp [gArrayIndex]
  have n1 : gArrayIndex ([100, 100] : List Int) (fun _ => -75) 1 = 100 := by
    simp [gArrayIndex]
  have n2 : gArrayIndex ([100, 100] : List Int) (fun _ => -75) 2 = -75 := by
    simp [gArrayIndex]
  have w9 : wrapInt32 ((2 + 1) * (2 + 1)) = 9 := by decide
  have w16 : wrapInt32 ((3 + 1) * (3 + 1)) = 16 := by decide
  -- first iteration: the Turing estimate 3 is outside the band around 9/2
  have b0 : ¬ (|((2 + 1 : Int) : ℝ) * ((100 : Int) : ℝ) / ((100 : Int) : ℝ) - 9 / 2|
      ≤ 196 / 100 * Real.sqrt (((9 : Int) : ℝ) * (((100 : Int) : ℝ)
          / (((100 : Int) : ℝ) * ((100 : Int) : ℝ))) * (1 + ((100 : Int) : ℝ) / ((100 : Int) : ℝ)))) := by
    have hs : Real.sqrt (((9 : Int) : ℝ) * (((100 : Int) : ℝ)
          / (((100 : Int) : ℝ) * ((100 : Int) : ℝ))) * (1 + ((100 : Int) : ℝ) / ((100 : Int) : ℝ)))
        < 3 / 4 := by
      rw [Real.sqrt_lt' (by norm_num)]
      norm_num
    have hd : |((2 + 1 : Int) : ℝ) * ((100 : Int) : ℝ) / ((100 : Int) : ℝ) - 9 / 2| = 3 / 2 := by
      rw [show ((2 + 1 : Int) : ℝ) * ((100 : Int) : ℝ) / ((100 : Int) : ℝ) - 9 / 2 = -(3 / 2) by
        norm_num]
      rw [abs_neg, abs_of_pos (by norm_num)]
    rw [hd]
    intro h
    linarith
  -- second iteration: the band is empty and the estimate -3 replaces e1
  have b1 : ¬ (|((3 + 1 : Int) : ℝ) * ((-75 : Int) : ℝ) / ((100 : Int) : ℝ) - e1|
      ≤ 196 / 100 * Real.sqrt (((16 : Int) : ℝ) * (((-75 : Int) : ℝ)
          / (((100 : Int) : ℝ) * ((100 : Int) : ℝ))) * (1 + ((-75 : Int) : ℝ) / ((100 : Int) : ℝ)))) := by
    have hs : Real.sqrt (((16 : Int) : ℝ) * (((-75 : Int) : ℝ)
          / (((100 : Int) : ℝ) * ((100 : Int) : ℝ))) * (1 + ((-75 : Int) : ℝ) / ((100 : Int) : ℝ)))
        = 0 := by
      apply Real.sqrt_eq_zero_of_nonpos
      norm_num
    rw [hs, mul_zero]
    intro h
    have := abs_nonpos_iff.mp h
    have e : ((3 + 1 : Int) : ℝ) * ((-75 : Int) : ℝ) / ((100 : Int) : ℝ) = -3 := by norm_num
    rw [e] at this
    linarith
  simp only [turingLoop, r0, r1, r2, n0, n1, n2, w9, w16, ne_eq, not_true_eq_false, if_false,
    zero_add, List.getD_cons_zero, b0, List.set_cons_zero, List.getD_cons_succ, b1,
    List.set_cons_succ]
  norm_num

/-- The table of the specification's scenario, R = [1, 2, 3, 5] and
N = [10, 5, 2, 1]: whatever the storage behind the arrays holds, the smoothed
mass of the observed n-grams plus the unseen mass is 1. -/
theorem probGoodTuring_mass_one_example (oobR oobN : Nat → Int) (ngramTotal : Nat) :
    ∃ p pZero,
      probGoodTuring (⟨Real.log, Real.exp, Real.sqrt⟩ : MathFns ℝ) [1, 2, 3, 5] [10, 5, 2, 1]
        oobR oobN ngramTotal = some (p, pZero) ∧
      seenMass p [10, 5, 2, 1] + pZero = 1 :=
  probGoodTuring_mass_one (⟨Real.log, Real.exp, Real.sqrt⟩ : MathFns ℝ) Real.exp_pos
    [1, 2, 3, 5] [10, 5, 2, 1] oobR oobN ngramTotal rfl (by decide) (by decide) (by decide)
    (by decide) (by
      intro h
      have := h 2 (by decide)
      simp [gArrayIndex] at this)

/-- C5 (fails on the code): for the table R = [2, 3], N = [100, 100]
(`ngramTotal` = 500) the switchover loop passes index 0 (Turing estimate 3
against the smoothed 9/2), and at index 1 it reads `r[2]` and `n[2]`, behind
the two entries of the arrays; when these words hold 4 and -75 the estimate
at index 1 becomes -3, `newTotal` is 3 * 100 - 3 * 100 = 0, the division by
`newTotal` yields no probabilities, and the mass of the observed n-grams plus
`pZero` = 1/5 is not 1. -/
theorem probGoodTuring_reads_past_table :
    rStarFinal (⟨Real.log, Real.exp, Real.sqrt⟩ : MathFns ℝ) [2, 3] [100, 100]
        (fun _ => 4) (fun _ => -75) = [3, -3] ∧
    newTotal (⟨Real.log, Real.exp, Real.sqrt⟩ : MathFns ℝ) [2, 3] [100, 100]
        (fun _ => 4) (fun _ => -75) = 0 ∧
    ∃ p pZero,
      probGoodTuring (⟨Real.log, Real.exp, Real.sqrt⟩ : MathFns ℝ) [2, 3] [100, 100]
        (fun _ => 4) (fun _ => -75) 500 = some (p, pZero) ∧
      pZero = 1 / 5 ∧ seenMass p [100, 100] + pZero ≠ 1 := by
  have hrs : rStarFinal (⟨Real.log, Real.exp, Real.sqrt⟩ : MathFns ℝ) [2, 3] [100, 100]
      (fun _ => 4) (fun _ => -75) = [3, -3] := by
    obtain ⟨e1, he1, hest⟩ := sgtEstimates_two_three
    unfold rStarFinal
    rw [hest]
    exact turingLoop_two_three e1 he1
  have hnt : newTotal (⟨Real.log, Real.exp, Real.sqrt⟩ : MathFns ℝ) [2, 3] [100, 100]
      (fun _ => 4) (fun _ => -75) = 0 := by
    unfold newTotal
    rw [hrs]
    simp [gArrayIndex, List.range, List.range.loop]
  refine ⟨hrs, hnt, ?_⟩
  unfold probGoodTuring
  rw [if_neg (by decide)]
  refine ⟨_, _, rfl, ?_, ?_⟩
  · simp [pZeroOf, gArrayIndex]; norm_num
  · rw [hrs, hnt]
    simp [seenMass, pZeroOf, gArrayIndex, List.range, List.range.loop]
    norm_num

/-! ## The loaded tables -/

theorem hashLookup_insert {α : Type} (t : HashTable α) (k k1 : List Nat) (v : α) :
    hashLookup (hashInsert t k v) k1 = if k = k1 then some v else hashLookup t k1 := by
  induction t with
  | nil => simp [hashInsert, hashLookup]
  | cons p rest ih =>
    obtain ⟨a, w⟩ := p
    simp only [hashInsert]
    by_cases h : a = k
    · subst h
      simp only [if_true, hashLookup]
      by_cases h1 : a = k1
      · simp [h1]
      · simp [h1]
    · simp only [h, if_false, hashLookup, ih]
      by_cases h1 : a = k1
      · subst h1
        simp [Ne.symm h]
      · simp [h1]

/-- The tables that `loadCond` leaves: the prior table is the one given, and
an n-gram that no later line repeats keeps the value computed on its line. -/
theorem loadCond_lookup {α : Type} [Field α] (log : α → α) (n : Nat) (prior : HashTable α)
    (lines : List (ScoreLine α)) (c : HashTable α) (z : α) (k : Nat) (t : ScoreTables α)
    (h : loadCond log n prior lines (c, z, k) = InitResult.loaded t) :
    t.scorePrior = prior ∧
    (∀ key w, hashLookup c key = some w →
      (∀ g1 v1, ScoreLine.entry g1 v1 ∈ lines → cstr g1 ≠ key) →
      hashLookup t.scoreCond key = some w) ∧
    (∀ pre post g v, lines = pre ++ ScoreLine.entry g v :: post →
      (∀ g1 v1, ScoreLine.entry g1 v1 ∈ post → cstr g1 ≠ cstr g) →
      ∃ pv, hashLookup prior (cstr (g.take (n - 1))) = some pv ∧
        hashLookup t.scoreCond (cstr g) = some (log v - pv)) := by
  induction lines generalizing c z k with
  | nil =>
    simp only [loadCond, InitResult.loaded.injEq] at h
    subst h
    refine ⟨rfl, fun key w hw _ => hw, ?_⟩
    intro pre post g v he
    simp at he
  | cons l rest ih =>
    cases l with
    | malformed => simp [loadCond] at h
    | entry g0 v0 =>
      simp only [loadCond] at h
      split at h
      · simp at h
      · rename_i pv0 hpv0
        obtain ⟨h1, h2, h3⟩ := ih _ _ _ h
        refine ⟨h1, ?_, ?_⟩
        · intro key w hw hno
          apply h2
          · rw [hashLookup_insert]
            have : cstr g0 ≠ key := hno g0 v0 (List.mem_cons_self _ _)
            simp [this, hw]
          · intro g1 v1 hm
            exact hno g1 v1 (List.mem_cons_of_mem _ hm)
        · intro pre post g v he hno
          cases pre with
          | nil =>
            simp only [List.nil_append, List.cons.injEq, ScoreLine.entry.injEq] at he
            obtain ⟨⟨hg, hv⟩, hr⟩ := he
            subst hg hv hr
            refine ⟨pv0, hpv0, ?_⟩
            apply h2
            · rw [hashLookup_insert]; simp
            · exact hno
          | cons p pre1 =>
            simp only [List.cons_append, List.cons.injEq] at he
            exact h3 pre1 post g v he.2 hno



/-- C11: when `scoreInit` returns `TRUE`, for every line `g p` of the n-gram
file whose n-gram is not repeated on a later line, the prefix of `g` is in
`scorePrior` and `scoreCond[g] + scorePrior[prefix(g)] = log p`. -/
theorem scoreCond_plus_prior {α : Type} [Field α] (log : α → α) (n : Nat)
    (pf : Option (List (ScoreLine α))) (pre post : List (ScoreLine α)) (g : List Nat) (v : α)
    (t : ScoreTables α)
    (h : scoreInit log n pf (some (pre ++ ScoreLine.entry g v :: post)) = InitResult.loaded t)
    (hlast : ∀ g1 v1, ScoreLine.entry g1 v1 ∈ post → cstr g1 ≠ cstr g) :
    ∃ c pv, hashLookup t.scoreCond (cstr g) = some c ∧
      hashLookup t.scorePrior (cstr (g.take (n - 1))) = some pv ∧ c + pv = log v := by
  unfold scoreInit at h
  cases pf with
  | none => simp at h
  | some pl =>
    simp only at h
    cases hp : loadPrior log pl [] with
    | none => simp [hp] at h
    | some prior =>
      simp only [hp] at h
      cases hc : loadCond log n prior (pre ++ ScoreLine.entry g v :: post)
          ([], 1, countZeroSeed n) with
      | failed => simp [hc] at h
      | aborted => simp [hc] at h
      | loaded t1 =>
        simp only [hc, InitResult.loaded.injEq] at h
        obtain ⟨h1, _, h3⟩ := loadCond_lookup log n prior _ _ _ _ t1 hc
        obtain ⟨pv, hpv, hcv⟩ := h3 pre post g v rfl hlast
        subst h
        refine ⟨log v - pv, pv, hcv, ?_, by ring⟩
        simp only
        rw [h1]; exact hpv

/-- C11, witness: the files `a 0.5` and `ab 0.25` with n = 2. -/
theorem scoreCond_plus_prior_witness :
    ∃ c pv, hashLookup (twoGramTables [97, 98] (Real.log (1 / 2))
          (Real.log (1 / 4) - Real.log (1 / 2))
          (Real.log ((1 - 1 / 4) / ((675 : Nat) : ℝ)))).scoreCond (cstr [97, 98]) = some c ∧
      hashLookup (twoGramTables [97, 98] (Real.log (1 / 2))
          (Real.log (1 / 4) - Real.log (1 / 2))
          (Real.log ((1 - 1 / 4) / ((675 : Nat) : ℝ)))).scorePrior
        (cstr (([97, 98] : List Nat).take (2 - 1))) = some pv ∧
      c + pv = Real.log (1 / 4) :=
  scoreCond_plus_prior Real.log 2 (some [ScoreLine.entry [97] (1 / 2)]) [] [] [97, 98] (1 / 4) _
    (by simp [scoreInit, loadPrior, loadCond, hashInsert, hashLookup, cstr, countZeroSeed,
      NUMSYMBOLS, twoGramTables])
    (by simp)

/-! ## Trie traversal -/

theorem trieTraverseLevel_eq_map (t : trieNode) (k : Nat) :
    trieTraverseLevel t k = (levelPaths t k).map (nodeAt t) := by
  induction k generalizing t with
  | zero => cases t <;> simp [trieTraverseLevel, levelPaths, nodeAt]
  | succ k ih =>
    cases t with
    | null => simp [trieTraverseLevel, levelPaths]
    | node g t ch =>
      simp only [trieTraverseLevel, levelPaths, List.map_flatMap, List.map_map]
      congr 1
      funext i
      rw [ih]
      apply List.map_congr_left
      intro p _
      simp [nodeAt]

theorem mem_levelPaths (t : trieNode) (k : Nat) (p : List (Fin 26)) :
    p ∈ levelPaths t k ↔ p.length = k ∧ nodeAt t p ≠ trieNode.null := by
  induction k generalizing t p with
  | zero =>
    cases t with
    | null =>
      simp only [levelPaths, List.not_mem_nil, false_iff, not_and, not_not]
      intro h
      cases p with
      | nil => simp [nodeAt]
      | cons a q => simp at h
    | node g t ch =>
      simp only [levelPaths, List.mem_singleton]
      constructor
      · intro h; subst h; simp [nodeAt]
      · intro h
        exact List.length_eq_zero.mp h.1
  | succ k ih =>
    cases t with
    | null =>
      simp only [levelPaths, List.not_mem_nil, false_iff, not_and, not_not]
      intro h
      cases p with
      | nil => simp at h
      | cons a q => simp [nodeAt]
    | node g t ch =>
      simp only [levelPaths, List.mem_flatMap, List.mem_finRange, true_and, List.mem_map]
      constructor
      · rintro ⟨i, q, hq, rfl⟩
        have := (ih (ch i) q).mp hq
        simp only [List.length_cons, nodeAt]
        exact ⟨by omega, this.2⟩
      · intro h
        cases p with
        | nil => simp at h
        | cons a q =>
          simp only [List.length_cons, nodeAt] at h
          exact ⟨a, q, (ih (ch a) q).mpr ⟨by omega, h.2⟩, rfl⟩

theorem levelPaths_sorted (t : trieNode) (k : Nat) :
    (levelPaths t k).Pairwise (List.Lex (fun a b : Fin 26 => a < b)) := by
  induction k generalizing t with
  | zero => cases t <;> simp [levelPaths]
  | succ k ih =>
    cases t with
    | null => simp [levelPaths]
    | node g t ch =>
      simp only [levelPaths]
      rw [List.pairwise_flatMap]
      constructor
      · intro i _
        rw [List.pairwise_map]
        exact (ih (ch i)).imp (fun h => List.Lex.cons h)
      · apply (List.pairwise_lt_finRange 26).imp
        intro a b hab x hx y hy
        rw [List.mem_map] at hx hy
        obtain ⟨x1, _, rfl⟩ := hx
        obtain ⟨y1, _, rfl⟩ := hy
        exact List.Lex.rel hab

/-- C18: `trieTraverseLevel(root, f, k)` calls `f` on the nodes found at a list
of slot paths that is strictly ascending in lexicographic order (so no path
occurs twice) and holds exactly the paths of length `k` that lead to an
existing node. -/
theorem trieTraverseLevel_visits_depth_k (root : trieNode) (k : Nat) :
    ∃ paths : List (List (Fin 26)),
      trieTraverseLevel root k = paths.map (nodeAt root) ∧
      (∀ p, p ∈ paths ↔ p.length = k ∧ nodeAt root p ≠ trieNode.null) ∧
      paths.Pairwise (List.Lex (fun a b : Fin 26 => a < b)) :=
  ⟨levelPaths root k, trieTraverseLevel_eq_map root k, mem_levelPaths root k,
    levelPaths_sorted root k⟩

theorem NgramOk_node (n : Nat) (path : List Nat) (g : Option (List Nat)) (t : Int)
    (ch : Fin 26 → trieNode) :
    NgramOk n path (trieNode.node g t ch)
      ↔ (g = (if path.length = n then some path else none) ∧
          ∀ i : Fin 26, NgramOk n (path ++ [chA + i.val]) (ch i)) := by
  simp [NgramOk]

theorem NgramOk_null (n : Nat) (path : List Nat) : NgramOk n path trieNode.null := by
  simp [NgramOk]

theorem NgramOk_addTotal (n : Nat) (path : List Nat) (c : Int) (t : trieNode)
    (h : NgramOk n path t) : NgramOk n path (addTotal c t) := by
  cases t with
  | null => simpa [addTotal] using h
  | node g t ch =>
    rw [NgramOk_node] at h
    simp only [addTotal]
    rw [NgramOk_node]
    exact h

theorem take_succ_getD (g : List Nat) (i : Nat) (h : g.getD i 0 ≠ 0) :
    g.take (i + 1) = g.take i ++ [g.getD i 0] ∧ i < g.length := by
  have hi : i < g.length := by
    by_contra hn
    apply h
    simp [List.getD, List.getElem?_eq_none (Nat.le_of_not_lt hn)]
  refine ⟨?_, hi⟩
  rw [List.take_succ]
  simp [List.getD, List.getElem?_eq_getElem hi]

theorem insertFrom_ngramOk (n : Nat) (g : List Nat) (c : Int) (rem : Nat) (p q : trieNode)
    (hrem : rem ≤ n) (hlen : n - rem ≤ g.length) (hok : NgramOk n (g.take (n - rem)) p)
    (h : insertFrom n g c rem p = some q) : NgramOk n (g.take (n - rem)) q := by
  induction rem generalizing p q with
  | zero =>
    simp only [insertFrom, Option.some.injEq] at h
    subst h
    exact hok
  | succ rem ih =>
    cases p with
    | null => simp [insertFrom] at h
    | node gg t ch =>
      simp only [insertFrom] at h
      split at h
      · rename_i hc
        split at h
        · simp at h
        · rename_i t2 h2
          simp only [Option.some.injEq] at h
          subst h
          rw [NgramOk_node] at hok ⊢
          refine ⟨hok.1, ?_⟩
          have hne : g.getD (n - (rem + 1)) 0 ≠ 0 := by
            have := hc.1
            unfold chA at this
            omega
          obtain ⟨htake, hi⟩ := take_succ_getD g (n - (rem + 1)) hne
          have hd : n - (rem + 1) + 1 = n - rem := by omega
          have hlt : (g.take (n - (rem + 1))).length = n - (rem + 1) := by
            rw [List.length_take]; omega
          have hletter : chA + (g.getD (n - (rem + 1)) 0 - chA) = g.getD (n - (rem + 1)) 0 := by
            have := hc.1
            omega
          intro i
          by_cases hi2 : i = ⟨g.getD (n - (rem + 1)) 0 - chA, hc.2⟩
          · subst hi2
            rw [Function.update_same]
            simp only [hletter]
            rw [← htake, hd]
            apply ih _ _ (by omega) (by omega) _ h2
            apply NgramOk_addTotal
            have hci := hok.2 ⟨g.getD (n - (rem + 1)) 0 - chA, hc.2⟩
            simp only [hletter] at hci
            rw [← htake, hd] at hci
            cases hcc : ch ⟨g.getD (n - (rem + 1)) 0 - chA, hc.2⟩ with
            | null =>
              simp only [childOrNew]
              rw [NgramOk_node]
              refine ⟨?_, fun _ => NgramOk_null _ _⟩
              have hl2 : (g.take (n - rem)).length = n - rem := by
                rw [List.length_take]; omega
              rw [hl2]
              by_cases hr : rem = 0
              · subst hr
                simp
              · have h1 : ¬ (n - (rem + 1) = n - 1) := by omega
                have h2 : ¬ (n - rem = n) := by omega
                simp [h1, h2]
            | node g1 t1 ch1 =>
              rw [hcc] at hci
              simpa [childOrNew] using hci
          · rw [Function.update_noteq hi2]
            exact hok.2 i
      · simp at h

theorem ngramInsert_ngramOk (n : Nat) (g : List Nat) (c : Int) (p q : trieNode)
    (hok : NgramOk n [] p) (h : ngramInsert n p g c = some q) : NgramOk n [] q := by
  unfold ngramInsert at h
  cases hi : insertFrom n g c n p with
  | none => simp [hi] at h
  | some q1 =>
    rw [hi] at h
    simp only [Option.map_some', Option.some.injEq] at h
    subst h
    apply NgramOk_addTotal
    have := insertFrom_ngramOk n g c n p q1 (le_refl _) (by simp) (by simpa using hok) hi
    simpa using this

theorem ngramInsertAll_ngramOk (n : Nat) (gs : List (List Nat × Int))
    (p q : trieNode) (hok : NgramOk n [] p) (h : ngramInsertAll n p gs = some q) :
    NgramOk n [] q := by
  induction gs generalizing p with
  | nil =>
    simp only [ngramInsertAll, Option.some.injEq] at h
    subst h
    exact hok
  | cons x rest ih =>
    obtain ⟨g, c⟩ := x
    simp only [ngramInsertAll] at h
    split at h
    · simp at h
    · rename_i q1 hq1
      exact ih q1 (ngramInsert_ngramOk n g c p q1 hok hq1) h

theorem NgramOk_new (n : Nat) (hn : 1 ≤ n) : NgramOk n [] trieNodeNew := by
  unfold trieNodeNew
  rw [NgramOk_node]
  refine ⟨?_, fun _ => NgramOk_null _ _⟩
  have : ¬ (([] : List Nat).length = n) := by simp; omega
  rw [if_neg this]

theorem NgramOk_nodeAt (n : Nat) (path : List Nat) (t : trieNode) (p : List (Fin 26))
    (g : Option (List Nat)) (tot : Int) (ch : Fin 26 → trieNode)
    (hok : NgramOk n path t) (h : nodeAt t p = trieNode.node g tot ch) :
    g = if (path ++ pathLetters p).length = n then some (path ++ pathLetters p) else none := by
  induction p generalizing path t with
  | nil =>
    simp only [nodeAt] at h
    subst h
    rw [NgramOk_node] at hok
    simpa [pathLetters] using hok.1
  | cons i p ih =>
    cases t with
    | null => simp [nodeAt] at h
    | node g1 t1 ch1 =>
      simp only [nodeAt] at h
      rw [NgramOk_node] at hok
      have := ih (path ++ [chA + i.val]) (ch1 i) (hok.2 i) h
      simpa [pathLetters] using this

theorem traverseLeaf_eq_level (n : Nat) (k : Nat) (path : List Nat) (t : trieNode)
    (hok : NgramOk n path t) (hk : path.length + k = n) :
    trieTraverseLeaf t = trieTraverseLevel t k := by
  induction k generalizing path t with
  | zero =>
    cases t with
    | null => simp [trieTraverseLeaf, trieTraverseLevel]
    | node g t ch =>
      rw [NgramOk_node] at hok
      have hl : path.length = n := by omega
      rw [if_pos hl] at hok
      rw [hok.1]
      simp [trieTraverseLeaf, trieTraverseLevel]
  | succ k ih =>
    cases t with
    | null => simp [trieTraverseLeaf, trieTraverseLevel]
    | node g t ch =>
      rw [NgramOk_node] at hok
      have hl : ¬ (path.length = n) := by omega
      rw [if_neg hl] at hok
      rw [hok.1]
      simp only [trieTraverseLeaf, trieTraverseLevel]
      congr 1
      funext i
      exact ih (path ++ [chA + i.val]) (ch i) (hok.2 i) (by simp; omega)

/-- C17: in every trie reached from the empty root by calls of `ngramInsert`
with a fixed n ≥ 1, a node (found along the slot path `p`) carries an n-gram
string iff it is at depth n, the string is then the n letters of its path,
and `trieTraverseLeaf` calls `func` on the same nodes, in the same order, as
`trieTraverseLevel` at level n, which are the nodes at depth n. -/
theorem ngram_string_iff_depth_n (n : Nat) (hn : 1 ≤ n) (gs : List (List Nat × Int))
    (t : trieNode) (h : ngramInsertAll n trieNodeNew gs = some t) :
    (∀ (p : List (Fin 26)) (g : Option (List Nat)) (tot : Int) (ch : Fin 26 → trieNode),
      nodeAt t p = trieNode.node g tot ch →
        (g ≠ none ↔ p.length = n) ∧ (p.length = n → g = some (pathLetters p))) ∧
    trieTraverseLeaf t = trieTraverseLevel t n ∧
    ∃ paths : List (List (Fin 26)),
      trieTraverseLeaf t = paths.map (nodeAt t) ∧
      ∀ p, p ∈ paths ↔ p.length = n ∧ nodeAt t p ≠ trieNode.null := by
  have hok := ngramInsertAll_ngramOk n gs trieNodeNew t (NgramOk_new n hn) h
  have hleaf := traverseLeaf_eq_level n n [] t hok (by simp)
  refine ⟨?_, hleaf, levelPaths t n, ?_, mem_levelPaths t n⟩
  · intro p g tot ch hp
    have hg := NgramOk_nodeAt n [] t p g tot ch hok hp
    simp only [List.nil_append] at hg
    have hlen : (pathLetters p).length = p.length := by simp [pathLetters]
    rw [hlen] at hg
    constructor
    · constructor
      · intro hne
        by_contra hc
        rw [if_neg hc] at hg
        exact hne hg
      · intro hl
        rw [if_pos hl] at hg
        rw [hg]
        simp
    · intro hl
      rw [if_pos hl] at hg
      exact hg
  · rw [hleaf]
    exact trieTraverseLevel_eq_map t n

/-- C17, witness: the trie of the 2-grams `ab`, `ac`, `ab`. -/
theorem ngram_string_iff_depth_n_witness :
    ∃ t, ngramInsertAll 2 trieNodeNew [([97, 98], 1), ([97, 99], 1), ([97, 98], 1)] = some t ∧
      trieTraverseLeaf t = trieTraverseLevel t 2 :=
  (ngramInsertAll_total 2 [([97, 98], 1), ([97, 99], 1), ([97, 98], 1)] none 0
      (fun _ => trieNode.null) (by
        intro x hx i hi
        simp only [List.mem_cons, List.mem_singleton, List.not_mem_nil, or_false] at hx
        rcases hx with rfl | rfl | rfl <;> interval_cases i <;> decide)).elim
    (fun t ht => ⟨t, ht, (ngram_string_iff_depth_n 2 (by decide) _ t ht).2.1⟩)

/-! ## The frequency table -/

theorem wrapInt32_of_range (x : Int) (h0 : -2 ^ 31 ≤ x) (h1 : x < 2 ^ 31) : wrapInt32 x = x := by
  unfold wrapInt32
  have : (x + 2 ^ 31) % 2 ^ 32 = x + 2 ^ 31 := Int.emod_eq_of_lt (by omega) (by omega)
  omega

theorem countInsert_spec (total : Int) (r n : List Int) (hs : r.Pairwise (fun a b => a < b))
    (hl : r.length = n.length) (ht : wrapInt32 total = total) :
    (countInsert total r n).1.Pairwise (fun a b => a < b) ∧
    (countInsert total r n).1.length = (countInsert total r n).2.length ∧
    ∀ x, x ∈ (countInsert total r n).1 ↔ x = total ∨ x ∈ r := by
  induction r generalizing n with
  | nil =>
    cases n with
    | nil => simp [countInsert, ht]
    | cons N ns => simp at hl
  | cons R rs ih =>
    cases n with
    | nil => simp at hl
    | cons N ns =>
      simp only [List.length_cons, add_left_inj] at hl
      rw [List.pairwise_cons] at hs
      simp only [countInsert]
      by_cases h1 : total ≤ R
      · rw [if_pos h1]
        by_cases h2 : total = R
        · rw [if_pos h2]
          refine ⟨List.pairwise_cons.mpr hs, by simp [hl], ?_⟩
          intro x
          simp [h2]
        · rw [if_neg h2, ht]
          have hlt : total < R := lt_of_le_of_ne h1 h2
          refine ⟨?_, by simp [hl], by simp⟩
          rw [List.pairwise_cons]
          refine ⟨?_, List.pairwise_cons.mpr hs⟩
          intro a ha
          rcases List.mem_cons.mp ha with rfl | ha
          · exact hlt
          · exact lt_trans hlt (hs.1 a ha)
      · rw [if_neg h1]
        obtain ⟨i1, i2, i3⟩ := ih ns hs.2 hl
        refine ⟨?_, by simp [i2], ?_⟩
        · rw [List.pairwise_cons]
          refine ⟨?_, i1⟩
          intro a ha
          rcases (i3 a).mp ha with rfl | ha
          · omega
          · exact hs.1 a ha
        · intro x
          simp only [List.mem_cons, i3]
          tauto

theorem foldl_probCountNode (L : List trieNode) (s : Counts)
    (hs : s.r.Pairwise (fun a b => a < b)) (hl : s.r.length = s.n.length)
    (hL : ∀ node ∈ L, wrapInt32 (totalOf node) = totalOf node) :
    (L.foldl probCountNode s).r.Pairwise (fun a b => a < b) ∧
    (L.foldl probCountNode s).r.length = (L.foldl probCountNode s).n.length ∧
    ∀ x, x ∈ (L.foldl probCountNode s).r ↔ x ∈ s.r ∨ ∃ node ∈ L, totalOf node = x := by
  induction L generalizing s with
  | nil => simp [hs, hl]
  | cons a rest ih =>
    obtain ⟨i1, i2, i3⟩ := countInsert_spec (totalOf a) s.r s.n hs hl
      (hL a (List.mem_cons_self _ _))
    obtain ⟨j1, j2, j3⟩ := ih (probCountNode s a) i1 i2
      (fun node hn => hL node (List.mem_cons_of_mem _ hn))
    simp only [List.foldl_cons]
    refine ⟨j1, j2, ?_⟩
    intro x
    rw [j3]
    simp only [probCountNode, i3, List.mem_cons, exists_eq_or_imp]
    constructor
    · rintro ((h | h) | h)
      · exact Or.inr (Or.inl h.symm)
      · exact Or.inl h
      · exact Or.inr (Or.inr h)
    · rintro (h | h | h)
      · exact Or.inl (Or.inr h)
      · exact Or.inl (Or.inl h.symm)
      · exact Or.inr h

theorem probGetCounts_spec (root : trieNode) (level : Nat)
    (hL : ∀ node ∈ trieTraverseLevel root level, wrapInt32 (totalOf node) = totalOf node) :
    (probGetCounts root level).r.Pairwise (fun a b => a < b) ∧
    (probGetCounts root level).r.length = (probGetCounts root level).n.length ∧
    ∀ x, x ∈ (probGetCounts root level).r ↔
      ∃ node ∈ trieTraverseLevel root level, totalOf node = x := by
  have := foldl_probCountNode (trieTraverseLevel root level) ⟨[], [], 0⟩ (by simp) (by simp) hL
  simpa [probGetCounts] using this

theorem sorted_getD_mono (a : List Int) (hs : a.Pairwise (fun x y => x < y)) (i j : Nat)
    (hij : i < j) (hj : j < a.length) : a.getD i 0 < a.getD j 0 := by
  have hi : i < a.length := by omega
  rw [List.getD_eq_getElem a 0 hi, List.getD_eq_getElem a 0 hj]
  exact List.pairwise_iff_getElem.mp hs i j hi hj hij

theorem bsearchLoop_found (key : Int) (a : List Int) (hs : a.Pairwise (fun x y => x < y))
    (hr : ∀ x ∈ a, 0 ≤ x ∧ x < 2 ^ 31) (hk : 0 ≤ key ∧ key < 2 ^ 31)
    (fuel l u j : Nat) (hlj : l ≤ j) (hju : j < u) (hu : u ≤ a.length)
    (hj : a.getD j 0 = key) (hf : u - l < fuel) :
    bsearchLoop key a fuel l u = some j := by
  induction fuel generalizing l u with
  | zero => omega
  | succ fuel ih =>
    simp only [bsearchLoop]
    have hlu : l < u := by omega
    rw [if_pos hlu]
    have hidx : (l + u) / 2 < u := by omega
    have hidx2 : l ≤ (l + u) / 2 := by omega
    have hmem : a.getD ((l + u) / 2) 0 ∈ a := by
      rw [List.getD_eq_getElem a 0 (by omega)]
      exact List.getElem_mem _
    have hrm := hr _ hmem
    have hc : cmp_int key (a.getD ((l + u) / 2) 0) = key - a.getD ((l + u) / 2) 0 := by
      unfold cmp_int
      apply wrapInt32_of_range <;> omega
    rw [hc]
    by_cases h1 : key - a.getD ((l + u) / 2) 0 < 0
    · rw [if_pos h1]
      have : j < (l + u) / 2 := by
        by_contra hn
        rcases Nat.eq_or_lt_of_le (Nat.le_of_not_lt hn) with he | hlt
        · rw [he] at h1; omega
        · have := sorted_getD_mono a hs _ _ hlt (by omega)
          omega
      exact ih l _ hlj this (by omega) (by omega)
    · rw [if_neg h1]
      by_cases h2 : 0 < key - a.getD ((l + u) / 2) 0
      · rw [if_pos h2]
        have : (l + u) / 2 < j := by
          by_contra hn
          rcases Nat.eq_or_lt_of_le (Nat.le_of_not_lt hn) with he | hlt
          · rw [← he] at h2; omega
          · have := sorted_getD_mono a hs _ _ hlt (by omega)
            omega
        exact ih _ u (by omega) hju hu (by omega)
      · rw [if_neg h2]
        have he : a.getD ((l + u) / 2) 0 = a.getD j 0 := by omega
        congr 1
        by_contra hne
        rcases Nat.lt_or_gt_of_ne hne with hlt | hgt
        · have := sorted_getD_mono a hs _ _ hlt (by omega)
          omega
        · have := sorted_getD_mono a hs _ _ hgt (by omega)
          omega

theorem bsearch_found (key : Int) (a : List Int) (hs : a.Pairwise (fun x y => x < y))
    (hr : ∀ x ∈ a, 0 ≤ x ∧ x < 2 ^ 31) (hk : key ∈ a) :
    ∃ i, i < a.length ∧ a.getD i 0 = key ∧ bsearch key a a.length = some i := by
  obtain ⟨j, hj, hjk⟩ := List.mem_iff_getElem.mp hk
  refine ⟨j, hj, ?_, ?_⟩
  · rw [List.getD_eq_getElem a 0 hj]; exact hjk
  · unfold bsearch
    apply bsearchLoop_found key a hs hr (hr key hk) _ 0 a.length j (by omega) hj (le_refl _)
    · rw [List.getD_eq_getElem a 0 hj]; exact hjk
    · omega

theorem TotalsIn_node (B : Int) (g : Option (List Nat)) (t : Int) (ch : Fin 26 → trieNode) :
    TotalsIn B (trieNode.node g t ch) ↔ ((0 ≤ t ∧ t ≤ B) ∧ ∀ i, TotalsIn B (ch i)) := by
  simp [TotalsIn]

theorem TotalsIn_null (B : Int) : TotalsIn B trieNode.null := by
  simp [TotalsIn]

theorem TotalsIn_mono (B C : Int) (hBC : B ≤ C) (t : trieNode) (h : TotalsIn B t) :
    TotalsIn C t := by
  induction t with
  | null => exact TotalsIn_null C
  | node g t ch ih =>
    rw [TotalsIn_node] at h ⊢
    exact ⟨⟨h.1.1, le_trans h.1.2 hBC⟩, fun i => ih i (h.2 i)⟩

theorem insertFrom_totalsIn (n : Nat) (g : List Nat) (c B : Int) (hc : 0 ≤ c) (hB : 0 ≤ B)
    (rem : Nat) (gg : Option (List Nat)) (t : Int) (ch : Fin 26 → trieNode) (q : trieNode)
    (hch : ∀ i, TotalsIn B (ch i))
    (h : insertFrom n g c rem (trieNode.node gg t ch) = some q) :
    ∃ ch1, q = trieNode.node gg t ch1 ∧ ∀ i, TotalsIn (B + c) (ch1 i) := by
  induction rem generalizing gg t ch q with
  | zero =>
    simp only [insertFrom, Option.some.injEq] at h
    exact ⟨ch, h.symm, fun i => TotalsIn_mono B _ (by omega) _ (hch i)⟩
  | succ rem ih =>
    simp only [insertFrom] at h
    split at h
    · rename_i hcc
      obtain ⟨g1, t1, ch1, htn, ht1, hok1⟩ :
          ∃ g1 t1 ch1,
            childOrNew n g (n - (rem + 1)) (ch ⟨g.getD (n - (rem + 1)) 0 - chA, hcc.2⟩)
              = trieNode.node g1 t1 ch1 ∧
            (0 ≤ t1 ∧ t1 ≤ B) ∧ (∀ i, TotalsIn B (ch1 i)) := by
        have hci := hch ⟨g.getD (n - (rem + 1)) 0 - chA, hcc.2⟩
        cases hx : ch ⟨g.getD (n - (rem + 1)) 0 - chA, hcc.2⟩ with
        | null =>
          exact ⟨_, 0, fun _ => trieNode.null, rfl, ⟨le_refl _, hB⟩, fun _ => TotalsIn_null _⟩
        | node g1 t1 ch1 =>
          rw [hx, TotalsIn_node] at hci
          exact ⟨g1, t1, ch1, rfl, hci.1, hci.2⟩
      rw [htn] at h
      simp only [addTotal] at h
      split at h
      · simp at h
      · rename_i t2 h2
        simp only [Option.some.injEq] at h
        obtain ⟨ch2, e2, hok2⟩ := ih g1 (t1 + c) ch1 t2 hok1 h2
        refine ⟨_, h.symm, ?_⟩
        intro i
        by_cases hi : i = ⟨g.getD (n - (rem + 1)) 0 - chA, hcc.2⟩
        · subst hi
          rw [Function.update_same, e2, TotalsIn_node]
          exact ⟨⟨by omega, by omega⟩, hok2⟩
        · rw [Function.update_noteq hi]
          exact TotalsIn_mono B _ (by omega) _ (hch i)
    · simp at h

theorem ngramInsertAll_totalsIn (n : Nat) (gs : List (List Nat × Int))
    (gg : Option (List Nat)) (t : Int) (ch : Fin 26 → trieNode) (p : trieNode)
    (hpos : ∀ x ∈ gs, 0 ≤ x.2) (hok : TotalsIn t (trieNode.node gg t ch))
    (h : ngramInsertAll n (trieNode.node gg t ch) gs = some p) :
    TotalsIn (t + (gs.map Prod.snd).sum) p := by
  induction gs generalizing t ch with
  | nil =>
    simp only [ngramInsertAll, Option.some.injEq] at h
    subst h
    simpa using hok
  | cons x rest ih =>
    obtain ⟨g, c⟩ := x
    simp only [ngramInsertAll] at h
    split at h
    · simp at h
    · rename_i q hq
      have hc : 0 ≤ c := hpos (g, c) (List.mem_cons_self _ _)
      rw [TotalsIn_node] at hok
      unfold ngramInsert at hq
      cases hi : insertFrom n g c n (trieNode.node gg t ch) with
      | none => simp [hi] at hq
      | some q1 =>
        rw [hi] at hq
        simp only [Option.map_some', Option.some.injEq] at hq
        obtain ⟨ch1, e1, hok1⟩ := insertFrom_totalsIn n g c t hc hok.1.1 n gg t ch q1 hok.2 hi
        subst e1
        simp only [addTotal] at hq
        subst hq
        have := ih (t + c) ch1 (fun y hy => hpos y (List.mem_cons_of_mem _ hy))
          ((TotalsIn_node _ _ _ _).mpr ⟨⟨by omega, le_refl _⟩, hok1⟩) h
        simpa [add_assoc] using this

theorem TotalsIn_level (B : Int) (t : trieNode) (k : Nat) (h : TotalsIn B t) (node : trieNode)
    (hn : node ∈ trieTraverseLevel t k) : 0 ≤ totalOf node ∧ totalOf node ≤ B := by
  induction k generalizing t with
  | zero =>
    cases t with
    | null => simp [trieTraverseLevel] at hn
    | node g t ch =>
      simp only [trieTraverseLevel, List.mem_singleton] at hn
      subst hn
      rw [TotalsIn_node] at h
      simpa [totalOf] using h.1
  | succ k ih =>
    cases t with
    | null => simp [trieTraverseLevel] at hn
    | node g t ch =>
      simp only [trieTraverseLevel, List.mem_flatMap, List.mem_finRange, true_and] at hn
      obtain ⟨i, hi⟩ := hn
      rw [TotalsIn_node] at h
      exact ih (ch i) (h.2 i) hi

theorem NgramOk_level (n k : Nat) (path : List Nat) (t : trieNode) (hok : NgramOk n path t)
    (hk : path.length + k = n) (node : trieNode) (hn : node ∈ trieTraverseLevel t k) :
    ∃ g, ngramOf node = some g ∧ g.length = n := by
  induction k generalizing path t with
  | zero =>
    cases t with
    | null => simp [trieTraverseLevel] at hn
    | node g t ch =>
      simp only [trieTraverseLevel, List.mem_singleton] at hn
      subst hn
      rw [NgramOk_node] at hok
      have hl : path.length = n := by omega
      rw [if_pos hl] at hok
      exact ⟨path, by simp [ngramOf, hok.1], hl⟩
  | succ k ih =>
    cases t with
    | null => simp [trieTraverseLevel] at hn
    | node g t ch =>
      simp only [trieTraverseLevel, List.mem_flatMap, List.mem_finRange, true_and] at hn
      obtain ⟨i, hi⟩ := hn
      rw [NgramOk_node] at hok
      exact ih (path ++ [chA + i.val]) (ch i) (hok.2 i) (by simp; omega) hi

theorem turingLoop_length {α : Type} [LinearOrderedField α] (F : MathFns α)
    (rAt nAt : Nat → Int) (fuel i : Nat) (rStar : List α) :
    (turingLoop F rAt nAt fuel i rStar).length = rStar.length := by
  induction fuel generalizing i rStar with
  | zero => simp [turingLoop]
  | succ fuel ih =>
    simp only [turingLoop]
    split
    · rfl
    · split
      · rfl
      · rw [ih]; simp

theorem rStarFinal_length {α : Type} [LinearOrderedField α] (F : MathFns α) (r n : List Int)
    (oobR oobN : Nat → Int) : (rStarFinal F r n oobR oobN).length = r.length := by
  unfold rStarFinal
  rw [turingLoop_length]
  simp [sgtEstimates]

theorem probGoodTuring_some {α : Type} [LinearOrderedField α] (F : MathFns α) (r n : List Int)
    (oobR oobN : Nat → Int) (ngramTotal : Nat) (h : r.length ≠ 0) :
    ∃ q, probGoodTuring F r n oobR oobN ngramTotal = some q ∧ q.1.length = r.length := by
  unfold probGoodTuring
  rw [if_neg h]
  exact ⟨_, rfl, by simp [rStarFinal_length]⟩

/-- The table and the lines of `probGoodTuring` when the counts at level
`ngramLen` fit a `gint`: every search succeeds. -/
theorem probEmitProb_of_range {α : Type} [LinearOrderedField α] (F : MathFns α) (n : Nat)
    (t : trieNode) (oobR oobN : Nat → Int)
    (hr : ∀ node ∈ trieTraverseLevel t n, 0 ≤ totalOf node ∧ totalOf node < 2 ^ 31)
    (hg : ∀ node ∈ trieTraverseLevel t n, ∃ g, ngramOf node = some g ∧ g.length = n)
    (node : trieNode) (hn : node ∈ trieTraverseLevel t n) :
    ∃ (q : List α × α) (i : Nat) (g : List Nat) (x : α),
      probGoodTuring F (probGetCounts t n).r (probGetCounts t n).n oobR oobN
        (probGetCounts t n).ngramTotal = some q ∧
      bsearch (wrapInt32 (totalOf node)) (probGetCounts t n).r (probGetCounts t n).r.length
        = some i ∧
      i < (probGetCounts t n).r.length ∧ (probGetCounts t n).r.getD i 0 = totalOf node ∧
      q.1.get? i = some x ∧ ngramOf node = some g ∧
      probEmitProb n (probGetCounts t n).r q.1 node = some (g, x) := by
  have hw : ∀ nd ∈ trieTraverseLevel t n, wrapInt32 (totalOf nd) = totalOf nd := by
    intro nd hnd
    have := hr nd hnd
    exact wrapInt32_of_range _ (by omega) this.2
  obtain ⟨s1, s2, s3⟩ := probGetCounts_spec t n hw
  have hrange : ∀ x ∈ (probGetCounts t n).r, 0 ≤ x ∧ x < 2 ^ 31 := by
    intro x hx
    obtain ⟨nd, hnd, rfl⟩ := (s3 x).mp hx
    exact hr nd hnd
  have hmem : totalOf node ∈ (probGetCounts t n).r := (s3 _).mpr ⟨node, hn, rfl⟩
  obtain ⟨i, hi, hri, hb⟩ := bsearch_found (totalOf node) _ s1 hrange hmem
  obtain ⟨g, hgn, hgl⟩ := hg node hn
  have hne : (probGetCounts t n).r.length ≠ 0 := by omega
  obtain ⟨q, hq, hql⟩ := probGoodTuring_some F (probGetCounts t n).r (probGetCounts t n).n
    oobR oobN (probGetCounts t n).ngramTotal hne
  have hi2 : i < q.1.length := by rw [hql]; exact hi
  refine ⟨q, i, g, q.1[i], hq, ?_, hi, hri, ?_, hgn, ?_⟩
  · rw [hw node hn]; exact hb
  · rw [List.get?_eq_getElem?, List.getElem?_eq_getElem hi2]
  · unfold probEmitProb
    rw [hgn, hw node hn, hb]
    simp only [List.get?_eq_getElem?, List.getElem?_eq_getElem hi2, Option.map_some']
    rw [List.take_of_length_le (by omega)]

/-- C14 (as amended): for every trie built from the empty root by calls of
`ngramInsert` with n ≥ 1 and nonnegative counts whose sum is below 2^31, and
every node at level n, `probGoodTuring` has a table `p`, the search of
`probEmitProb` in `r` succeeds with an index `i < |R|` such that
`R[i] = node.total`, the line written holds the n-gram of the node and `p[i]`,
and every node at level n with the same total is written with the same
probability. -/
theorem probEmitProb_finds_count {α : Type} [LinearOrderedField α] (F : MathFns α) (n : Nat)
    (hn : 1 ≤ n) (gs : List (List Nat × Int)) (t : trieNode) (oobR oobN : Nat → Int)
    (h : ngramInsertAll n trieNodeNew gs = some t) (hpos : ∀ x ∈ gs, 0 ≤ x.2)
    (hsum : (gs.map Prod.snd).sum < 2 ^ 31) :
    ∀ node ∈ trieTraverseLevel t n, ∃ (q : List α × α) (i : Nat) (g : List Nat) (x : α),
      probGoodTuring F (probGetCounts t n).r (probGetCounts t n).n oobR oobN
        (probGetCounts t n).ngramTotal = some q ∧
      bsearch (wrapInt32 (totalOf node)) (probGetCounts t n).r (probGetCounts t n).r.length
        = some i ∧
      i < (probGetCounts t n).r.length ∧ (probGetCounts t n).r.getD i 0 = totalOf node ∧
      q.1.get? i = some x ∧ ngramOf node = some g ∧
      probEmitProb n (probGetCounts t n).r q.1 node = some (g, x) ∧
      ∀ node2 ∈ trieTraverseLevel t n, totalOf node2 = totalOf node →
        ∃ g2, probEmitProb n (probGetCounts t n).r q.1 node2 = some (g2, x) := by
  have hin : TotalsIn (0 + (gs.map Prod.snd).sum) t :=
    ngramInsertAll_totalsIn n gs none 0 (fun _ => trieNode.null) t hpos
      ((TotalsIn_node _ _ _ _).mpr ⟨⟨le_refl _, le_refl _⟩, fun _ => TotalsIn_null _⟩) h
  have hok := ngramInsertAll_ngramOk n gs trieNodeNew t (NgramOk_new n hn) h
  have hr : ∀ node ∈ trieTraverseLevel t n, 0 ≤ totalOf node ∧ totalOf node < 2 ^ 31 := by
    intro node hnode
    have := TotalsIn_level _ t n hin node hnode
    exact ⟨this.1, by omega⟩
  have hg : ∀ node ∈ trieTraverseLevel t n, ∃ g, ngramOf node = some g ∧ g.length = n :=
    fun node hnode => NgramOk_level n n [] t hok (by simp) node hnode
  intro node hnode
  obtain ⟨q, i, g, x, h1, h2, h3, h4, h5, h6, h7⟩ :=
    probEmitProb_of_range F n t oobR oobN hr hg node hnode
  refine ⟨q, i, g, x, h1, h2, h3, h4, h5, h6, h7, ?_⟩
  intro node2 hnode2 heq
  obtain ⟨q2, i2, g2, x2, k1, k2, _, _, k5, _, k7⟩ :=
    probEmitProb_of_range F n t oobR oobN hr hg node2 hnode2
  rw [h1] at k1
  have hq : q = q2 := Option.some.inj k1
  subst hq
  rw [heq, h2] at k2
  have hi : i = i2 := Option.some.inj k2
  subst hi
  rw [h5] at k5
  have hx : x = x2 := Option.some.inj k5
  subst hx
  exact ⟨g2, k7⟩

/-- C14, witness: the trie of the 2-grams `ab`, `ac`, `ab`, over the reals. -/
theorem probEmitProb_finds_count_witness :
    ∃ t, ngramInsertAll 2 trieNodeNew [([97, 98], 1), ([97, 99], 1), ([97, 98], 1)] = some t ∧
      ∀ node ∈ trieTraverseLevel t 2, ∃ (q : List ℝ × ℝ) (i : Nat) (g : List Nat) (x : ℝ),
        probGoodTuring (⟨Real.log, Real.exp, Real.sqrt⟩ : MathFns ℝ) (probGetCounts t 2).r
          (probGetCounts t 2).n (fun _ => 0) (fun _ => 0) (probGetCounts t 2).ngramTotal
            = some q ∧
        bsearch (wrapInt32 (totalOf node)) (probGetCounts t 2).r (probGetCounts t 2).r.length
          = some i ∧
        i < (probGetCounts t 2).r.length ∧ (probGetCounts t 2).r.getD i 0 = totalOf node ∧
        q.1.get? i = some x ∧ ngramOf node = some g ∧
        probEmitProb 2 (probGetCounts t 2).r q.1 node = some (g, x) ∧
        ∀ node2 ∈ trieTraverseLevel t 2, totalOf node2 = totalOf node →
          ∃ g2, probEmitProb 2 (probGetCounts t 2).r q.1 node2 = some (g2, x) :=
  (ngramInsertAll_total 2 [([97, 98], 1), ([97, 99], 1), ([97, 98], 1)] none 0
      (fun _ => trieNode.null) (by
        intro x hx i hi
        simp only [List.mem_cons, List.mem_singleton, List.not_mem_nil, or_false] at hx
        rcases hx with rfl | rfl | rfl <;> interval_cases i <;> decide)).elim
    (fun t ht => ⟨t, ht, probEmitProb_finds_count _ 2 (by decide) _ t _ _ ht
      (by
        intro x hx
        simp only [List.mem_cons, List.mem_singleton, List.not_mem_nil, or_false] at hx
        rcases hx with rfl | rfl | rfl <;> decide)
      (by decide)⟩)

/-- C14 (fails as stated): the 1-grams `a`, `b`, `c` inserted with the
counts 7, 4294967291 and 9. The entries of `r` are `gint`: the count of `b` is
stored as -5, behind the 7 (`r` = [7, -5, 9] is not sorted, and `r[1]` is not
the total of `b`), and the binary search for the count 7 of `a` returns
`NULL`. -/
theorem probEmitProb_search_fails_past_gint :
    ∃ t, ngramInsertAll 1 trieNodeNew [([97], 7), ([98], 4294967291), ([99], 9)] = some t ∧
      (probGetCounts t 1).r = [7, -5, 9] ∧
      (trieTraverseLevel t 1).map
        (fun node => (totalOf node, bsearch (wrapInt32 (totalOf node)) (probGetCounts t 1).r
          (probGetCounts t 1).r.length)) = [(7, none), (4294967291, some 1), (9, some 2)] :=
  ⟨_, rfl, by decide, by decide⟩

/-! ## The tokenizer and the extraction of the n-grams -/

theorem isspace_b : isspace 98 = false := by decide
theorem isspace_a : isspace 97 = false := by decide

theorem getline_line (w rest : List Nat) (hw : ∀ c ∈ w, c ≠ 10) :
    getline (w ++ 10 :: rest) = (some (w ++ [10]), rest, false) := by
  have h1 : (w ++ 10 :: rest).dropWhile (fun c => c != 10) = 10 :: rest := by
    rw [List.dropWhile_append_of_pos (by simpa using hw)]
    simp
  have h2 : (w ++ 10 :: rest).takeWhile (fun c => c != 10) = w := by
    rw [List.takeWhile_append_of_pos (by simpa using hw)]
    simp
  unfold getline
  cases hwr : w ++ 10 :: rest with
  | nil => simp at hwr
  | cons a l =>
    simp only []
    rw [← hwr, h1, h2]

theorem getline_last (w : List Nat) (hne : w ≠ []) (hw : ∀ c ∈ w, c ≠ 10) :
    getline w = (some w, [], true) := by
  have h1 : w.dropWhile (fun c => c != 10) = [] := by
    rw [List.dropWhile_eq_nil_iff]
    simpa using hw
  unfold getline
  cases hwr : w with
  | nil => exact absurd hwr hne
  | cons a l =>
    simp only []
    rw [← hwr, h1]

/-- The function `tokenNext` on a word of lowercase letters followed by
white space or by the end of the line. -/
theorem tokenNext_word (w rest : List Nat) (hne : w ≠ [])
    (hw : ∀ c ∈ w, 97 ≤ c ∧ c ≤ 122) (hrest : ∀ c ∈ rest.head?, isspace c = true) :
    tokenNext (w ++ rest) = (false, w, rest) := by
  have hsp : ∀ c ∈ w, isspace c = false := by
    intro c hc
    have := hw c hc
    unfold isspace
    simp
    omega
  have hal : ∀ c ∈ w, isalpha c = true := by
    intro c hc
    have := hw c hc
    unfold isalpha
    simp
    omega
  have hlow : ∀ c ∈ w, tolower c = c := by
    intro c hc
    have := hw c hc
    unfold tolower
    rw [if_neg (by omega)]
  have hnz : ∀ c ∈ w, c ≠ 0 := by
    intro c hc
    have := hw c hc
    omega
  obtain ⟨a, l, hal2⟩ : ∃ a l, w = a :: l := by
    cases w with
    | nil => exact absurd rfl hne
    | cons a l => exact ⟨a, l, rfl⟩
  have hd : (w ++ rest).dropWhile isspace = a :: (l ++ rest) := by
    rw [hal2, List.cons_append, List.dropWhile_cons_of_neg]
    rw [hsp a (by rw [hal2]; exact List.mem_cons_self _ _)]
    simp
  have hrest2 : rest.takeWhile (fun x => !isspace x) = [] ∧
      rest.dropWhile (fun x => !isspace x) = rest := by
    cases rest with
    | nil => simp
    | cons b r =>
      have := hrest b (by simp)
      simp [this]
  have ht : (w ++ rest).takeWhile (fun x => !isspace x) = w := by
    rw [List.takeWhile_append_of_pos (by simpa using hsp), hrest2.1]
    simp
  have hdr : (w ++ rest).dropWhile (fun x => !isspace x) = rest := by
    rw [List.dropWhile_append_of_pos (by simpa using hsp), hrest2.2]
  unfold tokenNext
  rw [hd]
  simp only []
  have e : a :: (l ++ rest) = w ++ rest := by rw [hal2]; rfl
  rw [e, ht, hdr]
  have h1 : w.any (fun x => !isalpha x) = false := by
    rw [List.any_eq_false]
    intro x hx
    simp [hal x hx]
  have h2 : w.map tolower = w := by
    conv_rhs => rw [← List.map_id w]
    exact List.map_congr_left (fun x hx => hlow x hx)
  have h3 : cstr w = w := by
    unfold cstr
    rw [List.takeWhile_eq_self_iff]
    intro x hx
    simpa using hnz x hx
  rw [h1, h2, h3]

/-- One iteration of the loop of `tokenGetBlock`: a line is read that starts
with a word of lowercase letters that fits the block. -/
theorem blockLoop_read_word (n len f : Nat) (block w rest more tok0 : List Nat) (tw : Bool)
    (h1 : w ≠ []) (hw : ∀ c ∈ w, 97 ≤ c ∧ c ≤ 122)
    (hrest : ∀ c ∈ rest, c ≠ 10) (hsp : ∀ c ∈ (rest ++ [10]).head?, isspace c = true)
    (hfit : w.length ≤ len - block.length) :
    blockLoop n len (f + 1) block ⟨w ++ rest ++ 10 :: more, false, [], tok0, tw⟩
      = blockLoop n len f (block ++ w) ⟨more, false, rest ++ [10], w, tw⟩ := by
  have hn1 : ∀ c ∈ w ++ rest, c ≠ 10 := by
    intro c hc
    rcases List.mem_append.mp hc with hc | hc
    · have := hw c hc; omega
    · exact hrest c hc
  simp only [blockLoop, Bool.false_eq_true, if_false, List.isEmpty_nil, Bool.true_and,
    getline_line (w ++ rest) more hn1, Option.isNone_some, if_true, Option.getD_some]
  rw [List.append_assoc, tokenNext_word w (rest ++ [10]) h1 hw hsp]
  simp only [Bool.false_eq_true, if_false, if_true, Nat.not_lt.mpr hfit]

/-- One iteration of the loop of `tokenGetBlock`: only the newline is left of
the line. -/
theorem blockLoop_newline (n len f : Nat) (block file tok0 : List Nat) (tw : Bool) :
    blockLoop n len (f + 1) block ⟨file, false, [10], tok0, tw⟩
      = blockLoop n len f block ⟨file, false, [], [], tw⟩ := by
  have hne : ([10] : List Nat).isEmpty = false := rfl
  have htn : tokenNext [10] = (true, [], []) := by decide
  simp only [blockLoop, Bool.false_eq_true, if_false, hne, Bool.false_and, htn, if_true,
    List.length_nil, Nat.zero_add, tokenProcess]

/-- One iteration of the loop of `tokenGetBlock`: the last line, which has
no newline, is read and starts with a word that does not fit the block. -/
theorem blockLoop_last_split (n len f : Nat) (block w rest tok0 : List Nat) (tw : Bool)
    (h1 : w ≠ []) (hw : ∀ c ∈ w, 97 ≤ c ∧ c ≤ 122)
    (hrest : ∀ c ∈ rest, c ≠ 10) (hsp : ∀ c ∈ rest.head?, isspace c = true)
    (hsplit : len - block.length < w.length) (hpre : n - 1 ≤ block.length) :
    blockLoop n len (f + 1) block ⟨w ++ rest, false, [], tok0, tw⟩
      = some (block, ⟨[], true, rest, block.drop (block.length - (n - 1)) ++ w, true⟩) := by
  have hn1 : ∀ c ∈ w ++ rest, c ≠ 10 := by
    intro c hc
    rcases List.mem_append.mp hc with hc | hc
    · have := hw c hc; omega
    · exact hrest c hc
  have hne : w ++ rest ≠ [] := by simp [h1]
  simp only [blockLoop, Bool.false_eq_true, if_false, List.isEmpty_nil, Bool.true_and,
    getline_last (w ++ rest) hne hn1, Option.isNone_some, if_true, Option.getD_some]
  rw [tokenNext_word w rest h1 hw hsp]
  simp only [Bool.false_eq_true, if_false, if_true, hsplit, hpre]

/-- One iteration of the loop of `tokenGetBlock`: the last line, which has
no newline, is read and starts with a word that fits the block; the loop then
ends, whatever is left of the line. -/
theorem blockLoop_last_fits (n len f : Nat) (block w rest tok0 : List Nat) (tw : Bool)
    (h1 : w ≠ []) (hw : ∀ c ∈ w, 97 ≤ c ∧ c ≤ 122)
    (hrest : ∀ c ∈ rest, c ≠ 10) (hsp : ∀ c ∈ rest.head?, isspace c = true)
    (hfit : w.length ≤ len - block.length) :
    blockLoop n len (f + 2) block ⟨w ++ rest, false, [], tok0, tw⟩
      = some (block ++ w, ⟨[], true, rest, w, tw⟩) := by
  have hn1 : ∀ c ∈ w ++ rest, c ≠ 10 := by
    intro c hc
    rcases List.mem_append.mp hc with hc | hc
    · have := hw c hc; omega
    · exact hrest c hc
  have hne : w ++ rest ≠ [] := by simp [h1]
  have step : blockLoop n len (f + 1 + 1) block ⟨w ++ rest, false, [], tok0, tw⟩
      = blockLoop n len (f + 1) (block ++ w) ⟨[], true, rest, w, tw⟩ := by
    generalize f + 1 = k
    simp only [blockLoop, Bool.false_eq_true, if_false, List.isEmpty_nil, Bool.true_and,
      getline_last (w ++ rest) hne hn1, Option.isNone_some, if_true, Option.getD_some]
    rw [tokenNext_word w rest h1 hw hsp]
    simp only [Bool.false_eq_true, if_false, if_true, Nat.not_lt.mpr hfit]
  rw [show f + 2 = f + 1 + 1 from rfl, step]
  simp only [blockLoop, if_true]

/-- Once the end of the file has been reached with `tokenWaiting` set, a call
of `tokenGetBlock` delivers the string in `tok` and leaves the state as it
is: `tokenWaiting` is not reset. -/
theorem tokenGetBlock_waiting_at_eof (n len : Nat) (s : Tokenizer) (hlen : MAXTOKENLEN < len)
    (heof : s.eof = true) (hw : s.tokenWaiting = true) (hfit : s.tok.length ≤ len) :
    tokenGetBlock n len s = some (s.tok, s) := by
  unfold tokenGetBlock
  rw [if_neg (by omega), if_pos hw, if_neg (by omega)]
  simp only [blockLoop, heof, if_true]

theorem tokenGetBlock_two_lines (len : Nat) (w1 w2 : List Nat) (hlen : MAXTOKENLEN < len)
    (h1 : w1 ≠ []) (h2 : w2 ≠ []) (hw1 : ∀ c ∈ w1, 97 ≤ c ∧ c ≤ 122)
    (hw2 : ∀ c ∈ w2, 97 ≤ c ∧ c ≤ 122) (hfit : w1.length ≤ len)
    (hsplit : len - w1.length < w2.length) :
    tokenGetBlock 2 len (tokenInit (w1 ++ 10 :: w2))
      = some (w1, ⟨[], true, [], w1.drop (w1.length - 1) ++ w2, true⟩) := by
  have hl1 : 1 ≤ w1.length := by
    cases w1 with
    | nil => exact absurd rfl h1
    | cons a l => simp
  unfold tokenGetBlock tokenInit
  rw [if_neg (by omega)]
  simp only [Bool.false_eq_true, if_false, List.length_nil, Nat.zero_add, List.length_append,
    List.length_cons]
  rw [show w1.length + (w2.length + 1) + 2 = (w1.length + w2.length) + 1 + 1 + 1 by omega]
  have e : w1 ++ 10 :: w2 = w1 ++ [] ++ 10 :: w2 := by simp
  rw [e, blockLoop_read_word 2 len _ [] w1 [] w2 [] false h1 hw1 (by simp) (by simp [isspace])
    (by simpa using hfit)]
  simp only [List.nil_append]
  rw [blockLoop_newline]
  have e2 : w2 = w2 ++ [] := by simp
  rw [e2, blockLoop_last_split 2 len _ w1 w2 [] [] false h2 hw2 (by simp) (by simp) hsplit
    (by simpa using hl1)]
  simp

theorem extractBlocks_never_ends (n len : Nat) (s : Tokenizer) (hlen : MAXTOKENLEN < len)
    (heof : s.eof = true) (hw : s.tokenWaiting = true) (hfit : s.tok.length ≤ len)
    (hne : 0 < s.tok.length) (fuel : Nat) (heap : Nat → Nat) (root : trieNode) :
    extractBlocks n len fuel heap s root = none := by
  induction fuel generalizing heap root with
  | zero => rfl
  | succ fuel ih =>
    simp only [extractBlocks, tokenGetBlock_waiting_at_eof n len s hlen heof hw hfit, hne,
      if_true]
    split
    · rfl
    · exact ih _ _

theorem extractBlocks_none_after (n len : Nat) (s s1 : Tokenizer) (block : List Nat)
    (hb : tokenGetBlock n len s = some (block, s1)) (hne : 0 < block.length)
    (hrest : ∀ (fuel : Nat) (heap : Nat → Nat) (root : trieNode),
      extractBlocks n len fuel heap s1 root = none)
    (fuel : Nat) (heap : Nat → Nat) (root : trieNode) :
    extractBlocks n len fuel heap s root = none := by
  cases fuel with
  | zero => rfl
  | succ fuel =>
    simp only [extractBlocks, hb, hne, if_true]
    split
    · rfl
    · exact hrest _ _ _

theorem waiting_token_general (len A B : Nat) (hlen : MAXTOKENLEN < len) (hA : 1 ≤ A)
    (hfit : A ≤ len) (hsplit : len - A < B) (hB : B + 1 ≤ len) :
    tokenGetBlock 2 len (tokenInit (List.replicate A 97 ++ 10 :: List.replicate B 98))
      = some (List.replicate A 97, ⟨[], true, [], 97 :: List.replicate B 98, true⟩) ∧
    tokenGetBlock 2 len ⟨[], true, [], 97 :: List.replicate B 98, true⟩
      = some (97 :: List.replicate B 98, ⟨[], true, [], 97 :: List.replicate B 98, true⟩) ∧
    ∀ (fuel : Nat) (heap : Nat → Nat) (root : trieNode),
      extractBlocks 2 len fuel heap
        (tokenInit (List.replicate A 97 ++ 10 :: List.replicate B 98)) root = none := by
  have hwA : ∀ c ∈ List.replicate A 97, 97 ≤ c ∧ c ≤ 122 := by
    intro c hc
    rw [List.eq_of_mem_replicate hc]
    decide
  have hwB : ∀ c ∈ List.replicate B 98, 97 ≤ c ∧ c ≤ 122 := by
    intro c hc
    rw [List.eq_of_mem_replicate hc]
    decide
  have hB1 : 1 ≤ B := by omega
  have hneA : List.replicate A 97 ≠ [] := by
    intro h
    have := congrArg List.length h
    simp at this
    omega
  have hneB : List.replicate B 98 ≠ [] := by
    intro h
    have := congrArg List.length h
    simp at this
    omega
  have first := tokenGetBlock_two_lines len (List.replicate A 97) (List.replicate B 98) hlen
    hneA hneB hwA hwB (by simpa using hfit) (by simpa using hsplit)
  have hd : (List.replicate A 97).drop ((List.replicate A 97).length - 1)
      ++ List.replicate B 98 = 97 :: List.replicate B 98 := by
    rw [List.length_replicate, List.drop_replicate]
    have : A - (A - 1) = 1 := by omega
    rw [this]
    rfl
  rw [hd] at first
  have hfit2 : (97 :: List.replicate B 98).length ≤ len := by simpa using hB
  refine ⟨first, ?_, ?_⟩
  · exact tokenGetBlock_waiting_at_eof 2 len ⟨[], true, [], 97 :: List.replicate B 98,
      true⟩ hlen rfl rfl hfit2
  · intro fuel heap root
    exact extractBlocks_none_after 2 len _ _ _ first (by simp; omega)
      (fun fuel1 heap1 root1 => extractBlocks_never_ends 2 len
        ⟨[], true, [], 97 :: List.replicate B 98, true⟩ hlen rfl rfl hfit2 (by simp) _ _ _)
      fuel heap root
/-- C13 (fails on the code): the corpus file of two lines, 65000 letters `a`
and 1000 letters `b`, the second without newline, with n = 2 and the block
size 65536 of `ngramExtract`. The first call of `tokenGetBlock` delivers the
first token; the second token does not fit, it is kept in `tok` behind the
last letter of the block and `tokenWaiting` is set, while the end of the file
has been reached. Every later call delivers this waiting token again and
leaves the state unchanged, so `ngramExtract` inserts its windows once more
for every call and never leaves its loop. -/
theorem waiting_token_delivered_again :
    tokenGetBlock 2 BLOCKSIZE
        (tokenInit (List.replicate 65000 97 ++ 10 :: List.replicate 1000 98))
      = some (List.replicate 65000 97, ⟨[], true, [], 97 :: List.replicate 1000 98, true⟩) ∧
    tokenGetBlock 2 BLOCKSIZE ⟨[], true, [], 97 :: List.replicate 1000 98, true⟩
      = some (97 :: List.replicate 1000 98,
          ⟨[], true, [], 97 :: List.replicate 1000 98, true⟩) ∧
    ∀ (fuel : Nat) (heap : Nat → Nat) (root : trieNode),
      ngramExtract 2 fuel heap
        (some (List.replicate 65000 97 ++ 10 :: List.replicate 1000 98)) root = none :=
  ⟨(waiting_token_general BLOCKSIZE 65000 1000 (by decide) (by decide) (by decide) (by decide)
      (by decide)).1,
    (waiting_token_general BLOCKSIZE 65000 1000 (by decide) (by decide) (by decide) (by decide)
      (by decide)).2.1,
    fun fuel heap root =>
      (waiting_token_general BLOCKSIZE 65000 1000 (by decide) (by decide) (by decide)
        (by decide) (by decide)).2.2 fuel heap root⟩

theorem insertFrom_node (n : Nat) (g : List Nat) (c : Int) (rem : Nat)
    (gg : Option (List Nat)) (t : Int) (ch : Fin 26 → trieNode) (q : trieNode)
    (h : insertFrom n g c rem (trieNode.node gg t ch) = some q) :
    ∃ ch1, q = trieNode.node gg t ch1 := by
  cases rem with
  | zero =>
    simp only [insertFrom, Option.some.injEq] at h
    exact ⟨ch, h.symm⟩
  | succ rem =>
    simp only [insertFrom] at h
    split at h
    · split at h
      · simp at h
      · simp only [Option.some.injEq] at h
        exact ⟨_, h.symm⟩
    · simp at h

theorem ngramInsert_node (n : Nat) (g : List Nat) (c : Int) (gg : Option (List Nat)) (t : Int)
    (ch : Fin 26 → trieNode) (hg : IsNgram n g) :
    ∃ ch1, ngramInsert n (trieNode.node gg t ch) g c = some (trieNode.node gg (t + c) ch1) := by
  obtain ⟨p, hp⟩ := insertFrom_total n g c n gg t ch hg (le_refl _)
  obtain ⟨ch1, e⟩ := insertFrom_node n g c n gg t ch p hp
  subst e
  exact ⟨ch1, by simp [ngramInsert, hp, addTotal]⟩

/-- The loop of `ngramExtract` on a block of `nchars ≥ n` lowercase letters:
one call of `ngramInsert` for each window start from `i` to `nchars - n`. -/
theorem extractLoop_starts (n nchars : Nat) (buf : Nat → Nat) (hn : n ≤ nchars)
    (hlt : nchars < 2 ^ 32)
    (hletters : ∀ j, j < nchars → chA ≤ buf j ∧ buf j - chA < 26) (fuel i : Nat)
    (gg : Option (List Nat)) (t : Int) (ch : Fin 26 → trieNode)
    (hi : i ≤ nchars - n + 1) (hf : nchars - n + 1 - i < fuel) :
    (extractLoop n buf nchars fuel i (trieNode.node gg t ch)).1
        = List.range' i (nchars - n + 1 - i) ∧
      ∃ ch1, (extractLoop n buf nchars fuel i (trieNode.node gg t ch)).2
        = some (trieNode.node gg (t + ((nchars - n + 1 - i : Nat) : Int)) ch1) := by
  have hb : (nchars + 2 ^ 32 - n) % 2 ^ 32 = nchars - n := by
    have : nchars + 2 ^ 32 - n = (nchars - n) + 2 ^ 32 := by omega
    rw [this, Nat.add_mod_right, Nat.mod_eq_of_lt (by omega)]
  induction fuel generalizing i t ch with
  | zero => omega
  | succ fuel ih =>
    simp only [extractLoop, hb]
    by_cases hg : i ≤ nchars - n
    · rw [if_pos hg]
      have hng : IsNgram n (memRead buf i n) := by
        intro j hj
        have : (memRead buf i n).getD j 0 = buf (i + j) := by
          simp [memRead, List.getD, hj]
        rw [this]
        exact hletters (i + j) (by omega)
      obtain ⟨ch1, e1⟩ := ngramInsert_node n (memRead buf i n) 1 gg t ch hng
      rw [e1]
      simp only []
      obtain ⟨k1, ch2, k2⟩ := ih (i + 1) (t + 1) ch1 (by omega) (by omega)
      rw [k1, k2]
      have hcnt : nchars - n + 1 - i = (nchars - n + 1 - (i + 1)) + 1 := by omega
      refine ⟨?_, ch2, ?_⟩
      · conv_rhs => rw [hcnt]
        rfl
      · congr 2
        rw [hcnt]
        push_cast
        have : nchars - n + 1 - (i + 1) + 1 - (i + 1) = nchars - n + 1 - (i + 1) - i := by omega
        omega
    · rw [if_neg hg]
      have : nchars - n + 1 - i = 0 := by omega
      rw [this]
      exact ⟨rfl, ch, by simp⟩

/-- C12 (fails on the code): the corpus file `ab` with n = 3. The tokenizer
delivers the block `ab` of `nchars` = 2 letters; `nchars - ngramLen` is
unsigned and wraps around to 2^32 - 1, so the loop of `ngramExtract` is
entered and calls `ngramInsert` on the window at 0, which lies partly behind
the block, whatever the buffer holds there. When the byte behind the block is
`c` and the next ones are 0, `abc` is inserted, and the call for the window at
1 fails the assertion of `trieGetChild`. The claim has no insertion for
`nchars < n`. -/
theorem short_block_is_inserted :
    (tokenGetBlock 3 BLOCKSIZE (tokenInit [97, 98])).map Prod.fst = some [97, 98] ∧
    (∀ (heap : Nat → Nat) (root : trieNode) (fuel : Nat),
      (extractLoop 3 (bufWrite [97, 98] heap) 2 (fuel + 1) 0 root).1.head? = some 0) ∧
    (extractLoop 3 (bufWrite [97, 98] (fun i => if i = 2 then 99 else 0)) 2 (2 ^ 31) 0
      trieNodeNew).1 = [0, 1] ∧
    (extractLoop 3 (bufWrite [97, 98] (fun i => if i = 2 then 99 else 0)) 2 (2 ^ 31) 0
      trieNodeNew).2.isNone = true := by
  refine ⟨by decide, ?_, by decide, by decide⟩
  intro heap root fuel
  simp only [extractLoop]
  rw [if_pos (Nat.zero_le _)]
  split <;> rfl

/-! ## The model builder -/

theorem sgtEstimates_single (oobR oobN : Nat → Int) :
    sgtEstimates (⟨Real.log, Real.exp, Real.sqrt⟩ : MathFns ℝ) ([2] : List Int)
      (gArrayIndex [2] oobR) (gArrayIndex [1] oobN) = [3] := by
  simp [sgtEstimates, probBestFit, smooth, List.range, List.range.loop]
  norm_num

/-- C16 (fails on the code): the corpus file `aaa` with n = 2 gives the
table R = [2], N = [1] with `ngramTotal` = 2. `Z[numCounts-1]` is computed
from `r[numCounts-2]`, the unsigned index 4294967295, and the switchover loop
reads `r[1]`; when the words behind the arrays hold `r[1]` = 3 and `n[1]` = 0,
the estimate becomes 0, `newTotal` is 0, and the mass of the observed n-grams
plus `pZero` = 1/2 is not 1. -/
theorem single_count_reads_outside_table :
    (∃ root, extractFiles 2 2 (fun _ => 0) [some [97, 97, 97, 10]] trieNodeNew = some root ∧
      (probGetCounts root 2).r = [2] ∧ (probGetCounts root 2).n = [1] ∧
      (probGetCounts root 2).ngramTotal = 2) ∧
    (∀ oobR oobN : Nat → Int,
      zTransform (gArrayIndex [2] oobR) (gArrayIndex [1] oobN) 1 0
        = (1 : ℝ) / (2 - (oobR 4294967295 : ℝ))) ∧
    rStarFinal (⟨Real.log, Real.exp, Real.sqrt⟩ : MathFns ℝ) [2] [1]
        (fun _ => 3) (fun _ => 0) = [0] ∧
    newTotal (⟨Real.log, Real.exp, Real.sqrt⟩ : MathFns ℝ) [2] [1]
        (fun _ => 3) (fun _ => 0) = 0 ∧
    ∃ p pZero,
      probGoodTuring (⟨Real.log, Real.exp, Real.sqrt⟩ : MathFns ℝ) [2] [1]
        (fun _ => 3) (fun _ => 0) 2 = some (p, pZero) ∧
      pZero = 1 / 2 ∧ seenMass p [1] + pZero ≠ 1 := by
  have hrs : rStarFinal (⟨Real.log, Real.exp, Real.sqrt⟩ : MathFns ℝ) [2] [1]
      (fun _ => 3) (fun _ => 0) = [0] := by
    unfold rStarFinal
    rw [sgtEstimates_single]
    simp [turingLoop, gArrayIndex, wrapInt32]
  have hnt : newTotal (⟨Real.log, Real.exp, Real.sqrt⟩ : MathFns ℝ) [2] [1]
      (fun _ => 3) (fun _ => 0) = 0 := by
    unfold newTotal
    rw [hrs]
    simp [gArrayIndex, List.range, List.range.loop]
  refine ⟨⟨_, rfl, by decide, by decide, by decide⟩, ?_, hrs, hnt, ?_⟩
  · intro oobR oobN
    simp [zTransform, gArrayIndex]
  · unfold probGoodTuring
    rw [if_neg (by decide)]
    refine ⟨_, _, rfl, ?_, ?_⟩
    · simp [pZeroOf, gArrayIndex]
    · rw [hrs, hnt]
      simp [seenMass, pZeroOf, gArrayIndex, List.range, List.range.loop]

/-! ## Vowel identification -/

theorem maxScan_spec (isV : Nat → Bool) (cs : Nat → Int) (l : List Nat) (acc : Int × Option Nat) :
    acc.1 ≤ (maxScan isV cs l acc).1 ∧
    (∀ i ∈ l, isV i = false → cs i ≤ (maxScan isV cs l acc).1) ∧
    (maxScan isV cs l acc = acc ∨
      ∃ i ∈ l, (maxScan isV cs l acc).2 = some i ∧ isV i = false ∧
        cs i = (maxScan isV cs l acc).1 ∧ acc.1 < (maxScan isV cs l acc).1) := by
  induction l generalizing acc with
  | nil => simp [maxScan]
  | cons a rest ih =>
    simp only [maxScan]
    by_cases h : isV a = false ∧ acc.1 < cs a
    · rw [if_pos h]
      obtain ⟨h1, h2, h3⟩ := ih (cs a, some a)
      simp only at h1
      refine ⟨by omega, ?_, Or.inr ?_⟩
      · intro i hi hv
        rcases List.mem_cons.mp hi with rfl | hi
        · exact h1
        · exact h2 i hi hv
      · rcases h3 with h3 | ⟨i, hi, e1, e2, e3, e4⟩
        · rw [h3]
          exact ⟨a, List.mem_cons_self _ _, rfl, h.1, rfl, h.2⟩
        · exact ⟨i, List.mem_cons_of_mem _ hi, e1, e2, e3, by simp only at e4; omega⟩
    · rw [if_neg h]
      obtain ⟨h1, h2, h3⟩ := ih acc
      refine ⟨h1, ?_, ?_⟩
      · intro i hi hv
        rcases List.mem_cons.mp hi with rfl | hi
        · by_contra hc
          exact h ⟨hv, by omega⟩
        · exact h2 i hi hv
      · rcases h3 with h3 | ⟨i, hi, e⟩
        · exact Or.inl h3
        · exact Or.inr ⟨i, List.mem_cons_of_mem _ hi, e⟩

theorem vowLoop_spec (cmat : Nat → Nat → Int) (fuel : Nat) (st : VowState)
    (hlen : st.vowels.length ≤ MAXVOWELS) (hnd : st.vowels.Nodup)
    (hiff : ∀ c, c < NUMSYMBOLS → (st.isVowel c = true ↔ chA + c ∈ st.vowels))
    (hfuel : MAXVOWELS + 1 ≤ st.vowels.length + fuel) :
    (vowLoop cmat fuel st).vowels.length ≤ MAXVOWELS ∧
    (vowLoop cmat fuel st).vowels.Nodup ∧
    (∀ c, c < NUMSYMBOLS →
      ((vowLoop cmat fuel st).isVowel c = true ↔ chA + c ∈ (vowLoop cmat fuel st).vowels)) ∧
    ((vowLoop cmat fuel st).vowels.length < MAXVOWELS →
      ∀ i, i < NUMSYMBOLS → (vowLoop cmat fuel st).isVowel i = false →
        (vowLoop cmat fuel st).csum i ≤ 0) := by
  induction fuel generalizing st with
  | zero => omega
  | succ fuel ih =>
    obtain ⟨s1, s2, s3⟩ := maxScan_spec st.isVowel st.csum (List.range NUMSYMBOLS) (0, none)
    simp only [vowLoop]
    cases hsc : maxScan st.isVowel st.csum (List.range NUMSYMBOLS) (0, none) with
    | mk maxSum oi =>
      rw [hsc] at s1 s2 s3
      simp only at s1 s2 s3
      cases oi with
      | none =>
        simp only
        refine ⟨hlen, hnd, hiff, ?_⟩
        intro _ i hi hv
        rcases s3 with h3 | ⟨j, _, e, _⟩
        · have : maxSum = 0 := by
            have := congrArg Prod.fst h3
            simpa using this
          have := s2 i (List.mem_range.mpr hi) hv
          omega
        · simp at e
      | some index =>
        simp only
        by_cases hc : 0 < maxSum ∧ st.vowels.length < MAXVOWELS
        · rw [if_pos hc]
          have hidx : index < NUMSYMBOLS ∧ st.isVowel index = false := by
            rcases s3 with h3 | ⟨j, hj, e, hv, _⟩
            · have := congrArg Prod.snd h3
              simp at this
            · simp only [Option.some.injEq] at e
              subst e
              exact ⟨List.mem_range.mp hj, hv⟩
          have hnew : chA + index ∉ st.vowels := by
            intro hm
            have := (hiff index hidx.1).mpr hm
            rw [hidx.2] at this
            exact Bool.false_ne_true this
          apply ih
          · simp only [List.length_append, List.length_singleton]
            omega
          · simp only
            exact List.Nodup.append hnd (List.nodup_singleton _)
              (by simpa using hnew)
          · intro c hcl
            simp only [List.mem_append, List.mem_singleton]
            by_cases e : c = index
            · subst e
              simp
            · rw [if_neg e, hiff c hcl]
              constructor
              · intro h
                exact Or.inl h
              · rintro (h | h)
                · exact h
                · exact absurd (by omega) e
          · simp only [List.length_append, List.length_singleton]
            omega
        · rw [if_neg hc]
          refine ⟨hlen, hnd, hiff, ?_⟩
          intro hl i hi hv
          have := s2 i (List.mem_range.mpr hi) hv
          have : ¬ (0 < maxSum) := fun h => hc ⟨h, hl⟩
          omega

/-- C19: for every ciphertext, after `vowIdentify` entered with
`numVowels` = 0, `numVowels` is at most 7, the entries `vowels[0..numVowels)`
are pairwise distinct, `isVowel[c]` holds iff the letter `c` is among them, and
if `numVowels < 7` no letter that is not a vowel has a positive sum. -/
theorem vowIdentify_invariants (encText : List Nat) :
    (vowIdentify encText []).vowels.length ≤ MAXVOWELS ∧
    (vowIdentify encText []).vowels.Nodup ∧
    (∀ c, c < NUMSYMBOLS →
      ((vowIdentify encText []).isVowel c = true ↔ chA + c ∈ (vowIdentify encText []).vowels)) ∧
    ((vowIdentify encText []).vowels.length < MAXVOWELS →
      ∀ i, i < NUMSYMBOLS → (vowIdentify encText []).isVowel i = false →
        (vowIdentify encText []).csum i ≤ 0) := by
  unfold vowIdentify
  apply vowLoop_spec
  · simp
  · simp
  · intro c _
    simp
  · simp

theorem rowSum_cmatInc (m : Nat → Nat → Int) (x y j : Nat) (hy : y < NUMSYMBOLS) :
    (∑ k in Finset.range NUMSYMBOLS, if j = k then 0 else cmatInc m x y j k)
      = (∑ k in Finset.range NUMSYMBOLS, if j = k then 0 else m j k)
        + (if j = x ∧ y ≠ j then 1 else 0) := by
  have e : ∀ k, (if j = k then (0 : Int) else cmatInc m x y j k)
      = (if j = k then 0 else m j k) + (if k = y then (if j = x ∧ y ≠ j then 1 else 0) else 0) := by
    intro k
    unfold cmatInc
    by_cases h1 : j = k
    · subst h1
      by_cases h2 : j = y
      · subst h2; simp
      · simp [h2]
    · by_cases h2 : k = y
      · subst h2
        by_cases h3 : j = x
        · subst h3
          simp [h1, Ne.symm h1]
        · simp [h1, h3]
      · simp [h1, h2]
  simp_rw [e]
  rw [Finset.sum_add_distrib, Finset.sum_ite_eq' (Finset.range NUMSYMBOLS) y]
  simp [hy]

theorem rowSum_cmatFill (enc : List Nat) (m : Nat → Nat → Int) (j : Nat)
    (henc : ∀ c ∈ enc, c - chA < NUMSYMBOLS) :
    (∑ k in Finset.range NUMSYMBOLS, if j = k then 0 else cmatFill enc m j k)
      = (∑ k in Finset.range NUMSYMBOLS, if j = k then 0 else m j k)
        + countAdj j (enc.map (fun c => c - chA)) := by
  induction enc generalizing m with
  | nil => simp [cmatFill, countAdj]
  | cons a rest ih =>
    cases rest with
    | nil => simp [cmatFill, countAdj]
    | cons b rest =>
      have ha : a - chA < NUMSYMBOLS := henc a (by simp)
      have hb : b - chA < NUMSYMBOLS := henc b (by simp)
      simp only [cmatFill, List.map_cons, countAdj]
      rw [ih _ (fun c hc => henc c (List.mem_cons_of_mem _ hc)),
        rowSum_cmatInc _ _ _ _ hb, rowSum_cmatInc _ _ _ _ ha]
      simp only [List.map_cons]
      ring

theorem csumOf_eq_countAdj (enc : List Nat) (j : Nat)
    (henc : ∀ c ∈ enc, c - chA < NUMSYMBOLS) :
    csumOf enc j = countAdj j (enc.map (fun c => c - chA)) := by
  unfold csumOf cmatOf
  rw [rowSum_cmatFill enc _ j henc]
  simp

theorem countAdj_map (f : Nat → Nat) (t : List Nat) (x : Nat)
    (hinj : ∀ y ∈ t, f y = f x → y = x) :
    countAdj (f x) (t.map f) = countAdj x t := by
  induction t with
  | nil => simp [countAdj]
  | cons a rest ih =>
    cases rest with
    | nil => simp [countAdj]
    | cons b rest =>
      have ha : f a = f x ↔ a = x := ⟨hinj a (by simp), fun h => by rw [h]⟩
      have hb : f b = f x ↔ b = x := ⟨hinj b (by simp), fun h => by rw [h]⟩
      have := ih (fun y hy => hinj y (List.mem_cons_of_mem _ hy))
      simp only [List.map_cons] at this
      simp only [List.map_cons, countAdj, this]
      have e1 : (f x = f b ∧ f a ≠ f x) ↔ (x = b ∧ a ≠ x) := by
        constructor
        · rintro ⟨h1, h2⟩
          exact ⟨(hb.mp h1.symm).symm, fun h => h2 (ha.mpr h)⟩
        · rintro ⟨h1, h2⟩
          exact ⟨by rw [h1], fun h => h2 (ha.mp h)⟩
      have e2 : (f x = f a ∧ f b ≠ f x) ↔ (x = a ∧ b ≠ x) := by
        constructor
        · rintro ⟨h1, h2⟩
          exact ⟨(ha.mp h1.symm).symm, fun h => h2 (hb.mpr h)⟩
        · rintro ⟨h1, h2⟩
          exact ⟨by rw [h1], fun h => h2 (hb.mp h)⟩
      simp only [e1, e2]

theorem countAdj_not_mem (j : Nat) (t : List Nat) (h : j ∉ t) : countAdj j t = 0 := by
  induction t with
  | nil => simp [countAdj]
  | cons a rest ih =>
    cases rest with
    | nil => simp [countAdj]
    | cons b rest =>
      have ha : j ≠ a := fun e => h (by simp [e])
      have hb : j ≠ b := fun e => h (by simp [e])
      have := ih (fun hm => h (List.mem_cons_of_mem _ hm))
      simp [countAdj, ha, hb, this]

theorem maxScan_strict (isV : Nat → Bool) (cs : Nat → Int) (j0 : Nat) (l : List Nat)
    (acc : Int × Option Nat) (hv : ∀ i ∈ l, isV i = false)
    (hmax : ∀ i ∈ l, i ≠ j0 → cs i < cs j0)
    (hacc : acc = (cs j0, some j0) ∨ (acc.1 < cs j0 ∧ j0 ∈ l)) :
    maxScan isV cs l acc = (cs j0, some j0) := by
  induction l generalizing acc with
  | nil =>
    rcases hacc with h | h
    · simpa [maxScan] using h
    · simp at h
  | cons a rest ih =>
    simp only [maxScan]
    have hva := hv a (List.mem_cons_self _ _)
    have hv2 : ∀ i ∈ rest, isV i = false := fun i hi => hv i (List.mem_cons_of_mem _ hi)
    have hmax2 : ∀ i ∈ rest, i ≠ j0 → cs i < cs j0 :=
      fun i hi => hmax i (List.mem_cons_of_mem _ hi)
    by_cases ha : a = j0
    · subst ha
      rcases hacc with h | h
      · rw [h, if_neg (by simp)]
        exact ih _ hv2 hmax2 (Or.inl rfl)
      · rw [if_pos ⟨hva, h.1⟩]
        exact ih _ hv2 hmax2 (Or.inl rfl)
    · have hlt := hmax a (List.mem_cons_self _ _) ha
      rcases hacc with h | h
      · rw [h, if_neg (by simp; omega)]
        exact ih _ hv2 hmax2 (Or.inl rfl)
      · have hj : j0 ∈ rest := by
          rcases List.mem_cons.mp h.2 with e | e
          · exact absurd e.symm ha
          · exact e
        by_cases hc : isV a = false ∧ acc.1 < cs a
        · rw [if_pos hc]
          exact ih _ hv2 hmax2 (Or.inr ⟨hlt, hj⟩)
        · rw [if_neg hc]
          exact ih _ hv2 hmax2 (Or.inr ⟨h.1, hj⟩)

theorem vowLoop_prefix (cmat : Nat → Nat → Int) (fuel : Nat) (st : VowState) :
    st.vowels <+: (vowLoop cmat fuel st).vowels := by
  induction fuel generalizing st with
  | zero => simp [vowLoop]
  | succ fuel ih =>
    simp only [vowLoop]
    split
    · split
      · refine List.IsPrefix.trans ?_ (ih _)
        exact List.prefix_append _ _
      · exact List.prefix_refl _
    · exact List.prefix_refl _

theorem vowLoop_step (cmat : Nat → Nat → Int) (fuel : Nat) (st : VowState) (maxSum : Int)
    (index : Nat)
    (hscan : maxScan st.isVowel st.csum (List.range NUMSYMBOLS) (0, none) = (maxSum, some index))
    (hc : 0 < maxSum ∧ st.vowels.length < MAXVOWELS) :
    vowLoop cmat (fuel + 1) st = vowLoop cmat fuel
      ⟨fun i => if i = index then true else st.isVowel i,
        fun i => if i < NUMSYMBOLS ∧ i ≠ index ∧ st.isVowel i = false
          then st.csum i - cmat i index * 2 else st.csum i,
        st.vowels ++ [chA + index]⟩ := by
  simp only [vowLoop, hscan]
  rw [if_pos hc]

/-- The first vowel found by `vowIdentify` when one letter has a positive
sum larger than the sum of every other letter. -/
theorem vowIdentify_head (encText : List Nat) (j0 : Nat) (hj : j0 < NUMSYMBOLS)
    (hpos : 0 < csumOf encText j0)
    (hmax : ∀ i, i < NUMSYMBOLS → i ≠ j0 → csumOf encText i < csumOf encText j0) :
    (vowIdentify encText []).vowels.head? = some (chA + j0) := by
  have hscan : maxScan (fun _ => false) (csumOf encText) (List.range NUMSYMBOLS) (0, none)
      = (csumOf encText j0, some j0) :=
    maxScan_strict _ _ j0 _ _ (fun _ _ => rfl)
      (fun i hi hne => hmax i (List.mem_range.mp hi) hne)
      (Or.inr ⟨hpos, List.mem_range.mpr hj⟩)
  unfold vowIdentify
  rw [vowLoop_step (cmatOf encText) MAXVOWELS ⟨fun _ => false, csumOf encText, []⟩ _ j0 hscan
    ⟨hpos, by simp [MAXVOWELS]⟩]
  obtain ⟨t, ht⟩ := vowLoop_prefix (cmatOf encText) MAXVOWELS
    ⟨fun i => if i = j0 then true else false,
      fun i => if i < NUMSYMBOLS ∧ i ≠ j0 ∧ false = false
        then csumOf encText i - cmatOf encText i j0 * 2 else csumOf encText i,
      [] ++ [chA + j0]⟩
  rw [← ht]
  simp

theorem IsKeyPerm.getD_letter (k : Key) (h : IsKeyPerm k) (i : Nat) (hi : i < NUMSYMBOLS) :
    chA ≤ k.getD i 0 ∧ k.getD i 0 - chA < NUMSYMBOLS := by
  have hl : k.length = NUMSYMBOLS := by
    have := h.length_eq
    simpa [alphabet] using this
  have hm : k.getD i 0 ∈ alphabet := by
    rw [List.getD_eq_getElem k 0 (by omega)]
    exact h.subset (List.getElem_mem _)
  unfold alphabet at hm
  rw [List.mem_range'_1] at hm
  omega

theorem IsKeyPerm.getD_inj (k : Key) (h : IsKeyPerm k) (i j : Nat) (hi : i < NUMSYMBOLS)
    (hj : j < NUMSYMBOLS) (e : k.getD i 0 = k.getD j 0) : i = j := by
  have hl : k.length = NUMSYMBOLS := by
    have := h.length_eq
    simpa [alphabet] using this
  have hnd : k.Nodup := h.nodup_iff.mpr (by unfold alphabet; exact List.nodup_range' _ _)
  have hi2 : i < k.length := by omega
  have hj2 : j < k.length := by omega
  rw [List.getD_eq_getElem k 0 hi2, List.getD_eq_getElem k 0 hj2] at e
  exact (List.Nodup.getElem_inj_iff hnd).mp e

set_option maxRecDepth 1000000 in
theorem panama500_letters : ∀ y ∈ panama500, chA ≤ y ∧ y - chA < NUMSYMBOLS := by decide

set_option maxRecDepth 1000000 in
theorem panama500_counts :
    countAdj 97 panama500 = 428 ∧ ∀ x ∈ panama500, x ≠ 97 → countAdj x panama500 < 428 := by
  decide

/-- C20: for every key that is a permutation of the alphabet, on the
ciphertext of `amanaplanacanalpanama` repeated and cut to 500 letters the
first entry of the vowel list of `vowIdentify` is the cipher letter of `a`,
which is therefore among the first three entries. -/
theorem panama_vowel_a_found (key : Key) (hkey : IsKeyPerm key) :
    (vowIdentify (encryptWith key panama500) []).vowels.head? = some (key.getD (97 - chA) 0) ∧
    key.getD (97 - chA) 0 ∈ (vowIdentify (encryptWith key panama500) []).vowels.take 3 := by
  have hf : ∀ y ∈ panama500, ∀ x ∈ panama500,
      key.getD (y - chA) 0 - chA = key.getD (x - chA) 0 - chA → y = x := by
    intro y hy x hx e
    have h1 := panama500_letters y hy
    have h2 := panama500_letters x hx
    have k1 := IsKeyPerm.getD_letter key hkey _ h1.2
    have k2 := IsKeyPerm.getD_letter key hkey _ h2.2
    have := IsKeyPerm.getD_inj key hkey _ _ h1.2 h2.2 (by omega)
    omega
  have hletters : ∀ c ∈ encryptWith key panama500, c - chA < NUMSYMBOLS := by
    intro c hc
    unfold encryptWith at hc
    obtain ⟨p, hp, rfl⟩ := List.mem_map.mp hc
    exact (IsKeyPerm.getD_letter key hkey _ (panama500_letters p hp).2).2
  have hmap : (encryptWith key panama500).map (fun c => c - chA)
      = panama500.map (fun p => key.getD (p - chA) 0 - chA) := by
    unfold encryptWith
    rw [List.map_map]
    rfl
  have ha : (97 : Nat) ∈ panama500 := by
    unfold panama500 panama
    decide
  have hk := IsKeyPerm.getD_letter key hkey (97 - chA) (by decide)
  have hcs : ∀ j, csumOf (encryptWith key panama500) j
      = countAdj j (panama500.map (fun p => key.getD (p - chA) 0 - chA)) := by
    intro j
    rw [csumOf_eq_countAdj _ _ hletters, hmap]
  have h0 : csumOf (encryptWith key panama500) (key.getD (97 - chA) 0 - chA) = 428 := by
    rw [hcs]
    have := countAdj_map (fun p => key.getD (p - chA) 0 - chA) panama500 97
      (fun y hy e => hf y hy 97 ha e)
    simp only at this
    rw [this]
    exact panama500_counts.1
  have hhead := vowIdentify_head (encryptWith key panama500) (key.getD (97 - chA) 0 - chA)
    hk.2 (by rw [h0]; decide) (by
      intro i _ hne
      rw [h0, hcs]
      by_cases hm : i ∈ panama500.map (fun p => key.getD (p - chA) 0 - chA)
      · obtain ⟨x, hx, rfl⟩ := List.mem_map.mp hm
        have := countAdj_map (fun p => key.getD (p - chA) 0 - chA) panama500 x
          (fun y hy e => hf y hy x hx e)
        simp only at this
        rw [this]
        apply panama500_counts.2 x hx
        intro e
        apply hne
        rw [e]
      · rw [countAdj_not_mem _ _ hm]
        decide)
  have e : chA + (key.getD (97 - chA) 0 - chA) = key.getD (97 - chA) 0 := by omega
  rw [e] at hhead
  refine ⟨hhead, ?_⟩
  cases hv : (vowIdentify (encryptWith key panama500) []).vowels with
  | nil => rw [hv] at hhead; simp at hhead
  | cons a rest =>
    rw [hv] at hhead
    simp only [List.head?_cons, Option.some.injEq] at hhead
    subst hhead
    simp

/-- C20, witness: the identity key. -/
theorem panama_vowel_a_found_witness :
    (vowIdentify (encryptWith alphabet panama500) []).vowels.head?
        = some (alphabet.getD (97 - chA) 0) ∧
    alphabet.getD (97 - chA) 0 ∈ (vowIdentify (encryptWith alphabet panama500) []).vowels.take 3 :=
  panama_vowel_a_found alphabet (List.Perm.refl _)

/-! ## The solver's `main` and the loading of the cryptogram -/

theorem getD_set_same (l : List Nat) (q v : Nat) (h : q < l.length) :
    (l.set q v).getD q 0 = v := by
  simp [List.getD, List.getElem?_set, h]

theorem getD_set_ne (l : List Nat) (q p v : Nat) (h : q ≠ p) :
    (l.set q v).getD p 0 = l.getD p 0 := by
  simp [List.getD, List.getElem?_set, h]

theorem encKey_foldl (bestKey : Key) (l : List Nat) (enc : List Nat)
    (hpos : ∀ i ∈ l, bestKey.getD i 0 - chA < enc.length)
    (hinj : l.Pairwise (fun i j => bestKey.getD i 0 - chA ≠ bestKey.getD j 0 - chA)) :
    (l.foldl (fun e i => e.set (bestKey.getD i 0 - chA) (chA + i)) enc).length = enc.length ∧
    (∀ i ∈ l, (l.foldl (fun e i => e.set (bestKey.getD i 0 - chA) (chA + i)) enc).getD
        (bestKey.getD i 0 - chA) 0 = chA + i) ∧
    (∀ p, (∀ i ∈ l, bestKey.getD i 0 - chA ≠ p) →
      (l.foldl (fun e i => e.set (bestKey.getD i 0 - chA) (chA + i)) enc).getD p 0
        = enc.getD p 0) := by
  induction l generalizing enc with
  | nil => simp
  | cons a rest ih =>
    rw [List.pairwise_cons] at hinj
    have hlen : (enc.set (bestKey.getD a 0 - chA) (chA + a)).length = enc.length := by simp
    obtain ⟨h1, h2, h3⟩ := ih (enc.set (bestKey.getD a 0 - chA) (chA + a))
      (fun i hi => by rw [hlen]; exact hpos i (List.mem_cons_of_mem _ hi)) hinj.2
    simp only [List.foldl_cons]
    refine ⟨by rw [h1, hlen], ?_, ?_⟩
    · intro i hi
      rcases List.mem_cons.mp hi with rfl | hi
      · rw [h3 _ (fun j hj => (hinj.1 j hj).symm)]
        exact getD_set_same _ _ _ (hpos i (List.mem_cons_self _ _))
      · exact h2 i hi
    · intro p hp
      rw [h3 p (fun i hi => hp i (List.mem_cons_of_mem _ hi))]
      exact getD_set_ne _ _ _ _ (hp a (List.mem_cons_self _ _))

/-- C21: for every decryption key `bestKey` that is a permutation of a..z,
the array `encKey` that `main` derives from it is the inverse permutation:
`encKey[bestKey[c]-'a'] = 'a'+c` for every cipher letter index `c`, and
`bestKey[encKey[p]-'a'] = 'a'+p` for every plaintext letter index `p`. -/
theorem encKey_is_inverse (bestKey : Key) (init : List Nat) (hkey : IsKeyPerm bestKey)
    (hinit : init.length = NUMSYMBOLS) :
    (∀ c, c < NUMSYMBOLS →
      (encKeyOf bestKey init).getD (bestKey.getD c 0 - chA) 0 = chA + c) ∧
    (∀ p, p < NUMSYMBOLS →
      bestKey.getD ((encKeyOf bestKey init).getD p 0 - chA) 0 = chA + p) := by
  have hfold := encKey_foldl bestKey (List.range NUMSYMBOLS) init
    (fun i hi => by
      rw [hinit]
      exact (IsKeyPerm.getD_letter bestKey hkey i (List.mem_range.mp hi)).2)
    (by
      apply (List.nodup_range NUMSYMBOLS).pairwise_of_forall_ne
      intro i hi j hj hne e
      have k1 := IsKeyPerm.getD_letter bestKey hkey i (List.mem_range.mp hi)
      have k2 := IsKeyPerm.getD_letter bestKey hkey j (List.mem_range.mp hj)
      exact hne (IsKeyPerm.getD_inj bestKey hkey i j (List.mem_range.mp hi)
        (List.mem_range.mp hj) (by omega)))
  have h1 : ∀ c, c < NUMSYMBOLS →
      (encKeyOf bestKey init).getD (bestKey.getD c 0 - chA) 0 = chA + c :=
    fun c hc => hfold.2.1 c (List.mem_range.mpr hc)
  refine ⟨h1, ?_⟩
  intro p hp
  have hlen : bestKey.length = NUMSYMBOLS := by
    have := hkey.length_eq
    simpa [alphabet] using this
  have hmem : chA + p ∈ bestKey := by
    apply hkey.symm.subset
    unfold alphabet
    rw [List.mem_range'_1]
    omega
  obtain ⟨i, hi, hip⟩ := List.mem_iff_getElem.mp hmem
  have hi2 : i < NUMSYMBOLS := by omega
  have hgi : bestKey.getD i 0 = chA + p := by
    rw [List.getD_eq_getElem bestKey 0 hi]; exact hip
  have := h1 i hi2
  rw [hgi] at this
  have e : chA + p - chA = p := by omega
  rw [e] at this
  rw [this]
  have e2 : chA + i - chA = i := by omega
  rw [e2, hgi]

/-- C21, witness: the identity key. -/
theorem encKey_is_inverse_witness :
    (∀ c, c < NUMSYMBOLS →
      (encKeyOf alphabet (List.replicate 26 0)).getD (alphabet.getD c 0 - chA) 0 = chA + c) ∧
    (∀ p, p < NUMSYMBOLS →
      alphabet.getD ((encKeyOf alphabet (List.replicate 26 0)).getD p 0 - chA) 0 = chA + p) :=
  encKey_is_inverse alphabet (List.replicate 26 0) (List.Perm.refl _) (by decide)

/-- C24 (fails on the code): with the default options and a cryptogram file
on the command line, when `scoreInit` returns `FALSE` and `cryptoLoad`
returns `TRUE`, `main` runs `cryptoSolve` and returns 0; when `cryptoLoad`
returns `FALSE`, `main` does not run `cryptoSolve` but returns 0 as well. -/
theorem main_ignores_failures :
    solverMain true ⟨3, 2, 5, 3, 2⟩ (InitResult.failed : InitResult ℝ) true = some (0, true) ∧
    solverMain true ⟨3, 2, 5, 3, 2⟩ (InitResult.failed : InitResult ℝ) false = some (0, false) ∧
    (∀ t : ScoreTables ℝ,
      solverMain true ⟨3, 2, 5, 3, 2⟩ (InitResult.loaded t) false = some (0, false)) := by
  refine ⟨by decide, by decide, ?_⟩
  intro t
  simp [solverMain, MAXNGRAMLEN]

theorem isalpha_index (b : Nat) (h : isalpha b = true) :
    chA ≤ tolower b ∧ tolower b - chA < NUMSYMBOLS := by
  unfold isalpha at h
  simp only [Bool.or_eq_true, Bool.and_eq_true, decide_eq_true_eq] at h
  unfold tolower chA NUMSYMBOLS
  split <;> omega

theorem loadFold_counts (heap : Nat → Nat) (bs : List Nat) (s : LoadState) :
    (bs.foldl (fun s b => loadStep heap s (some b)) s).textLen
      = s.textLen + (lettersOf bs).length ∧
    ∀ j, (bs.foldl (fun s b => loadStep heap s (some b)) s).freq j
      = s.freq j + ((lettersOf bs).countP (fun c => c - chA = j) : Nat) := by
  induction bs generalizing s with
  | nil => simp [lettersOf]
  | cons b rest ih =>
    simp only [List.foldl_cons]
    obtain ⟨h1, h2⟩ := ih (loadStep heap s (some b))
    rw [h1]
    by_cases hb : isalpha b = true
    · have e : lettersOf (b :: rest) = tolower b :: lettersOf rest := by
        simp [lettersOf, hb]
      refine ⟨by simp [loadStep, hb, e]; omega, ?_⟩
      intro j
      rw [h2 j, e, List.countP_cons]
      simp only [loadStep, hb, if_true]
      by_cases hj : j = tolower b - chA
      · subst hj
        simp
        ring
      · have hj2 : ¬ (tolower b - chA = j) := fun h => hj h.symm
        simp [hj, hj2]
    · have e : lettersOf (b :: rest) = lettersOf rest := by
        simp [lettersOf, hb]
      simp only [Bool.not_eq_true] at hb
      refine ⟨by simp [loadStep, hb, e], ?_⟩
      intro j
      rw [h2 j, e]
      simp [loadStep, hb]

theorem sum_countP_index (l : List Nat) (hl : ∀ c ∈ l, c - chA < NUMSYMBOLS) :
    (∑ j in Finset.range NUMSYMBOLS, ((l.countP (fun c => c - chA = j) : Nat) : Int))
      = (l.length : Int) := by
  induction l with
  | nil => simp
  | cons a rest ih =>
    have ha := hl a (List.mem_cons_self _ _)
    have e : ∀ j, ((List.countP (fun c => decide (c - chA = j)) (a :: rest) : Nat) : Int)
        = ((List.countP (fun c => decide (c - chA = j)) rest : Nat) : Int)
          + (if j = a - chA then 1 else 0) := by
      intro j
      rw [List.countP_cons]
      by_cases hj : a - chA = j
      · simp [hj]
      · have : ¬ (j = a - chA) := fun h => hj h.symm
        simp [hj, this]
    simp_rw [e]
    rw [Finset.sum_add_distrib, ih (fun c hc => hl c (List.mem_cons_of_mem _ hc)),
      Finset.sum_ite_eq' (Finset.range NUMSYMBOLS) (a - chA)]
    simp [ha]

theorem take_succ_set (l : List Nat) (n v : Nat) (h : n < l.length) :
    (l.set n v).take (n + 1) = l.take n ++ [v] := by
  induction l generalizing n with
  | nil => simp at h
  | cons a rest ih =>
    cases n with
    | zero => simp
    | succ m =>
      simp only [List.length_cons, Nat.add_lt_add_iff_right] at h
      simp [ih m h]

theorem loadStep_none (heap : Nat → Nat) (s : LoadState) :
    (loadStep heap s none).textLen = s.textLen ∧ (loadStep heap s none).freq = s.freq ∧
    (loadStep heap s none).encText
      = if s.encText.length < s.textLen then
          s.encText ++ (List.range MAXCIPHERLEN).map (fun d => heap (s.encText.length + d))
        else s.encText := ⟨rfl, rfl, rfl⟩

/-- The reading loop of `cryptoLoad` while the letters fit the first block. -/
theorem loadFold_text (heap : Nat → Nat) (bs : List Nat) (s : LoadState)
    (hlen : s.encText.length = MAXCIPHERLEN)
    (hfit : s.textLen + (lettersOf bs).length ≤ MAXCIPHERLEN) :
    (bs.foldl (fun s b => loadStep heap s (some b)) s).encText.length = MAXCIPHERLEN ∧
    (bs.foldl (fun s b => loadStep heap s (some b)) s).encText.take
        (s.textLen + (lettersOf bs).length)
      = s.encText.take s.textLen ++ lettersOf bs := by
  induction bs generalizing s with
  | nil => simp [lettersOf, hlen]
  | cons b rest ih =>
    simp only [List.foldl_cons]
    by_cases hb : isalpha b = true
    · have e : lettersOf (b :: rest) = tolower b :: lettersOf rest := by
        simp [lettersOf, hb]
      rw [e] at hfit ⊢
      simp only [List.length_cons] at hfit ⊢
      have hst : loadStep heap s (some b)
          = ⟨s.encText.set s.textLen (tolower b), s.textLen + 1,
              fun j => if j = tolower b - chA then s.freq j + 1 else s.freq j⟩ := by
        have hnl : ¬ (s.encText.length < s.textLen) := by omega
        simp only [loadStep, hb, if_true, if_neg hnl]
      rw [hst]
      obtain ⟨h1, h2⟩ := ih ⟨s.encText.set s.textLen (tolower b), s.textLen + 1,
        fun j => if j = tolower b - chA then s.freq j + 1 else s.freq j⟩ (by simp [hlen])
        (by simp only; omega)
      refine ⟨h1, ?_⟩
      simp only at h2
      rw [show s.textLen + ((lettersOf rest).length + 1)
        = s.textLen + 1 + (lettersOf rest).length by omega, h2]
      have hlt : s.textLen < s.encText.length := by omega
      rw [take_succ_set _ _ _ hlt]
      simp
    · have e : lettersOf (b :: rest) = lettersOf rest := by
        simp [lettersOf, hb]
      rw [e] at hfit ⊢
      simp only [Bool.not_eq_true] at hb
      have hst : loadStep heap s (some b) = ⟨s.encText, s.textLen, s.freq⟩ := by
        have hnl : ¬ (s.encText.length < s.textLen) := by omega
        simp [loadStep, hb, if_neg hnl]
      rw [hst]
      exact ih ⟨s.encText, s.textLen, s.freq⟩ hlen hfit

/-- The function `cryptoLoad` on every input: `textLen` and `freq`; and the
text loaded when the input has at most 512 letters. -/
theorem cryptoLoad_counts (bytes : List Nat) (heap : Nat → Nat) :
    (cryptoLoad bytes heap).textLen = (lettersOf bytes).length ∧
    (∀ j, j < NUMSYMBOLS →
      (cryptoLoad bytes heap).freq j = ((lettersOf bytes).count (chA + j) : Nat)) ∧
    (∑ j in Finset.range NUMSYMBOLS, (cryptoLoad bytes heap).freq j)
      = ((cryptoLoad bytes heap).textLen : Int) ∧
    ((lettersOf bytes).length ≤ MAXCIPHERLEN →
      (cryptoLoad bytes heap).encText.take (cryptoLoad bytes heap).textLen
        = lettersOf bytes) := by
  obtain ⟨h1, h2⟩ := loadFold_counts heap bytes ⟨(List.range MAXCIPHERLEN).map heap, 0, fun _ => 0⟩
  have hl : ∀ c ∈ lettersOf bytes, chA ≤ c ∧ c - chA < NUMSYMBOLS := by
    intro c hc
    unfold lettersOf at hc
    obtain ⟨b, hb, rfl⟩ := List.mem_map.mp hc
    exact isalpha_index b (List.mem_filter.mp hb).2
  have ht : (cryptoLoad bytes heap).textLen = (lettersOf bytes).length := by
    unfold cryptoLoad
    rw [(loadStep_none _ _).1, h1]
    simp
  have hf : ∀ j, (cryptoLoad bytes heap).freq j
      = ((lettersOf bytes).countP (fun c => c - chA = j) : Nat) := by
    intro j
    unfold cryptoLoad
    rw [(loadStep_none _ _).2.1, h2 j]
    simp
  refine ⟨ht, ?_, ?_, ?_⟩
  · intro j _
    rw [hf j, List.count, List.countP_congr]
    intro c hc
    have := (hl c hc).1
    simp only [decide_eq_true_eq, beq_iff_eq]
    omega
  · rw [ht]
    simp_rw [hf]
    exact sum_countP_index _ (fun c hc => (hl c hc).2)
  · intro hfit
    obtain ⟨k1, k2⟩ := loadFold_text heap bytes ⟨(List.range MAXCIPHERLEN).map heap, 0, fun _ => 0⟩
      (by simp) (by simpa using hfit)
    simp only [Nat.zero_add, List.take_zero, List.nil_append] at k2
    rw [ht]
    unfold cryptoLoad
    have hnl : ¬ ((bytes.foldl (fun s b => loadStep heap s (some b))
        ⟨(List.range MAXCIPHERLEN).map heap, 0, fun _ => 0⟩).encText.length
        < (bytes.foldl (fun s b => loadStep heap s (some b))
        ⟨(List.range MAXCIPHERLEN).map heap, 0, fun _ => 0⟩).textLen) := by
      rw [k1, h1]
      simp only [Nat.zero_add]
      omega
    rw [(loadStep_none _ _).2.2, if_neg hnl]
    exact k2

theorem lettersOf_replicate (k : Nat) : lettersOf (List.replicate k 97) = List.replicate k 97 := by
  induction k with
  | zero => rfl
  | succ k ih =>
    have : lettersOf (List.replicate (k + 1) 97) = 97 :: lettersOf (List.replicate k 97) := by
      rw [List.replicate_succ]
      simp only [lettersOf, List.filter_cons, show isalpha 97 = true from rfl, if_true,
        List.map_cons, show tolower 97 = 97 from rfl]
    rw [this, ih, List.replicate_succ]

theorem cryptoLoad_513 (heap : Nat → Nat) :
    (cryptoLoad (List.replicate MAXCIPHERLEN 97 ++ [97]) heap).encText.take (MAXCIPHERLEN + 1)
      = List.replicate MAXCIPHERLEN 97 ++ [heap MAXCIPHERLEN] := by
  obtain ⟨k1, k2⟩ := loadFold_text heap (List.replicate MAXCIPHERLEN 97)
    ⟨(List.range MAXCIPHERLEN).map heap, 0, fun _ => 0⟩ (by simp)
    (by rw [lettersOf_replicate]; simp)
  obtain ⟨c1, _⟩ := loadFold_counts heap (List.replicate MAXCIPHERLEN 97)
    ⟨(List.range MAXCIPHERLEN).map heap, 0, fun _ => 0⟩
  rw [lettersOf_replicate] at k2 c1
  simp only [Nat.zero_add, List.take_zero, List.nil_append, List.length_replicate] at k2 c1
  generalize hS : (List.replicate MAXCIPHERLEN 97).foldl (fun s b => loadStep heap s (some b))
    ⟨(List.range MAXCIPHERLEN).map heap, 0, fun _ => 0⟩ = S at k1 k2 c1
  have henc : S.encText = List.replicate MAXCIPHERLEN 97 := by
    rw [← k2, List.take_of_length_le (by omega)]
  unfold cryptoLoad
  rw [List.foldl_append, hS]
  simp only [List.foldl_cons, List.foldl_nil]
  have hnl : ¬ (S.encText.length < S.textLen) := by omega
  have hst : loadStep heap S (some 97) = ⟨S.encText, S.textLen + 1,
      fun j => if j = tolower 97 - chA then S.freq j + 1 else S.freq j⟩ := by
    simp only [loadStep, show isalpha 97 = true from rfl, if_true, if_neg hnl]
    rw [List.set_eq_of_length_le (by omega)]
  rw [hst, (loadStep_none _ _).2.2]
  simp only
  rw [if_pos (by omega), henc, List.length_replicate]
  rw [List.take_append_eq_append_take, List.take_of_length_le (by simp), List.length_replicate,
    show MAXCIPHERLEN + 1 - MAXCIPHERLEN = 1 by omega,
    show List.range MAXCIPHERLEN = List.range (511 + 1) from rfl, List.range_succ_eq_map]
  simp only [List.map_cons, List.take_succ_cons, List.take_zero, Nat.add_zero]

/-- C22 (fails on the code): a cryptogram of 513 letters `a`. The 513th
letter is written at `encText[512]`, behind the block of 512 bytes, which is
only grown in the following iteration, when `textLen > bufsize`; the block
that `g_realloc` returns holds at index 512 what the heap holds there (here
0), not the letter, while `textLen` is 513 and `freq[0]` is 513. -/
theorem cryptoLoad_writes_behind_block :
    (cryptoLoad (List.replicate MAXCIPHERLEN 97 ++ [97]) (fun _ => 0)).textLen = 513 ∧
    (cryptoLoad (List.replicate MAXCIPHERLEN 97 ++ [97]) (fun _ => 0)).freq 0 = 513 ∧
    (cryptoLoad (List.replicate MAXCIPHERLEN 97 ++ [97]) (fun _ => 0)).encText.take 513
      = List.replicate MAXCIPHERLEN 97 ++ [0] ∧
    lettersOf (List.replicate MAXCIPHERLEN 97 ++ [97]) = List.replicate MAXCIPHERLEN 97 ++ [97] := by
  have hl : lettersOf (List.replicate MAXCIPHERLEN 97 ++ [97])
      = List.replicate MAXCIPHERLEN 97 ++ [97] := by
    have := lettersOf_replicate (MAXCIPHERLEN + 1)
    rw [List.replicate_succ'] at this
    exact this
  obtain ⟨h1, h2, _, _⟩ := cryptoLoad_counts (List.replicate MAXCIPHERLEN 97 ++ [97]) (fun _ => 0)
  refine ⟨?_, ?_, cryptoLoad_513 (fun _ => 0), hl⟩
  · rw [h1, hl, List.length_append, List.length_replicate]
    rfl
  · rw [h2 0 (by decide), hl, List.count_append, show chA + 0 = 97 from rfl,
      List.count_replicate_self]
    rfl

/-! ## Post-processing of tokens -/

theorem punct_ispunct : ∀ p ∈ punct, ispunct p = true := by decide

theorem getLastD_concat (l : List Nat) (a d : Nat) : (l ++ [a]).getLastD d = a := by
  rw [List.getLastD_eq_getLast?, List.getLast?_append]
  simp

theorem reverse_dropWhile_of_last (l : List Nat) (hne : l ≠ [])
    (h : ispunct (l.getLastD 0) = false) : l.reverse.dropWhile ispunct = l.reverse := by
  obtain ⟨a, t, e⟩ : ∃ a t, l.reverse = a :: t := by
    cases hr : l.reverse with
    | nil => exact absurd (List.reverse_eq_nil_iff.mp hr) hne
    | cons a t => exact ⟨a, t, rfl⟩
  have hl : l = t.reverse ++ [a] := by
    have := congrArg List.reverse e
    simpa using this
  have ha : l.getLastD 0 = a := by
    rw [hl]
    exact getLastD_concat _ _ _
  rw [e, List.dropWhile_cons_of_neg]
  rw [← ha, h]
  simp

theorem cleanToken_of_ends (c : Nat) (rest : List Nat) (hc : ispunct c = false)
    (hl : ispunct ((c :: rest).getLastD 0) = false) :
    cleanToken (c :: rest) = (c :: rest).filter (fun x => !punct.contains x) := by
  unfold cleanToken
  rw [List.dropWhile_cons_of_neg (by simp [hc]),
    reverse_dropWhile_of_last (c :: rest) (by simp) hl, List.reverse_reverse]

theorem cleanToken_cons_punct (c : Nat) (rest : List Nat) (hc : ispunct c = true) :
    cleanToken (c :: rest) = cleanToken rest := by
  unfold cleanToken
  rw [List.dropWhile_cons_of_pos hc]

theorem cleanToken_dropLast (c : Nat) (rest : List Nat) (hc : ispunct c = false)
    (hl : ispunct ((c :: rest).getLastD 0) = true) :
    cleanToken (c :: rest) = cleanToken (c :: rest).dropLast := by
  have hrest : rest ≠ [] := by
    intro h
    subst h
    simp [List.getLastD] at hl
    rw [hc] at hl
    exact Bool.false_ne_true hl
  have hsplit : c :: rest = (c :: rest).dropLast ++ [(c :: rest).getLastD 0] := by
    have h1 := List.dropLast_append_getLast (l := c :: rest) (by simp)
    have h2 : (c :: rest).getLastD 0 = (c :: rest).getLast (by simp) := by
      conv_lhs => rw [← h1]
      exact getLastD_concat _ _ _
    rw [h2, h1]
  obtain ⟨b, t, hbt⟩ : ∃ b t, rest = b :: t := by
    cases rest with
    | nil => exact absurd rfl hrest
    | cons b t => exact ⟨b, t, rfl⟩
  have hd : (c :: rest).dropLast = c :: rest.dropLast := by
    rw [hbt]
    rfl
  unfold cleanToken
  rw [List.dropWhile_cons_of_neg (by simp [hc])]
  conv_lhs => rw [hsplit]
  rw [List.reverse_append, List.reverse_singleton, List.singleton_append,
    List.dropWhile_cons_of_pos hl, hd, List.dropWhile_cons_of_neg (by simp [hc])]

theorem getLastD_erase (l : List Nat) (p : Nat) (hp : l.getLastD 0 ≠ p) :
    (l.erase p).getLastD 0 = l.getLastD 0 := by
  induction l with
  | nil => simp
  | cons a rest ih =>
    cases rest with
    | nil =>
      have : a ≠ p := by simpa [List.getLastD] using hp
      simp [List.erase_cons, this]
    | cons b t =>
      have hl : (a :: b :: t).getLastD 0 = (b :: t).getLastD 0 := by simp [List.getLastD]
      rw [hl] at hp ⊢
      by_cases ha : a = p
      · subst ha
        simp [List.getLastD]
      · have e : (a :: b :: t).erase p = a :: (b :: t).erase p := by
          simp [List.erase_cons, ha]
        rw [e]
        have hne : (b :: t).erase p ≠ [] := by
          intro h
          have h1 := ih hp
          rw [h] at h1
          by_cases hb : b = p
          · subst hb
            simp only [List.erase_cons_head] at h
            subst h
            simp [List.getLastD] at hp
          · simp [List.erase_cons, hb] at h
        obtain ⟨x, y, hxy⟩ : ∃ x y, (b :: t).erase p = x :: y := by
          cases h : (b :: t).erase p with
          | nil => exact absurd h hne
          | cons x y => exact ⟨x, y, rfl⟩
        have := ih hp
        rw [hxy] at this ⊢
        rw [← this]
        simp [List.getLastD]

theorem filter_erase_punct (l : List Nat) (p : Nat) (hp : p ∈ punct) :
    (l.erase p).filter (fun x => !punct.contains x) = l.filter (fun x => !punct.contains x) := by
  induction l with
  | nil => simp
  | cons a rest ih =>
    by_cases ha : a = p
    · subst ha
      have : punct.contains a = true := by simpa using hp
      rw [List.erase_cons_head, List.filter_cons_of_neg (by simp [hp])]
    · have e : (a :: rest).erase p = a :: rest.erase p := by simp [List.erase_cons, ha]
      rw [e, List.filter_cons, List.filter_cons, ih]

theorem tokenProcess_spec (fuel : Nat) (s : List Nat) (hf : s.length < fuel)
    (hs : ∀ c ∈ s, isspace c = false) :
    tokenProcess fuel s
      = (!(cleanToken s).isEmpty && (cleanToken s).all isalpha, cleanToken s) := by
  induction fuel generalizing s with
  | zero => omega
  | succ fuel ih =>
    cases s with
    | nil => simp [tokenProcess, cleanToken]
    | cons c rest =>
      simp only [tokenProcess]
      have hsc : isspace c = false := hs c (List.mem_cons_self _ _)
      rw [hsc]
      simp only [Bool.false_and, Bool.false_eq_true, if_false]
      simp only [List.length_cons] at hf
      by_cases hc : ispunct c = true
      · rw [if_pos hc, cleanToken_cons_punct c rest hc]
        exact ih rest (by omega) (fun x hx => hs x (List.mem_cons_of_mem _ hx))
      · rw [if_neg hc]
        simp only [Bool.not_eq_true] at hc
        by_cases hl : ispunct ((c :: rest).getLastD 0) = true
        · rw [if_pos hl, cleanToken_dropLast c rest hc hl]
          apply ih
          · simp only [List.length_dropLast, List.length_cons]
            omega
          · intro x hx
            exact hs x (List.dropLast_subset _ hx)
        · rw [if_neg hl]
          simp only [Bool.not_eq_true] at hl
          cases hfind : punct.find? (fun p => (c :: rest).contains p) with
          | some p =>
            simp only
            have hp : p ∈ punct := List.mem_of_find?_eq_some hfind
            have hps : p ∈ c :: rest := by
              have := List.find?_some hfind
              simpa using this
            have hpp := punct_ispunct p hp
            have hcp : c ≠ p := by
              intro e
              rw [e, hpp] at hc
              exact Bool.noConfusion hc
            have hlp : (c :: rest).getLastD 0 ≠ p := by
              intro e
              rw [e, hpp] at hl
              exact Bool.noConfusion hl
            have e : (c :: rest).erase p = c :: rest.erase p := by
              simp [List.erase_cons, hcp]
            have hl2 : ispunct ((c :: rest.erase p).getLastD 0) = false := by
              rw [← e, getLastD_erase _ _ hlp]
              exact hl
            rw [ih ((c :: rest).erase p) (by
                rw [List.length_erase_of_mem hps]
                simp only [List.length_cons]
                omega)
              (fun x hx => hs x (List.erase_subset _ _ hx))]
            rw [e, cleanToken_of_ends c (rest.erase p) hc hl2, cleanToken_of_ends c rest hc hl,
              ← e, filter_erase_punct _ _ hp]
          | none =>
            simp only
            have hnone : ∀ x ∈ c :: rest, punct.contains x = false := by
              intro x hx
              by_contra hcon
              simp only [Bool.not_eq_false] at hcon
              have hxp : x ∈ punct := by simpa using hcon
              have := List.find?_eq_none.mp hfind x hxp
              apply this
              simpa using hx
            have hfil : (c :: rest).filter (fun x => !punct.contains x) = c :: rest := by
              rw [List.filter_eq_self]
              intro x hx
              have := hnone x hx
              simp only [this, Bool.not_false]
            rw [cleanToken_of_ends c rest hc hl, hfil]
            simp

/-- C23: on every token without white space, `tokenProcess` returns once
its recursion is given more levels than the token has bytes; it returns `TRUE`
iff the token that remains after deleting the leading and trailing
punctuation and every embedded character of the list `punct` is non-empty and
consists of letters only; the buffer then holds that remaining token, which is
a subsequence of the input that keeps every byte that is not punctuation. -/
theorem tokenProcess_cleans_token (fuel : Nat) (s : List Nat) (hf : s.length < fuel)
    (hs : ∀ c ∈ s, isspace c = false) :
    tokenProcess fuel s = tokenProcess (s.length + 1) s ∧
    ((tokenProcess fuel s).1 = true ↔
      (cleanToken s ≠ [] ∧ ∀ c ∈ cleanToken s, isalpha c = true)) ∧
    (tokenProcess fuel s).2 = cleanToken s ∧
    (cleanToken s).Sublist s ∧
    (s.filter (fun c => !ispunct c)).Sublist (cleanToken s) := by
  rw [tokenProcess_spec fuel s hf hs, tokenProcess_spec (s.length + 1) s (by omega) hs]
  refine ⟨rfl, ?_, rfl, ?_, ?_⟩
  · simp only [Bool.and_eq_true, Bool.not_eq_true', List.all_eq_true]
    constructor
    · rintro ⟨h1, h2⟩
      refine ⟨?_, h2⟩
      intro h
      rw [h] at h1
      simp at h1
    · rintro ⟨h1, h2⟩
      refine ⟨?_, h2⟩
      cases hct : cleanToken s with
      | nil => exact absurd hct h1
      | cons a t => rfl
  · unfold cleanToken
    refine (List.filter_sublist _).trans ?_
    have h1 : ((s.dropWhile ispunct).reverse.dropWhile ispunct).reverse.Sublist
        (s.dropWhile ispunct) := by
      have := (List.dropWhile_sublist ispunct (l := (s.dropWhile ispunct).reverse)).reverse
      simpa using this
    exact h1.trans (List.dropWhile_sublist ispunct)
  · unfold cleanToken
    have key : ∀ l : List Nat, (l.filter (fun c => !ispunct c)).Sublist
        ((l.dropWhile ispunct).filter (fun c => !ispunct c)) := by
      intro l
      induction l with
      | nil => simp
      | cons a t ih =>
        by_cases ha : ispunct a = true
        · rw [List.dropWhile_cons_of_pos ha, List.filter_cons_of_neg (by simp [ha])]
          exact ih
        · rw [List.dropWhile_cons_of_neg ha]
    have h1 := key s
    have h2 := (key (s.dropWhile ispunct).reverse).reverse
    rw [← List.filter_reverse, ← List.filter_reverse, List.reverse_reverse] at h2
    have h3 : (((s.dropWhile ispunct).reverse.dropWhile ispunct).reverse.filter
        (fun c => !ispunct c)).Sublist
        (((s.dropWhile ispunct).reverse.dropWhile ispunct).reverse.filter
          (fun c => !punct.contains c)) := by
      apply List.monotone_filter_right
      intro c hc
      by_contra hcon
      simp only [Bool.not_eq_true, Bool.not_eq_false'] at hcon
      have := punct_ispunct c (by simpa using hcon)
      rw [this] at hc
      simp at hc
    exact (h1.trans h2).trans h3

/-- C23, witness: the token `don't,`. -/
theorem tokenProcess_cleans_token_witness :
    tokenProcess 8 [100, 111, 110, 39, 116, 44]
      = tokenProcess (([100, 111, 110, 39, 116, 44] : List Nat).length + 1)
          [100, 111, 110, 39, 116, 44] ∧
    ((tokenProcess 8 [100, 111, 110, 39, 116, 44]).1 = true ↔
      (cleanToken [100, 111, 110, 39, 116, 44] ≠ [] ∧
        ∀ c ∈ cleanToken [100, 111, 110, 39, 116, 44], isalpha c = true)) ∧
    (tokenProcess 8 [100, 111, 110, 39, 116, 44]).2 = cleanToken [100, 111, 110, 39, 116, 44] ∧
    (cleanToken [100, 111, 110, 39, 116, 44]).Sublist [100, 111, 110, 39, 116, 44] ∧
    (([100, 111, 110, 39, 116, 44] : List Nat).filter (fun c => !ispunct c)).Sublist
      (cleanToken [100, 111, 110, 39, 116, 44]) :=
  tokenProcess_cleans_token 8 [100, 111, 110, 39, 116, 44] (by decide) (by decide)

/-! ## The unseen mass, the averaging transform and the switchover -/

/-- C25 (fails on the code): the corpus file `abababab` with n = 2. The
2-gram `ab` occurs 4 times and `ba` 3 times, so R = [3, 4], N = [1, 1] and
`ngramTotal` = 7, the total of the root; no n-gram occurs once (R[0] = 3), and
`pZero` is N[0] / T = 1/7, not 0. -/
theorem pZero_without_singletons :
    (∃ root, extractFiles 2 2 (fun _ => 0) [some [97, 98, 97, 98, 97, 98, 97, 98, 10]]
        trieNodeNew = some root ∧
      (probGetCounts root 2).r = [3, 4] ∧ (probGetCounts root 2).n = [1, 1] ∧
      (probGetCounts root 2).ngramTotal = 7 ∧ totalOf root = 7) ∧
    ∀ oobR oobN : Nat → Int, ∃ p pZero,
      probGoodTuring (⟨Real.log, Real.exp, Real.sqrt⟩ : MathFns ℝ) [3, 4] [1, 1] oobR oobN 7
        = some (p, pZero) ∧ pZero = 1 / 7 ∧ pZero ≠ 0 := by
  refine ⟨⟨_, rfl, by decide, by decide, by decide, by decide⟩, ?_⟩
  intro oobR oobN
  unfold probGoodTuring
  rw [if_neg (by decide)]
  refine ⟨_, _, rfl, ?_, ?_⟩
  · simp [pZeroOf, gArrayIndex]
  · simp [pZeroOf, gArrayIndex]

theorem two_mul_div_eq {α : Type} [LinearOrderedField α] (a b : α) :
    2 * a / b = a / (1 / 2 * b) := by
  rcases eq_or_ne b 0 with rfl | hb
  · simp
  · field_simp
    ring

/-- C26 (as amended): for every table with 2 ≤ |R| < 2^32 and every index
`i`, the averaging transform is `Z[i] = N[i] / (0.5 * (t - q))` with
`q = R[i-1]` (0 when `i` = 0) and `t = R[i+1]` when `i` is not the last index,
and `Z[last] = N[last] / (R[last] - R[last-1])` for the last index. -/
theorem zTransform_formula {α : Type} [LinearOrderedField α] (r n : List Int)
    (oobR oobN : Nat → Int) (h2 : 2 ≤ r.length) (h32 : r.length < 2 ^ 32)
    (hn : n.length = r.length) (i : Nat) (hi : i < r.length) :
    (zTransform (gArrayIndex r oobR) (gArrayIndex n oobN) r.length i : α)
      = if i + 1 = r.length then
          (n.getD i 0 : α) / ((r.getD i 0 : α) - (r.getD (i - 1) 0 : α))
        else
          (n.getD i 0 : α) /
            ((1 / 2) * ((r.getD (i + 1) 0 : α) - (if i = 0 then 0 else (r.getD (i - 1) 0 : α)))) := by
  have hmod : (r.length + 2 ^ 32 - 2) % 2 ^ 32 = r.length - 2 := by
    have : r.length + 2 ^ 32 - 2 = (r.length - 2) + 2 ^ 32 := by omega
    rw [this, Nat.add_mod_right, Nat.mod_eq_of_lt (by omega)]
  unfold zTransform
  by_cases hlast : i + 1 = r.length
  · rw [if_pos hlast, if_pos hlast, hmod]
    have e1 : r.length - 1 = i := by omega
    have e2 : r.length - 2 = i - 1 := by omega
    rw [e1, e2, gArrayIndex_lt n oobN i (by omega), gArrayIndex_lt r oobR i hi,
      gArrayIndex_lt r oobR (i - 1) (by omega)]
  · rw [if_neg hlast, if_neg hlast]
    by_cases h0 : i = 0
    · subst h0
      rw [if_pos rfl, if_pos rfl, gArrayIndex_lt n oobN 0 (by omega),
        gArrayIndex_lt r oobR 1 (by omega)]
      rw [two_mul_div_eq]
    · rw [if_neg h0, if_neg h0, gArrayIndex_lt n oobN i (by omega),
        gArrayIndex_lt r oobR (i + 1) (by omega), gArrayIndex_lt r oobR (i - 1) (by omega)]
      rw [two_mul_div_eq]

/-- C26, witness: the table R = [1, 2, 4], N = [3, 5, 1] at index 1. -/
theorem zTransform_formula_witness :
    (zTransform (gArrayIndex [1, 2, 4] (fun _ => 0)) (gArrayIndex [3, 5, 1] (fun _ => 0))
        ([1, 2, 4] : List Int).length 1 : ℝ)
      = if 1 + 1 = ([1, 2, 4] : List Int).length then
          ((([3, 5, 1] : List Int).getD 1 0 : Int) : ℝ) /
            (((([1, 2, 4] : List Int).getD 1 0 : Int) : ℝ)
              - ((([1, 2, 4] : List Int).getD (1 - 1) 0 : Int) : ℝ))
        else
          ((([3, 5, 1] : List Int).getD 1 0 : Int) : ℝ) /
            ((1 / 2) * (((([1, 2, 4] : List Int).getD (1 + 1) 0 : Int) : ℝ)
              - (if 1 = 0 then 0 else ((([1, 2, 4] : List Int).getD (1 - 1) 0 : Int) : ℝ)))) :=
  zTransform_formula [1, 2, 4] [3, 5, 1] (fun _ => 0) (fun _ => 0) (by decide) (by decide)
    (by decide) 1 (by decide)

/-- C26 (fails as stated): for the table R = [1, 2], N = [3, 5] the value
computed for the last index is `Z[1] = N[1] / (R[1] - R[0])` = 5, not
`N[1] / (0.5 * (R[1] - R[0]))` = 10. -/
theorem zTransform_last_has_no_half :
    (zTransform (gArrayIndex [1, 2] (fun _ => 0)) (gArrayIndex [3, 5] (fun _ => 0)) 2 1 : ℝ) = 5 ∧
    (zTransform (gArrayIndex [1, 2] (fun _ => 0)) (gArrayIndex [3, 5] (fun _ => 0)) 2 1 : ℝ)
      ≠ 5 / ((1 / 2) * (2 - 1)) := by
  have h : (zTransform (gArrayIndex [1, 2] (fun _ => 0)) (gArrayIndex [3, 5] (fun _ => 0)) 2 1 : ℝ)
      = 5 := by
    simp [zTransform, gArrayIndex]
    norm_num
  rw [h]
  norm_num

/-- C27 (fails on the code): for the table R = [2, 3], N = [100, 100] the
switchover loop passes index 0 and goes on to the last index, where it reads
`r[2]` and `n[2]` behind the arrays; with the words 4 and -75 there the final
estimate at index 1 is -3, which is not the smoothed estimate of that index,
and no Turing estimate of the table either, as N has no entry behind
index 1. -/
theorem switchover_passes_last_index :
    ∃ e1 : ℝ, 0 < e1 ∧
      sgtEstimates (⟨Real.log, Real.exp, Real.sqrt⟩ : MathFns ℝ) ([2, 3] : List Int)
        (gArrayIndex ([2, 3] : List Int) (fun _ => 4))
        (gArrayIndex ([100, 100] : List Int) (fun _ => -75)) = [9 / 2, e1] ∧
      rStarFinal (⟨Real.log, Real.exp, Real.sqrt⟩ : MathFns ℝ) [2, 3] [100, 100]
        (fun _ => 4) (fun _ => -75) = [3, -3] ∧
      (rStarFinal (⟨Real.log, Real.exp, Real.sqrt⟩ : MathFns ℝ) [2, 3] [100, 100]
        (fun _ => 4) (fun _ => -75)).getD 1 0 ≠ e1 := by
  obtain ⟨e1, he1, hest⟩ := sgtEstimates_two_three
  have hrs : rStarFinal (⟨Real.log, Real.exp, Real.sqrt⟩ : MathFns ℝ) [2, 3] [100, 100]
      (fun _ => 4) (fun _ => -75) = [3, -3] := by
    unfold rStarFinal
    rw [hest]
    exact turingLoop_two_three e1 he1
  refine ⟨e1, he1, hest, hrs, ?_⟩
  rw [hrs]
  simp
  linarith

/-! ## Rank selection -/

theorem cmatFill_eq (enc : List Nat) (m : Nat → Nat → Int) (x y : Nat) (hxy : x ≠ y) :
    cmatFill enc m x y = m x y +
      ((((enc.map (fun c => c - chA)).zip (enc.map (fun c => c - chA)).tail).filter
        (fun q => decide ((q.1 = x ∧ q.2 = y) ∨ (q.1 = y ∧ q.2 = x)))).length : Int) := by
  induction enc generalizing m with
  | nil => simp [cmatFill]
  | cons a rest ih =>
    cases rest with
    | nil => simp [cmatFill]
    | cons b rest =>
      simp only [cmatFill]
      rw [ih]
      simp only [List.map_cons, List.tail_cons, List.zip_cons_cons, List.filter_cons, cmatInc]
      by_cases h1 : a - chA = x ∧ b - chA = y
      · obtain ⟨rfl, rfl⟩ := h1
        have h2 : ¬ (a - chA = b - chA ∧ b - chA = a - chA) := fun h => hxy h.1
        simp [h2, hxy, Ne.symm hxy]
        ring
      · by_cases h2 : a - chA = y ∧ b - chA = x
        · obtain ⟨rfl, rfl⟩ := h2
          simp [h1, hxy, Ne.symm hxy]
          ring
        · have h3 : ¬ (x = b - chA ∧ y = a - chA) := by
            rintro ⟨e1, e2⟩
            exact h2 ⟨e2.symm, e1.symm⟩
          have h4 : ¬ (x = a - chA ∧ y = b - chA) := by
            rintro ⟨e1, e2⟩
            exact h1 ⟨e1.symm, e2.symm⟩
          simp [h1, h2, h3, h4]

theorem cmatOf_eq_sukhotinA (enc : List Nat) (x y : Nat) :
    cmatOf enc x y = sukhotinA (enc.map (fun c => c - chA)) x y := by
  unfold cmatOf sukhotinA
  by_cases h : x = y
  · simp [h]
  · rw [if_neg h, if_neg h, cmatFill_eq enc _ x y h]
    simp

theorem csumOf_eq_sukhotinS (enc : List Nat) :
    csumOf enc = sukhotinS (enc.map (fun c => c - chA)) := by
  funext j
  unfold csumOf sukhotinS
  apply Finset.sum_congr rfl
  intro k _
  exact cmatOf_eq_sukhotinA enc j k

theorem maxScan_first (isV : Nat → Bool) (cs : Nat → Int) (l : List Nat)
    (acc : Int × Option Nat) :
    (maxScan isV cs l acc = acc ∧ ∀ j ∈ l, isV j = false → cs j ≤ acc.1) ∨
    ∃ l1 i l2, l = l1 ++ i :: l2 ∧ maxScan isV cs l acc = (cs i, some i) ∧ isV i = false ∧
      acc.1 < cs i ∧ (∀ j ∈ l1, isV j = false → cs j < cs i) ∧
      ∀ j ∈ l2, isV j = false → cs j ≤ cs i := by
  induction l generalizing acc with
  | nil => exact Or.inl ⟨rfl, by simp⟩
  | cons a rest ih =>
    simp only [maxScan]
    by_cases h : isV a = false ∧ acc.1 < cs a
    · rw [if_pos h]
      rcases ih (cs a, some a) with ⟨h1, h2⟩ | ⟨l1, i, l2, e, h1, h2, h3, h4, h5⟩
      · exact Or.inr ⟨[], a, rest, rfl, h1, h.1, h.2, by simp, h2⟩
      · refine Or.inr ⟨a :: l1, i, l2, by rw [e]; rfl, h1, h2, ?_, ?_, h5⟩
        · simp only at h3
          omega
        · intro j hj hv
          rcases List.mem_cons.mp hj with rfl | hj
          · exact h3
          · exact h4 j hj hv
    · rw [if_neg h]
      have ha : isV a = false → cs a ≤ acc.1 := by
        intro hv
        by_contra hc
        exact h ⟨hv, by omega⟩
      rcases ih acc with ⟨h1, h2⟩ | ⟨l1, i, l2, e, h1, h2, h3, h4, h5⟩
      · refine Or.inl ⟨h1, ?_⟩
        intro j hj hv
        rcases List.mem_cons.mp hj with rfl | hj
        · exact ha hv
        · exact h2 j hj hv
      · refine Or.inr ⟨a :: l1, i, l2, by rw [e]; rfl, h1, h2, h3, ?_, h5⟩
        intro j hj hv
        rcases List.mem_cons.mp hj with rfl | hj
        · have := ha hv
          omega
        · exact h4 j hj hv

theorem sukhotinSelect_of_scan (isV : Nat → Bool) (cs : Nat → Int) :
    (maxScan isV cs (List.range 26) (0, none) = (0, none) ∧
      ∀ v, sukhotinSelect isV cs = some v → cs v ≤ 0) ∨
    ∃ v, maxScan isV cs (List.range 26) (0, none) = (cs v, some v) ∧ 0 < cs v ∧
      sukhotinSelect isV cs = some v := by
  rcases maxScan_first isV cs (List.range 26) (0, none) with
    ⟨h1, h2⟩ | ⟨l1, i, l2, e, h1, h2, h3, h4, h5⟩
  · refine Or.inl ⟨h1, ?_⟩
    intro v hv
    unfold sukhotinSelect at hv
    have hm := List.mem_of_find?_eq_some hv
    have hp := List.find?_some hv
    simp only [Bool.and_eq_true, Bool.not_eq_true'] at hp
    exact h2 v hm hp.1
  · refine Or.inr ⟨i, h1, h3, ?_⟩
    have hall : ∀ j ∈ List.range 26, isV j = false → cs j ≤ cs i := by
      intro j hj hv
      rw [e] at hj
      rcases List.mem_append.mp hj with hj | hj
      · exact le_of_lt (h4 j hj hv)
      · rcases List.mem_cons.mp hj with rfl | hj
        · exact le_refl _
        · exact h5 j hj hv
    have hi : i ∈ List.range 26 := by rw [e]; simp
    have key : ∀ p : Nat → Bool, p i = true → (∀ j ∈ l1, p j = false) →
        (l1 ++ i :: l2).find? p = some i := by
      intro p hp hl
      rw [List.find?_append]
      have : l1.find? p = none := by
        rw [List.find?_eq_none]
        intro j hj
        rw [hl j hj]
        simp
      rw [this, List.find?_cons_of_pos _ hp]
      rfl
    have hfind := key (fun v => !isV v && (List.range 26).all
        (fun i => isV i || decide (cs i ≤ cs v))) (by
        simp only [Bool.and_eq_true, Bool.not_eq_true', List.all_eq_true, Bool.or_eq_true,
          decide_eq_true_eq]
        refine ⟨h2, ?_⟩
        intro j hj
        by_cases hv : isV j = true
        · exact Or.inl hv
        · simp only [Bool.not_eq_true] at hv
          exact Or.inr (hall j hj hv)) (by
        intro j hj
        by_cases hv : isV j = true
        · simp [hv]
        · simp only [Bool.not_eq_true] at hv
          have hlt := h4 j hj hv
          simp only [hv, Bool.not_false, Bool.true_and, Bool.false_or]
          rw [List.all_eq_false]
          refine ⟨i, hi, ?_⟩
          simp only [h2, Bool.false_or, decide_eq_true_eq]
          omega)
    rw [← e] at hfind
    exact hfind

theorem sukhotinRounds_eq (cmat A : Nat → Nat → Int) (hA : ∀ i v, cmat i v = A i v)
    (fuel : Nat) (st : VowState) :
    sukhotinRounds A fuel st = (vowLoop cmat fuel st).vowels := by
  induction fuel generalizing st with
  | zero => rfl
  | succ fuel ih =>
    simp only [sukhotinRounds, vowLoop]
    rcases sukhotinSelect_of_scan st.isVowel st.csum with ⟨h1, h2⟩ | ⟨v, h1, h2, h3⟩
    · have hscan : maxScan st.isVowel st.csum (List.range NUMSYMBOLS) (0, none) = (0, none) := h1
      rw [hscan]
      simp only
      cases hsel : sukhotinSelect st.isVowel st.csum with
      | none => rfl
      | some v =>
        simp only
        have := h2 v hsel
        rw [if_neg (by omega)]
    · have hscan : maxScan st.isVowel st.csum (List.range NUMSYMBOLS) (0, none)
          = (st.csum v, some v) := h1
      rw [hscan, h3]
      simp only
      by_cases hc : 0 < st.csum v ∧ st.vowels.length < 7
      · rw [if_pos hc, if_pos (show 0 < st.csum v ∧ st.vowels.length < MAXVOWELS from hc), ih]
        have e : (fun i => if i < 26 ∧ i ≠ v ∧ st.isVowel i = false
              then st.csum i - 2 * A i v else st.csum i)
            = (fun i => if i < NUMSYMBOLS ∧ i ≠ v ∧ st.isVowel i = false
              then st.csum i - cmat i v * 2 else st.csum i) := by
          funext i
          rw [hA i v, mul_comm]
          rfl
        rw [e]
        rfl
      · rw [if_neg hc, if_neg (show ¬ (0 < st.csum v ∧ st.vowels.length < MAXVOWELS) from hc)]

/-- C29: for every ciphertext, the vowel list produced by `vowIdentify`
(entered with `numVowels` = 0) is the list of the reference Sukhotin
procedure on the same text. -/
theorem vowIdentify_eq_sukhotin (encText : List Nat) :
    (vowIdentify encText []).vowels = sukhotin encText := by
  unfold vowIdentify sukhotin
  rw [csumOf_eq_sukhotinS]
  exact (sukhotinRounds_eq (cmatOf encText) (sukhotinA (encText.map (fun c => c - 97)))
    (fun i v => cmatOf_eq_sukhotinA encText i v) (MAXVOWELS + 1) _).symm

/-! ## The frequencies of frequencies -/

theorem lookupN_not_mem (x : Int) (r n : List Int) (h : x ∉ r) : lookupN x r n = 0 := by
  induction r generalizing n with
  | nil => simp [lookupN]
  | cons R rs ih =>
    cases n with
    | nil => simp [lookupN]
    | cons N ns =>
      have h1 : R ≠ x := fun e => h (by simp [e])
      simp only [lookupN, if_neg h1]
      exact ih ns (fun hm => h (List.mem_cons_of_mem _ hm))

theorem countInsert_lookup (t : Int) (r n : List Int) (hs : r.Pairwise (fun a b => a < b))
    (hl : r.length = n.length) (ht : wrapInt32 t = t)
    (hw : wrapInt32 (lookupN t r n + 1) = lookupN t r n + 1) (x : Int) :
    lookupN x (countInsert t r n).1 (countInsert t r n).2
      = lookupN x r n + (if x = t then 1 else 0) := by
  induction r generalizing n with
  | nil =>
    cases n with
    | nil =>
      simp only [countInsert, List.nil_append, lookupN, ht]
      by_cases h : t = x
      · simp [h]
      · simp [h, Ne.symm h]
    | cons N ns => simp at hl
  | cons R rs ih =>
    cases n with
    | nil => simp at hl
    | cons N ns =>
      simp only [List.length_cons, add_left_inj] at hl
      rw [List.pairwise_cons] at hs
      simp only [countInsert]
      by_cases h1 : t ≤ R
      · rw [if_pos h1]
        by_cases h2 : t = R
        · subst h2
          simp only [lookupN, if_true] at hw
          simp only [if_true, lookupN, hw]
          by_cases h3 : t = x
          · simp [h3]
          · simp [h3, Ne.symm h3]
        · rw [if_neg h2, ht]
          have hlt : t < R := lt_of_le_of_ne h1 h2
          have hnm : t ∉ R :: rs := by
            intro hm
            rcases List.mem_cons.mp hm with e | hm
            · exact h2 e
            · have := hs.1 t hm
              omega
          simp only [lookupN]
          by_cases h3 : t = x
          · subst h3
            have := lookupN_not_mem t (R :: rs) (N :: ns) hnm
            simp only [lookupN] at this
            simp [this]
          · simp [h3, Ne.symm h3]
      · rw [if_neg h1]
        have hRt : R ≠ t := by omega
        simp only [lookupN, if_neg hRt] at hw
        simp only [lookupN]
        by_cases h3 : R = x
        · have : x ≠ t := by rw [← h3]; exact hRt
          simp [h3, this]
        · simp only [if_neg h3]
          exact ih ns hs.2 hl hw

theorem countInsert_dot (t : Int) (r n : List Int) (hl : r.length = n.length)
    (ht : wrapInt32 t = t) (hw : wrapInt32 (lookupN t r n + 1) = lookupN t r n + 1) :
    dotRN (countInsert t r n).1 (countInsert t r n).2 = dotRN r n + t := by
  induction r generalizing n with
  | nil =>
    cases n with
    | nil => simp [countInsert, dotRN, ht]
    | cons N ns => simp at hl
  | cons R rs ih =>
    cases n with
    | nil => simp at hl
    | cons N ns =>
      simp only [List.length_cons, add_left_inj] at hl
      simp only [countInsert]
      by_cases h1 : t ≤ R
      · rw [if_pos h1]
        by_cases h2 : t = R
        · subst h2
          simp only [lookupN, if_true] at hw
          simp only [if_true, hw, dotRN, List.zip_cons_cons, List.map_cons, List.sum_cons]
          ring
        · rw [if_neg h2, ht]
          simp only [dotRN, List.zip_cons_cons, List.map_cons, List.sum_cons]
          ring
      · rw [if_neg h1]
        have hRt : R ≠ t := by omega
        simp only [lookupN, if_neg hRt] at hw
        have := ih ns hl hw
        simp only [dotRN, List.zip_cons_cons, List.map_cons, List.sum_cons] at this ⊢
        rw [this]
        ring

theorem lookupN_getD (r n : List Int) (hs : r.Pairwise (fun a b => a < b))
    (hl : r.length = n.length) (i : Nat) (hi : i < r.length) :
    lookupN (r.getD i 0) r n = n.getD i 0 := by
  induction r generalizing n i with
  | nil => simp at hi
  | cons R rs ih =>
    cases n with
    | nil => simp at hl
    | cons N ns =>
      simp only [List.length_cons, add_left_inj] at hl
      rw [List.pairwise_cons] at hs
      cases i with
      | zero => simp [lookupN]
      | succ j =>
        simp only [List.length_cons, Nat.add_lt_add_iff_right] at hi
        have hm : rs.getD j 0 ∈ rs := by
          rw [List.getD_eq_getElem rs 0 hi]
          exact List.getElem_mem _
        have hne : R ≠ rs.getD j 0 := by
          have := hs.1 _ hm
          omega
        simp only [List.getD_cons_succ, lookupN, if_neg hne]
        exact ih ns hs.2 hl j hi

theorem foldl_probCountNode_counts (L : List trieNode) (s : Counts) (f0 : Int → Int) (S0 : Int)
    (hs : s.r.Pairwise (fun a b => a < b)) (hl : s.r.length = s.n.length)
    (hf0 : ∀ x, lookupN x s.r s.n = f0 x) (hf00 : ∀ x, 0 ≤ f0 x)
    (hd0 : dotRN s.r s.n = S0) (hT0 : (s.ngramTotal : Int) = S0) (hS0 : 0 ≤ S0)
    (hL : ∀ node ∈ L, 0 ≤ totalOf node ∧ totalOf node < 2 ^ 31)
    (hcnt : ∀ x, f0 x + (L.length : Int) < 2 ^ 31)
    (hsum : S0 + (L.map totalOf).sum < 2 ^ 32) :
    (∀ x, lookupN x (L.foldl probCountNode s).r (L.foldl probCountNode s).n
      = f0 x + ((L.countP (fun nd => decide (totalOf nd = x)) : Nat) : Int)) ∧
    dotRN (L.foldl probCountNode s).r (L.foldl probCountNode s).n = S0 + (L.map totalOf).sum ∧
    ((L.foldl probCountNode s).ngramTotal : Int) = S0 + (L.map totalOf).sum := by
  induction L generalizing s f0 S0 with
  | nil => simp [hf0, hd0, hT0]
  | cons a rest ih =>
    have ha := hL a (List.mem_cons_self _ _)
    have hwa : wrapInt32 (totalOf a) = totalOf a :=
      wrapInt32_of_range _ (by omega) ha.2
    have hnn : 0 ≤ (rest.map totalOf).sum := by
      apply List.sum_nonneg
      intro x hx
      obtain ⟨nd, hnd, rfl⟩ := List.mem_map.mp hx
      exact (hL nd (List.mem_cons_of_mem _ hnd)).1
    simp only [List.map_cons, List.sum_cons, List.length_cons] at hsum hcnt
    have hw : wrapInt32 (lookupN (totalOf a) s.r s.n + 1) = lookupN (totalOf a) s.r s.n + 1 := by
      apply wrapInt32_of_range
      · rw [hf0]
        have := hf00 (totalOf a)
        omega
      · rw [hf0]
        have := hcnt (totalOf a)
        push_cast at this
        omega
    obtain ⟨i1, i2, _⟩ := countInsert_spec (totalOf a) s.r s.n hs hl hwa
    have hlook := countInsert_lookup (totalOf a) s.r s.n hs hl hwa hw
    have hdot := countInsert_dot (totalOf a) s.r s.n hl hwa hw
    have hT : ((probCountNode s a).ngramTotal : Int) = S0 + totalOf a := by
      simp only [probCountNode]
      rw [Int.toNat_of_nonneg (Int.emod_nonneg _ (by norm_num)), hT0,
        Int.emod_eq_of_lt (by omega) (by omega)]
    obtain ⟨j1, j2, j3⟩ := ih (probCountNode s a)
      (fun x => f0 x + (if x = totalOf a then 1 else 0)) (S0 + totalOf a) i1 i2
      (fun x => by beta_reduce; rw [← hf0 x]; exact hlook x)
      (fun x => by beta_reduce; have := hf00 x; split <;> omega)
      (by rw [← hd0]; exact hdot) hT (by omega)
      (fun nd hnd => hL nd (List.mem_cons_of_mem _ hnd))
      (fun x => by
        beta_reduce
        have := hcnt x
        push_cast at this
        split <;> omega)
      (by omega)
    simp only [List.foldl_cons, List.map_cons, List.sum_cons]
    refine ⟨?_, by rw [j2]; ring, by rw [j3]; ring⟩
    intro x
    rw [j1 x, List.countP_cons]
    by_cases hx : totalOf a = x
    · simp [hx]
      ring
    · have : ¬ (x = totalOf a) := fun e => hx e.symm
      simp [hx, this]

/-- C28 (as amended): after `probGetCounts(level)` on a trie whose totals at
that level are nonnegative and below 2^31, with fewer than 2^31 nodes at the
level and a sum of the totals below 2^32: R is strictly increasing,
|R| = |N|, a value occurs in R iff some node at the level has that total,
N[i] is the number of nodes at the level whose total is R[i], and the sum of
R[i] * N[i] is `ngramTotal`. -/
theorem probGetCounts_table (root : trieNode) (level : Nat)
    (h0 : ∀ node ∈ trieTraverseLevel root level, 0 ≤ totalOf node ∧ totalOf node < 2 ^ 31)
    (hcnt : ((trieTraverseLevel root level).length : Int) < 2 ^ 31)
    (hsum : ((trieTraverseLevel root level).map totalOf).sum < 2 ^ 32) :
    (probGetCounts root level).r.Pairwise (fun a b => a < b) ∧
    (probGetCounts root level).r.length = (probGetCounts root level).n.length ∧
    (∀ x, x ∈ (probGetCounts root level).r ↔
      ∃ node ∈ trieTraverseLevel root level, totalOf node = x) ∧
    (∀ i, i < (probGetCounts root level).r.length →
      (probGetCounts root level).n.getD i 0
        = (((trieTraverseLevel root level).countP
            (fun nd => decide (totalOf nd = (probGetCounts root level).r.getD i 0)) : Nat) : Int)) ∧
    dotRN (probGetCounts root level).r (probGetCounts root level).n
      = ((probGetCounts root level).ngramTotal : Int) := by
  have hw : ∀ node ∈ trieTraverseLevel root level, wrapInt32 (totalOf node) = totalOf node := by
    intro nd hnd
    have := h0 nd hnd
    exact wrapInt32_of_range _ (by omega) this.2
  obtain ⟨s1, s2, s3⟩ := probGetCounts_spec root level hw
  obtain ⟨c1, c2, c3⟩ := foldl_probCountNode_counts (trieTraverseLevel root level) ⟨[], [], 0⟩
    (fun _ => 0) 0 (by simp) (by simp) (by intro x; simp [lookupN]) (by simp)
    (by simp [dotRN]) (by simp) (le_refl _) h0 (by intro x; simpa using hcnt)
    (by simpa using hsum)
  refine ⟨s1, s2, s3, ?_, ?_⟩
  · intro i hi
    rw [← lookupN_getD _ _ s1 s2 i hi]
    have := c1 ((probGetCounts root level).r.getD i 0)
    simp only [zero_add] at this
    exact this
  · have e1 : dotRN (probGetCounts root level).r (probGetCounts root level).n
        = 0 + ((trieTraverseLevel root level).map totalOf).sum := c2
    have e2 : ((probGetCounts root level).ngramTotal : Int)
        = 0 + ((trieTraverseLevel root level).map totalOf).sum := c3
    rw [e1, e2]

/-- C28, witness: the trie of the 2-grams `ab`, `ac`, `ab`. -/
theorem probGetCounts_table_witness :
    ∃ t, ngramInsertAll 2 trieNodeNew [([97, 98], 1), ([97, 99], 1), ([97, 98], 1)] = some t ∧
      (probGetCounts t 2).r.Pairwise (fun a b => a < b) ∧
      (probGetCounts t 2).r.length = (probGetCounts t 2).n.length ∧
      (∀ x, x ∈ (probGetCounts t 2).r ↔ ∃ node ∈ trieTraverseLevel t 2, totalOf node = x) ∧
      (∀ i, i < (probGetCounts t 2).r.length →
        (probGetCounts t 2).n.getD i 0
          = (((trieTraverseLevel t 2).countP
              (fun nd => decide (totalOf nd = (probGetCounts t 2).r.getD i 0)) : Nat) : Int)) ∧
      dotRN (probGetCounts t 2).r (probGetCounts t 2).n = ((probGetCounts t 2).ngramTotal : Int) := by
  obtain ⟨t, ht, h0, hcnt, hsum⟩ : ∃ t,
      ngramInsertAll 2 trieNodeNew [([97, 98], 1), ([97, 99], 1), ([97, 98], 1)] = some t ∧
      (∀ node ∈ trieTraverseLevel t 2, 0 ≤ totalOf node ∧ totalOf node < 2 ^ 31) ∧
      ((trieTraverseLevel t 2).length : Int) < 2 ^ 31 ∧
      ((trieTraverseLevel t 2).map totalOf).sum < 2 ^ 32 :=
    ⟨_, rfl, by decide, by decide, by decide⟩
  exact ⟨t, ht, probGetCounts_table t 2 h0 hcnt hsum⟩

/-- C28 (fails as stated): the trie of the 1-grams `a`, `b`, `c` with the
totals 7, 4294967291 and 9. The entries of `r` are `gint`: R = [7, -5, 9] is
not increasing, and -5 is the total of no node. -/
theorem probGetCounts_not_increasing_past_gint :
    ∃ t, ngramInsertAll 1 trieNodeNew [([97], 7), ([98], 4294967291), ([99], 9)] = some t ∧
      (probGetCounts t 1).r = [7, -5, 9] ∧
      ¬ (probGetCounts t 1).r.Pairwise (fun a b => a < b) ∧
      (trieTraverseLevel t 1).map totalOf = [7, 4294967291, 9] :=
  ⟨_, rfl, by decide, by decide, by decide⟩

/-! ## Crossover: fitness of the child -/

theorem crossLoop_fit {α : Type} [LinearOrder α] (ev : Key → α) (px py : Key)
    (hx : IsKeyPerm px) (hy : IsKeyPerm py) (is : List Nat) (his : ∀ i ∈ is, i < 26)
    (st : Key × α) (hst : st.1.length = 26) (hfit : st.2 = ev st.1) :
    ∃ st1, crossLoop ev px py is st = some st1 ∧ st1.1.length = 26 ∧ st1.2 = ev st1.1 ∧
      st.2 ≤ st1.2 ∧ (px = py → st1 = st) := by
  induction is generalizing st with
  | nil => exact ⟨st, rfl, hst, hfit, le_refl _, fun _ => rfl⟩
  | cons i rest ih =>
    have hi : i < 26 := his i (List.mem_cons_self _ _)
    have hrest : ∀ t ∈ rest, t < 26 := fun t ht => his t (List.mem_cons_of_mem _ ht)
    simp only [crossLoop]
    by_cases hd : px.getD i 0 = py.getD i 0
    · rw [crossStep_same ev px py st i hd]
      exact ih hrest st hst hfit
    · obtain ⟨j, hj, _, _, hstep⟩ := crossStep_spec ev px py st i hx hy hst hi hd
      rw [hstep]
      by_cases hle : st.2 ≤ ev (swapKey st.1 i j)
      · rw [if_pos hle]
        obtain ⟨st1, h1, h2, h3, h4, _⟩ := ih hrest (swapKey st.1 i j, ev (swapKey st.1 i j))
          (by simp [length_swapKey, hst]) rfl
        refine ⟨st1, h1, h2, h3, le_trans hle h4, ?_⟩
        intro e
        subst e
        exact absurd rfl hd
      · rw [if_neg hle]
        obtain ⟨st1, h1, h2, h3, h4, _⟩ := ih hrest st hst hfit
        refine ⟨st1, h1, h2, h3, h4, ?_⟩
        intro e
        subst e
        exact absurd rfl hd

/-- C33: for two parents that are permutations of a..z, (1) at every position
`i` the search for the letter of the second parent in the first ends at a
position `j` < 26; (2) `genCrossover` returns a child, whose fitness is at
least the fitness of the first parent; (3) when the parents are the same key
the child is that key. -/
theorem genCrossover_child_fitness {α : Type} [LinearOrder α] (ev : Key → α)
    (popKey : List Key) (x y : Nat)
    (hx : IsKeyPerm (popKey.getD x [])) (hy : IsKeyPerm (popKey.getD y [])) :
    (∀ i, i < 26 → ∃ j, j < 26 ∧
      crossFind (popKey.getD x []) ((popKey.getD y []).getD i 0) NUMSYMBOLS 0 = some j) ∧
    ∃ child, genCrossover ev popKey x y = some child ∧
      ev (popKey.getD x []) ≤ ev child ∧
      (popKey.getD x [] = popKey.getD y [] → child = popKey.getD x []) := by
  constructor
  · intro i hi
    obtain ⟨j, h1, h2, _⟩ := crossFind_perm _ _ hx hy i hi
    exact ⟨j, h2, h1⟩
  · obtain ⟨st1, h1, _, h3, h4, h5⟩ := crossLoop_fit ev _ _ hx hy (List.range NUMSYMBOLS)
      (by intro i hi; simpa [NUMSYMBOLS] using hi) (popKey.getD x [], ev (popKey.getD x []))
      hx.length rfl
    refine ⟨st1.1, ?_, ?_, ?_⟩
    · unfold genCrossover
      simp only [h1, Option.map_some']
    · rw [← h3]
      exact h4
    · intro e
      rw [h5 e]

/-- C33, witness: the parents `abcd...` and `acbd...` with the fitness
`key[1]` (98 for the first parent): the child is the second parent, with
fitness 99. -/
theorem genCrossover_child_fitness_witness :
    (∀ i, i < 26 → ∃ j, j < 26 ∧
      crossFind alphabet ((swapKey alphabet 1 2).getD i 0) NUMSYMBOLS 0 = some j) ∧
    ∃ child, genCrossover (fun k => (k.getD 1 0 : Int)) [alphabet, swapKey alphabet 1 2] 0 1
        = some child ∧
      (98 : Int) ≤ (child.getD 1 0 : Int) ∧
      (alphabet = swapKey alphabet 1 2 → child = alphabet) :=
  genCrossover_child_fitness (fun k => (k.getD 1 0 : Int)) [alphabet, swapKey alphabet 1 2] 0 1
    (by decide) (by decide)

/-! ## The initial population with fewer than two vowels -/

theorem drawUntil_mod_one (vx : Nat) (rng : List Nat) :
    drawUntil (fun vy => !(vy == vx % 1)) 1 rng = none := by
  induction rng with
  | nil => rfl
  | cons r rs ih =>
    simp only [drawUntil, Nat.mod_one, beq_self_eq_true, Bool.not_true, Bool.false_eq_true,
      if_false]
    simpa [Nat.mod_one] using ih

theorem initSwap_few_vowels (vowels : List Nat) (hv : vowels.length ≤ 1)
    (isVowel : Nat → Bool) (k : Key) (rng : List Nat) :
    initSwap vowels isVowel k rng = none := by
  unfold initSwap
  split
  · rfl
  · split
    · rfl
    · simp only
      split
      · rfl
      · rename_i hne
        have h1 : vowels.length = 1 := by omega
        split
        · rfl
        · rename_i r rng3
          rw [h1, drawUntil_mod_one]

theorem genInit_few_vowels {α : Type} (ev : Key → α) (vowels : List Nat)
    (hv : vowels.length ≤ 1) (isVowel : Nat → Bool) (popSize r : Nat) (rng : List Nat)
    (hr : r % MAXSWAPS ≠ 0) :
    genInit ev vowels isVowel (popSize + 1) (r :: rng) = none := by
  obtain ⟨s, hs⟩ : ∃ s, r % MAXSWAPS = s + 1 := ⟨r % MAXSWAPS - 1, by omega⟩
  have h1 : genInitOne vowels isVowel (r :: rng) = none := by
    simp only [genInitOne, hs, initSwaps, initSwap_few_vowels vowels hv]
  simp only [genInit, h1]

/-- C34 (fails on the code): the ciphertext `aaa` gives the vowel seeder no
vowel and the ciphertext `ab` one vowel, `a`. In both cases no random stream
lets `genInit` produce a population as soon as the first individual has a
swap round (`rand() % MAXSWAPS` is not 0): with no vowel, `rand() % numVowels`
divides by zero; with one vowel, `x` and every `y` drawn are
`rand() % 1` = 0, so the loop `while (y == x)` has no value that ends it. -/
theorem genInit_fails_with_few_vowels :
    (vowIdentify [97, 97, 97] []).vowels = [] ∧
    (vowIdentify [97, 98] []).vowels = [97] ∧
    (∀ (vx : Nat) (rng : List Nat), drawUntil (fun vy => !(vy == vx % 1)) 1 rng = none) ∧
    (∀ (ev : Key → Int) (popSize r : Nat) (rng : List Nat), r % MAXSWAPS ≠ 0 →
      genInit ev (vowIdentify [97, 97, 97] []).vowels (vowIdentify [97, 97, 97] []).isVowel
        (popSize + 1) (r :: rng) = none ∧
      genInit ev (vowIdentify [97, 98] []).vowels (vowIdentify [97, 98] []).isVowel
        (popSize + 1) (r :: rng) = none) := by
  have h0 : (vowIdentify [97, 97, 97] []).vowels = [] := by decide
  have h1 : (vowIdentify [97, 98] []).vowels = [97] := by decide
  refine ⟨h0, h1, drawUntil_mod_one, ?_⟩
  intro ev popSize r rng hr
  exact ⟨genInit_few_vowels ev _ (by rw [h0]; decide) _ popSize r rng hr,
    genInit_few_vowels ev _ (by rw [h1]; decide) _ popSize r rng hr⟩

/-! ## The switchover loop at the last index -/

theorem sgtEstimates_two_any (oR oN : Nat → Int) :
    sgtEstimates (⟨Real.log, Real.exp, Real.sqrt⟩ : MathFns ℝ) ([2, 3] : List Int)
        (gArrayIndex ([2, 3] : List Int) oR) (gArrayIndex ([100, 100] : List Int) oN)
      = sgtEstimates (⟨Real.log, Real.exp, Real.sqrt⟩ : MathFns ℝ) ([2, 3] : List Int)
        (gArrayIndex ([2, 3] : List Int) (fun _ => 4))
        (gArrayIndex ([100, 100] : List Int) (fun _ => -75)) := by
  have hz : ∀ i, i < 2 →
      (zTransform (gArrayIndex ([2, 3] : List Int) oR) (gArrayIndex ([100, 100] : List Int) oN)
        2 i : ℝ)
      = zTransform (gArrayIndex ([2, 3] : List Int) (fun _ => 4))
        (gArrayIndex ([100, 100] : List Int) (fun _ => -75)) 2 i := by
    intro i hi
    rcases (by omega : i = 0 ∨ i = 1) with e | e <;> subst e <;>
      simp [zTransform, gArrayIndex]
  simp only [sgtEstimates, List.length_cons, List.length_nil, List.range, List.range.loop,
    List.map_cons, List.map_nil, hz 0 (by decide), hz 1 (by decide)]

theorem turingLoop_two_three_any (rAt nAt : Nat → Int) (r0 : rAt 0 = 2) (r1 : rAt 1 = 3)
    (n0 : nAt 0 = 100) (n1 : nAt 1 = 100) (e1 : ℝ) (he1 : 0 < e1)
    (h2 : rAt 2 ≠ 4 ∨ 0 < nAt 2) :
    0 < (turingLoop (⟨Real.log, Real.exp, Real.sqrt⟩ : MathFns ℝ) rAt nAt 2 0
      [9 / 2, e1]).getD 1 0 := by
  have w9 : wrapInt32 ((2 + 1) * (2 + 1)) = 9 := by decide
  have b0 : ¬ (|((2 + 1 : Int) : ℝ) * ((100 : Int) : ℝ) / ((100 : Int) : ℝ) - 9 / 2|
      ≤ 196 / 100 * Real.sqrt (((9 : Int) : ℝ) * (((100 : Int) : ℝ)
          / (((100 : Int) : ℝ) * ((100 : Int) : ℝ))) * (1 + ((100 : Int) : ℝ) / ((100 : Int) : ℝ)))) := by
    have hs : Real.sqrt (((9 : Int) : ℝ) * (((100 : Int) : ℝ)
          / (((100 : Int) : ℝ) * ((100 : Int) : ℝ))) * (1 + ((100 : Int) : ℝ) / ((100 : Int) : ℝ)))
        < 3 / 4 := by
      rw [Real.sqrt_lt' (by norm_num)]
      norm_num
    have hd : |((2 + 1 : Int) : ℝ) * ((100 : Int) : ℝ) / ((100 : Int) : ℝ) - 9 / 2| = 3 / 2 := by
      rw [show ((2 + 1 : Int) : ℝ) * ((100 : Int) : ℝ) / ((100 : Int) : ℝ) - 9 / 2 = -(3 / 2) by
        norm_num]
      rw [abs_neg, abs_of_pos (by norm_num)]
    rw [hd]
    intro h
    linarith
  simp only [turingLoop, r0, r1, n0, n1, w9, ne_eq, not_true_eq_false, if_false,
    zero_add, List.getD_cons_zero, b0, List.set_cons_zero]
  have h32 : ¬ ¬ ((3 : Int) = 2 + 1) := by decide
  rw [if_neg h32]
  have h2b : rAt (1 + 1) ≠ 4 ∨ 0 < nAt (1 + 1) := h2
  by_cases hr : rAt (1 + 1) = 3 + 1
  · have hn : 0 < nAt (1 + 1) := by
      rcases h2b with h | h
      · exact absurd hr h
      · exact h
    rw [if_neg (not_not.mpr hr)]
    split_ifs with hb
    · simpa using he1
    · simp only [List.set_cons_succ, List.set_cons_zero, List.getD_cons_succ,
        List.getD_cons_zero]
      have hnr : (0 : ℝ) < ((nAt (1 + 1) : Int) : ℝ) := by exact_mod_cast hn
      have h4 : (0 : ℝ) < ((3 + 1 : Int) : ℝ) := by norm_num
      have h100 : (0 : ℝ) < ((100 : Int) : ℝ) := by norm_num
      exact div_pos (mul_pos h4 hnr) h100
  · rw [if_pos hr]
    simpa using he1

/-- C35 (fails on the code): for the table R = [2, 3], N = [100, 100], whose
counts are consecutive and whose estimate at index 0 is outside the band, the
final estimate at the last index 1 depends on the words `r[2]` and `n[2]`
behind the arrays (index |R| = 2): it is -3 when they hold 4 and -75, and
positive when `r[2]` holds 0 instead, or `n[2]` holds 100 instead. So the
loop reads `R[i+1]` and `N[i+1]` for `i + 1 = |R|`. -/
theorem switchover_reads_index_numCounts :
    (rStarFinal (⟨Real.log, Real.exp, Real.sqrt⟩ : MathFns ℝ) [2, 3] [100, 100]
      (fun _ => 4) (fun _ => -75)).getD 1 0 = -3 ∧
    0 < (rStarFinal (⟨Real.log, Real.exp, Real.sqrt⟩ : MathFns ℝ) [2, 3] [100, 100]
      (fun _ => 0) (fun _ => -75)).getD 1 0 ∧
    0 < (rStarFinal (⟨Real.log, Real.exp, Real.sqrt⟩ : MathFns ℝ) [2, 3] [100, 100]
      (fun _ => 4) (fun _ => 100)).getD 1 0 := by
  obtain ⟨e1, he1, hest⟩ := sgtEstimates_two_three
  refine ⟨?_, ?_, ?_⟩
  · have hrs : rStarFinal (⟨Real.log, Real.exp, Real.sqrt⟩ : MathFns ℝ) [2, 3] [100, 100]
        (fun _ => 4) (fun _ => -75) = [3, -3] := by
      unfold rStarFinal
      rw [hest]
      exact turingLoop_two_three e1 he1
    rw [hrs]
    rfl
  · unfold rStarFinal
    rw [sgtEstimates_two_any, hest]
    exact turingLoop_two_three_any _ _ (by simp [gArrayIndex]) (by simp [gArrayIndex])
      (by simp [gArrayIndex]) (by simp [gArrayIndex]) e1 he1 (Or.inl (by simp [gArrayIndex]))
  · unfold rStarFinal
    rw [sgtEstimates_two_any, hest]
    exact turingLoop_two_three_any _ _ (by simp [gArrayIndex]) (by simp [gArrayIndex])
      (by simp [gArrayIndex]) (by simp [gArrayIndex]) e1 he1 (Or.inr (by simp [gArrayIndex]))

/-! ## The write at the capacity of the block -/

theorem loadPrefix_512 (heap : Nat → Nat) :
    (loadPrefix (List.replicate MAXCIPHERLEN 97) heap).textLen = MAXCIPHERLEN ∧
    (loadPrefix (List.replicate MAXCIPHERLEN 97) heap).encText.length = MAXCIPHERLEN := by
  obtain ⟨k1, _⟩ := loadFold_text heap (List.replicate MAXCIPHERLEN 97)
    ⟨(List.range MAXCIPHERLEN).map heap, 0, fun _ => 0⟩ (by simp)
    (by rw [lettersOf_replicate]; simp)
  obtain ⟨c1, _⟩ := loadFold_counts heap (List.replicate MAXCIPHERLEN 97)
    ⟨(List.range MAXCIPHERLEN).map heap, 0, fun _ => 0⟩
  rw [lettersOf_replicate] at c1
  simp only [Nat.zero_add, List.length_replicate] at c1
  exact ⟨c1, k1⟩

/-- C36 (fails on the code): a cryptogram that starts with 513 letters `a`.
After 512 letters `textLen` is 512, the capacity of the block; the growth test
`textLen > bufsize` is false, so the 513th letter is written at index 512,
which is not below the capacity 512: the block of 512 bytes is left as it is
while `textLen` becomes 513. -/
theorem cryptoLoad_writes_at_capacity :
    (loadPrefix (List.replicate MAXCIPHERLEN 97) (fun _ => 0)).textLen = 512 ∧
    (loadPrefix (List.replicate MAXCIPHERLEN 97) (fun _ => 0)).encText.length = 512 ∧
    (loadStep (fun _ => 0) (loadPrefix (List.replicate MAXCIPHERLEN 97) (fun _ => 0))
      (some 97)).textLen = 513 ∧
    (loadStep (fun _ => 0) (loadPrefix (List.replicate MAXCIPHERLEN 97) (fun _ => 0))
      (some 97)).encText
      = (loadPrefix (List.replicate MAXCIPHERLEN 97) (fun _ => 0)).encText ∧
    loadPrefix (List.replicate MAXCIPHERLEN 97 ++ [97]) (fun _ => 0)
      = loadStep (fun _ => 0) (loadPrefix (List.replicate MAXCIPHERLEN 97) (fun _ => 0))
        (some 97) := by
  obtain ⟨h1, h2⟩ := loadPrefix_512 (fun _ => 0)
  generalize hS : loadPrefix (List.replicate MAXCIPHERLEN 97) (fun _ => 0) = S at h1 h2
  have hnl : ¬ (S.encText.length < S.textLen) := by omega
  have hst : loadStep (fun _ => 0) S (some 97) = ⟨S.encText, S.textLen + 1,
      fun j => if j = tolower 97 - chA then S.freq j + 1 else S.freq j⟩ := by
    simp only [loadStep, show isalpha 97 = true from rfl, if_true, if_neg hnl]
    rw [List.set_eq_of_length_le (by omega)]
  refine ⟨h1, h2, ?_, ?_, ?_⟩
  · rw [hst]
    simp only
    rw [h1]
    rfl
  · rw [hst]
  · rw [← hS]
    unfold loadPrefix
    rw [List.foldl_append]
    rfl

/-! ## The layout of the initial keys -/

theorem lettersAt_swapKey (ps : List Nat) (hnd : ps.Nodup) (k : Key) (a b : Nat)
    (ha : a < k.length) (hb : b < k.length) (hab : a ∈ ps ↔ b ∈ ps) :
    List.Perm (lettersAt (swapKey k a b) ps) (lettersAt k ps) := by
  by_cases hA : a ∈ ps
  · have hB := hab.mp hA
    have e : lettersAt (swapKey k a b) ps = lettersAt k (ps.map (Equiv.swap a b)) := by
      unfold lettersAt
      rw [List.map_map]
      apply List.map_congr_left
      intro p _
      simp only [Function.comp]
      rw [getD_swapKey k a b p ha hb, Equiv.swap_apply_def]
      by_cases h1 : p = b
      · subst h1
        by_cases h2 : p = a
        · subst h2
          simp
        · simp [h2]
      · by_cases h2 : p = a
        · subst h2
          simp [h1]
        · simp [h1, h2]
    rw [e]
    unfold lettersAt
    apply List.Perm.map
    rw [List.perm_ext_iff_of_nodup (hnd.map (Equiv.injective _)) hnd]
    have key : ∀ p, p ∈ ps → Equiv.swap a b p ∈ ps := by
      intro p hp
      rw [Equiv.swap_apply_def]
      split_ifs with h1 h2
      · exact hB
      · exact hA
      · exact hp
    intro x
    simp only [List.mem_map]
    constructor
    · rintro ⟨p, hp, rfl⟩
      exact key p hp
    · intro hx
      exact ⟨Equiv.swap a b x, key x hx, Equiv.swap_apply_self a b x⟩
  · have hB : b ∉ ps := fun h => hA (hab.mpr h)
    apply List.Perm.of_eq
    unfold lettersAt
    apply List.map_congr_left
    intro p hp
    have h1 : p ≠ b := fun e => hB (e ▸ hp)
    have h2 : p ≠ a := fun e => hA (e ▸ hp)
    rw [getD_swapKey k a b p ha hb, if_neg h1, if_neg h2]

theorem placeVowels_spec (vs : List Nat) (j : Nat) (k : Key)
    (hnd : (vowelPositions vs).Nodup) (hlt : ∀ p ∈ vowelPositions vs, p < k.length) :
    (placeVowels vs j k).length = k.length ∧
    (∀ p, p ∉ vowelPositions vs → (placeVowels vs j k).getD p 0 = k.getD p 0) ∧
    (∀ i, i < vs.length →
      (placeVowels vs j k).getD (vs.getD i 0 - chA) 0 = genVow.getD (j + i) 0) := by
  induction vs generalizing j k with
  | nil =>
    refine ⟨rfl, fun _ _ => rfl, ?_⟩
    intro i hi
    simp at hi
  | cons v vs ih =>
    have hnd2 : (v - chA) ∉ vowelPositions vs ∧ (vowelPositions vs).Nodup := by
      have := hnd
      unfold vowelPositions at this ⊢
      rw [List.map_cons, List.nodup_cons] at this
      exact this
    have hv : v - chA < k.length := hlt _ (by simp [vowelPositions])
    obtain ⟨i1, i2, i3⟩ := ih (j + 1) (k.set (v - chA) (genVow.getD j 0)) hnd2.2
      (by
        intro p hp
        rw [List.length_set]
        exact hlt p (by
          unfold vowelPositions at hp ⊢
          rw [List.map_cons]
          exact List.mem_cons_of_mem _ hp))
    simp only [placeVowels]
    refine ⟨by rw [i1, List.length_set], ?_, ?_⟩
    · intro p hp
      have hp2 : p ≠ v - chA ∧ p ∉ vowelPositions vs := by
        unfold vowelPositions at hp ⊢
        rw [List.map_cons, List.mem_cons, not_or] at hp
        exact hp
      rw [i2 p hp2.2]
      exact getD_set_ne _ _ _ _ (Ne.symm hp2.1)
    · intro i hi
      cases i with
      | zero =>
        rw [List.getD_cons_zero, i2 _ hnd2.1, Nat.add_zero]
        exact getD_set_same _ _ _ hv
      | succ i =>
        rw [List.getD_cons_succ, i3 i (by simpa using hi)]
        rw [show j + 1 + i = j + (i + 1) by omega]

theorem fillRest_spec (nv : Nat) (xs : List Nat) (c : Nat) :
    (fillRest nv xs c).length = xs.length ∧
    ∀ i, i < xs.length → (fillRest nv xs c).getD i 0
      = if xs.getD i 0 = 0 then genKey.getD (c + (xs.take i).count 0 + nv) 0
        else xs.getD i 0 := by
  induction xs generalizing c with
  | nil =>
    refine ⟨rfl, ?_⟩
    intro i hi
    simp at hi
  | cons x xs ih =>
    simp only [fillRest]
    by_cases hx : x = 0
    · rw [if_pos hx]
      obtain ⟨i1, i2⟩ := ih (c + 1)
      refine ⟨by simp [i1], ?_⟩
      intro i hi
      cases i with
      | zero =>
        rw [List.getD_cons_zero, List.getD_cons_zero, if_pos hx]
        simp
      | succ i =>
        rw [List.getD_cons_succ, List.getD_cons_succ, i2 i (by simpa using hi),
          List.take_succ_cons, List.count_cons, hx]
        simp only [beq_self_eq_true, if_true]
        rw [show c + 1 + (xs.take i).count 0 = c + ((xs.take i).count 0 + 1) by omega]
    · rw [if_neg hx]
      obtain ⟨i1, i2⟩ := ih c
      refine ⟨by simp [i1], ?_⟩
      intro i hi
      cases i with
      | zero =>
        rw [List.getD_cons_zero, List.getD_cons_zero, if_neg hx]
      | succ i =>
        rw [List.getD_cons_succ, List.getD_cons_succ, i2 i (by simpa using hi),
          List.take_succ_cons, List.count_cons]
        have : (x == 0) = false := by simpa using hx
        simp only [this, Bool.false_eq_true, if_false, Nat.add_zero]

theorem count_zero_take (l : List Nat) (q : Nat → Bool)
    (h : ∀ i, i < l.length → (l.getD i 0 = 0 ↔ q i = true)) (p : Nat) (hp : p ≤ l.length) :
    (l.take p).count 0 = ((List.range p).filter q).length := by
  induction p with
  | zero => simp
  | succ p ih =>
    have hp2 : p < l.length := by omega
    rw [List.take_succ, List.getElem?_eq_getElem hp2, List.range_succ, List.filter_append,
      List.length_append, List.count_append, ih (by omega)]
    have hg := h p hp2
    rw [List.getD_eq_getElem l 0 hp2] at hg
    by_cases hq : q p = true
    · have h0 : l[p] = 0 := hg.mpr hq
      simp [hq, h0]
    · have h0 : ¬ l[p] = 0 := fun e => hq (hg.mp e)
      have hb : (l[p] == 0) = false := by simpa using h0
      simp [hq, List.count_cons, hb]

theorem map_rank_filter (q : Nat → Bool) (h : Nat → Nat) (n : Nat) :
    ((List.range n).filter q).map (fun x => h ((List.range x).filter q).length)
      = (List.range ((List.range n).filter q).length).map h := by
  induction n with
  | zero => simp
  | succ n ih =>
    rw [List.range_succ, List.filter_append, List.map_append, ih, List.length_append]
    by_cases hq : q n = true
    · simp [hq, List.range_succ]
    · simp [hq]

theorem vowLoop_range (cmat : Nat → Nat → Int) (fuel : Nat) (st : VowState)
    (h : ∀ v ∈ st.vowels, chA ≤ v ∧ v < chA + 26) :
    ∀ v ∈ (vowLoop cmat fuel st).vowels, chA ≤ v ∧ v < chA + 26 := by
  induction fuel generalizing st with
  | zero => exact h
  | succ fuel ih =>
    obtain ⟨_, _, s3⟩ := maxScan_spec st.isVowel st.csum (List.range NUMSYMBOLS) (0, none)
    simp only [vowLoop]
    cases hsc : maxScan st.isVowel st.csum (List.range NUMSYMBOLS) (0, none) with
    | mk maxSum oi =>
      rw [hsc] at s3
      simp only at s3
      cases oi with
      | none => exact h
      | some index =>
        simp only
        by_cases hc : 0 < maxSum ∧ st.vowels.length < MAXVOWELS
        · rw [if_pos hc]
          have hidx : index < NUMSYMBOLS := by
            rcases s3 with h3 | ⟨j, hj, e, _⟩
            · have := congrArg Prod.snd h3
              simp at this
            · simp only [Option.some.injEq] at e
              subst e
              exact List.mem_range.mp hj
          apply ih
          intro v hv
          simp only [List.mem_append, List.mem_singleton] at hv
          rcases hv with hv | hv
          · exact h v hv
          · subst hv
            simp only [NUMSYMBOLS] at hidx
            omega
        · rw [if_neg hc]
          exact h

theorem mem_vowelPositions (vowels : List Nat) (hv : ∀ v ∈ vowels, chA ≤ v ∧ v < chA + 26)
    (p : Nat) : p ∈ vowelPositions vowels ↔ chA + p ∈ vowels := by
  unfold vowelPositions
  rw [List.mem_map]
  constructor
  · rintro ⟨v, hm, rfl⟩
    have := (hv v hm).1
    rw [show chA + (v - chA) = v by omega]
    exact hm
  · intro h
    exact ⟨chA + p, h, by omega⟩

theorem vowelPositions_nodup (vowels : List Nat) (hnd : vowels.Nodup)
    (hv : ∀ v ∈ vowels, chA ≤ v ∧ v < chA + 26) : (vowelPositions vowels).Nodup := by
  unfold vowelPositions
  apply List.Nodup.map_on _ hnd
  intro a ha b hb e
  have := (hv a ha).1
  have := (hv b hb).1
  omega

theorem vowelPositions_lt (vowels : List Nat) (hv : ∀ v ∈ vowels, chA ≤ v ∧ v < chA + 26)
    (p : Nat) (hp : p ∈ vowelPositions vowels) : p < 26 := by
  have := (hv _ ((mem_vowelPositions vowels hv p).mp hp)).2
  omega

theorem mem_otherPositions (isVowel : Nat → Bool) (p : Nat) :
    p ∈ otherPositions isVowel ↔ p < 26 ∧ isVowel p = false := by
  unfold otherPositions
  rw [List.mem_filter, List.mem_range]
  simp [NUMSYMBOLS]

theorem otherPositions_nodup (isVowel : Nat → Bool) : (otherPositions isVowel).Nodup :=
  List.Nodup.filter _ (List.nodup_range _)

theorem genVow_ne_zero : ∀ i, i < 7 → genVow.getD i 0 ≠ 0 := by decide

theorem genKey_tail : ∀ n, n ≤ 7 →
    (List.range (26 - n)).map (fun t => genKey.getD (t + n) 0) = genKey.drop n := by
  decide

/-- The seed layout: the vowel positions hold the first letters of `genVow`
in the order of `vowels`, and the other positions, in ascending order, hold
the letters of `genKey` behind the first `numVowels`. -/
theorem seedKey_layout (vowels : List Nat) (isVowel : Nat → Bool) (hnd : vowels.Nodup)
    (hv : ∀ v ∈ vowels, chA ≤ v ∧ v < chA + 26) (hl : vowels.length ≤ 7)
    (hiff : ∀ c, c < NUMSYMBOLS → (isVowel c = true ↔ chA + c ∈ vowels)) :
    (seedKey vowels).length = 26 ∧
    (∀ j, j < vowels.length →
      (seedKey vowels).getD (vowels.getD j 0 - chA) 0 = genVow.getD j 0) ∧
    lettersAt (seedKey vowels) (otherPositions isVowel) = genKey.drop vowels.length := by
  have hVnd := vowelPositions_nodup vowels hnd hv
  obtain ⟨p1, p2, p3⟩ := placeVowels_spec vowels 0 (List.replicate NUMSYMBOLS 0) hVnd
    (by
      intro p hp
      have := vowelPositions_lt vowels hv p hp
      simpa [NUMSYMBOLS] using this)
  have hrep : ∀ n i : Nat, (List.replicate n 0).getD i 0 = 0 := by
    intro n i
    rw [List.getD_eq_getElem?_getD, List.getElem?_replicate]
    split <;> rfl
  generalize hP : placeVowels vowels 0 (List.replicate NUMSYMBOLS 0) = placed at p1 p2 p3
  have hPlen : placed.length = 26 := by
    rw [p1]
    simp [NUMSYMBOLS]
  -- the bytes still NUL after the first loop are those of the other positions
  have hzero : ∀ i, i < placed.length → (placed.getD i 0 = 0 ↔ (!isVowel i) = true) := by
    intro i hi
    rw [hPlen] at hi
    have hi2 : i < NUMSYMBOLS := by simpa [NUMSYMBOLS] using hi
    constructor
    · intro h0
      by_contra hc
      have hvi : isVowel i = true := by simpa using hc
      have hm := (hiff i hi2).mp hvi
      obtain ⟨j, hj, e⟩ := List.getElem_of_mem hm
      have e2 : vowels.getD j 0 = chA + i := by
        rw [List.getD_eq_getElem vowels 0 hj, e]
      have := p3 j hj
      rw [e2, show chA + i - chA = i by omega, h0, Nat.zero_add] at this
      exact genVow_ne_zero j (by omega) this.symm
    · intro hn
      have hvi : isVowel i = false := by simpa using hn
      have hnm : i ∉ vowelPositions vowels := by
        intro hm
        have := (hiff i hi2).mpr ((mem_vowelPositions vowels hv i).mp hm)
        rw [hvi] at this
        exact Bool.false_ne_true this
      rw [p2 i hnm]
      exact hrep _ _
  obtain ⟨f1, f2⟩ := fillRest_spec vowels.length placed 0
  have hseed : seedKey vowels = fillRest vowels.length placed 0 := by
    unfold seedKey
    rw [hP]
  refine ⟨by rw [hseed, f1, hPlen], ?_, ?_⟩
  · intro j hj
    have hm : vowels.getD j 0 ∈ vowels := by
      rw [List.getD_eq_getElem vowels 0 hj]
      exact List.getElem_mem _
    have hlt : vowels.getD j 0 - chA < placed.length := by
      have := hv _ hm
      omega
    have hg := p3 j hj
    rw [Nat.zero_add] at hg
    rw [hseed, f2 _ hlt, hg, if_neg (genVow_ne_zero j (by omega))]
  · have hcnt : placed.count 0 = 26 - vowels.length := by
      have hPerm := placeVowels_perm vowels 0 (List.replicate NUMSYMBOLS 0) [] 26
        (by simp [NUMSYMBOLS]) hnd
        (by
          intro v h
          obtain ⟨h1, h2⟩ := hv v h
          exact ⟨h1, by simp [NUMSYMBOLS]; omega, hrep _ _⟩)
        (by omega) (by omega)
      rw [hP] at hPerm
      simp only [List.drop_zero, List.nil_append] at hPerm
      rw [List.Perm.count_eq hPerm, List.count_append, List.count_replicate_self]
      have : (genVow.take vowels.length).count 0 = 0 := by
        rw [List.count_eq_zero]
        intro h
        have := List.mem_of_mem_take h
        simp [genVow] at this
      omega
    have hC : ((List.range 26).filter (fun x => !isVowel x)).length = 26 - vowels.length := by
      rw [← count_zero_take placed (fun x => !isVowel x) hzero 26 (by omega),
        List.take_of_length_le (by omega), hcnt]
    have hmap : lettersAt (seedKey vowels) (otherPositions isVowel)
        = ((List.range 26).filter (fun x => !isVowel x)).map
          (fun x => (fun t => genKey.getD (t + vowels.length) 0)
            ((List.range x).filter (fun x => !isVowel x)).length) := by
      unfold lettersAt otherPositions
      apply List.map_congr_left
      intro p hp
      have hp2 := (mem_otherPositions isVowel p).mp hp
      have hpl : p < placed.length := by omega
      have h0 : placed.getD p 0 = 0 := (hzero p hpl).mpr (by simp [hp2.2])
      rw [hseed, f2 p hpl, if_pos h0, Nat.zero_add,
        count_zero_take placed (fun x => !isVowel x) hzero p (by omega)]
    rw [hmap, map_rank_filter (fun x => !isVowel x)
      (fun t => genKey.getD (t + vowels.length) 0) 26, hC]
    exact genKey_tail _ hl

theorem seedKey_vowel_letters (vowels : List Nat) (isVowel : Nat → Bool) (hnd : vowels.Nodup)
    (hv : ∀ v ∈ vowels, chA ≤ v ∧ v < chA + 26) (hl : vowels.length ≤ 7)
    (hiff : ∀ c, c < NUMSYMBOLS → (isVowel c = true ↔ chA + c ∈ vowels)) :
    lettersAt (seedKey vowels) (vowelPositions vowels) = genVow.take vowels.length := by
  obtain ⟨_, s2, _⟩ := seedKey_layout vowels isVowel hnd hv hl hiff
  have hlen7 : genVow.length = 7 := rfl
  apply List.ext_getElem
  · simp only [lettersAt, vowelPositions, List.length_map, List.length_take, hlen7]
    omega
  · intro j h1 h2
    have hj : j < vowels.length := by
      simpa [lettersAt, vowelPositions] using h1
    have hj7 : j < genVow.length := by
      rw [hlen7]
      omega
    have := s2 j hj
    rw [List.getD_eq_getElem vowels 0 hj, List.getD_eq_getElem genVow 0 hj7] at this
    simp only [lettersAt, vowelPositions, List.getElem_map, List.getElem_take]
    exact this

theorem initSwap_classes (vowels : List Nat) (isVowel : Nat → Bool) (hnd : vowels.Nodup)
    (hv : ∀ v ∈ vowels, chA ≤ v ∧ v < chA + 26)
    (hiff : ∀ c, c < NUMSYMBOLS → (isVowel c = true ↔ chA + c ∈ vowels))
    (k : Key) (rng : List Nat) (k1 : Key) (rng1 : List Nat) (hk : k.length = 26)
    (h : initSwap vowels isVowel k rng = some (k1, rng1)) :
    k1.length = 26 ∧
    List.Perm (lettersAt k1 (vowelPositions vowels)) (lettersAt k (vowelPositions vowels)) ∧
    List.Perm (lettersAt k1 (otherPositions isVowel)) (lettersAt k (otherPositions isVowel)) := by
  have hVnd := vowelPositions_nodup vowels hnd hv
  have hCnd := otherPositions_nodup isVowel
  unfold initSwap at h
  split at h
  · simp at h
  · rename_i x r1 hx
    split at h
    · simp at h
    · rename_i y r2 hy
      simp only at h
      split at h
      · simp at h
      · rename_i hlen
        split at h
        · simp at h
        · rename_i r r3
          split at h
          · simp at h
          · rename_i vy r4 hvy
            simp only [Option.some.injEq, Prod.mk.injEq] at h
            obtain ⟨h1, _⟩ := h
            subst h1
            obtain ⟨hx26, hxok⟩ := drawUntil_some _ _ (by simp [NUMSYMBOLS]) _ _ _ hx
            obtain ⟨hy26, hyok⟩ := drawUntil_some _ _ (by simp [NUMSYMBOLS]) _ _ _ hy
            have hpos : 0 < vowels.length := Nat.pos_of_ne_zero hlen
            have hvy2 := (drawUntil_some _ _ hpos _ _ _ hvy).1
            have hvx2 : r % vowels.length < vowels.length := Nat.mod_lt _ hpos
            have hxv : isVowel x = false := by simpa using hxok
            have hyv : isVowel y = false := by
              have : isVowel y = false ∧ ¬ (y = x) := by simpa using hyok
              exact this.1
            simp only [NUMSYMBOLS] at hx26 hy26
            have hmemV : ∀ t, t < vowels.length →
                vowels.getD t 0 - chA ∈ vowelPositions vowels := by
              intro t ht
              unfold vowelPositions
              rw [List.mem_map]
              refine ⟨vowels.getD t 0, ?_, rfl⟩
              rw [List.getD_eq_getElem vowels 0 ht]
              exact List.getElem_mem _
            have hnotV : ∀ p, p < 26 → isVowel p = false → p ∉ vowelPositions vowels := by
              intro p hp hpv hm
              have := (hiff p (by simpa [NUMSYMBOLS] using hp)).mpr
                ((mem_vowelPositions vowels hv p).mp hm)
              rw [hpv] at this
              exact Bool.false_ne_true this
            have hVnotC : ∀ p, p ∈ vowelPositions vowels → p ∉ otherPositions isVowel := by
              intro p hp hc
              have hc2 := (mem_otherPositions isVowel p).mp hc
              exact hnotV p hc2.1 hc2.2 hp
            have hpx := hmemV _ hvx2
            have hpy := hmemV _ hvy2
            have hpx26 := vowelPositions_lt vowels hv _ hpx
            have hpy26 := vowelPositions_lt vowels hv _ hpy
            have hl1 : (swapKey k x y).length = 26 := by rw [length_swapKey, hk]
            have hxC : x ∈ otherPositions isVowel :=
              (mem_otherPositions isVowel x).mpr ⟨hx26, hxv⟩
            have hyC : y ∈ otherPositions isVowel :=
              (mem_otherPositions isVowel y).mpr ⟨hy26, hyv⟩
            refine ⟨by rw [length_swapKey, hl1], ?_, ?_⟩
            · refine (lettersAt_swapKey _ hVnd (swapKey k x y) _ _ (by omega) (by omega)
                ⟨fun _ => hpy, fun _ => hpx⟩).trans ?_
              exact lettersAt_swapKey _ hVnd k x y (by omega) (by omega)
                ⟨fun hm => absurd hm (hnotV x hx26 hxv), fun hm => absurd hm (hnotV y hy26 hyv)⟩
            · refine (lettersAt_swapKey _ hCnd (swapKey k x y) _ _ (by omega) (by omega)
                ⟨fun hm => absurd hm (hVnotC _ hpx), fun hm => absurd hm (hVnotC _ hpy)⟩).trans ?_
              exact lettersAt_swapKey _ hCnd k x y (by omega) (by omega)
                ⟨fun _ => hyC, fun _ => hxC⟩

theorem initSwaps_classes (vowels : List Nat) (isVowel : Nat → Bool) (hnd : vowels.Nodup)
    (hv : ∀ v ∈ vowels, chA ≤ v ∧ v < chA + 26)
    (hiff : ∀ c, c < NUMSYMBOLS → (isVowel c = true ↔ chA + c ∈ vowels))
    (s : Nat) (k : Key) (rng : List Nat) (k1 : Key) (rng1 : List Nat) (hk : k.length = 26)
    (h : initSwaps vowels isVowel s k rng = some (k1, rng1)) :
    List.Perm (lettersAt k1 (vowelPositions vowels)) (lettersAt k (vowelPositions vowels)) ∧
    List.Perm (lettersAt k1 (otherPositions isVowel)) (lettersAt k (otherPositions isVowel)) := by
  induction s generalizing k rng with
  | zero =>
    simp only [initSwaps, Option.some.injEq, Prod.mk.injEq] at h
    rw [← h.1]
    exact ⟨List.Perm.refl _, List.Perm.refl _⟩
  | succ s ih =>
    simp only [initSwaps] at h
    split at h
    · simp at h
    · rename_i k2 rng2 h2
      obtain ⟨c1, c2, c3⟩ := initSwap_classes vowels isVowel hnd hv hiff k rng k2 rng2 hk h2
      obtain ⟨d1, d2⟩ := ih k2 rng2 c1 h
      exact ⟨d1.trans c2, d2.trans c3⟩

theorem genInit_classes {α : Type} (ev : Key → α) (vowels : List Nat) (isVowel : Nat → Bool)
    (hnd : vowels.Nodup) (hv : ∀ v ∈ vowels, chA ≤ v ∧ v < chA + 26) (hl : vowels.length ≤ 7)
    (hiff : ∀ c, c < NUMSYMBOLS → (isVowel c = true ↔ chA + c ∈ vowels))
    (popSize : Nat) (rng : List Nat) (keys : List Key) (fits : List α) (rest : List Nat)
    (h : genInit ev vowels isVowel popSize rng = some (keys, fits, rest)) :
    ∀ k ∈ keys,
      List.Perm (lettersAt k (vowelPositions vowels)) (genVow.take vowels.length) ∧
      List.Perm (lettersAt k (otherPositions isVowel)) (genKey.drop vowels.length) := by
  induction popSize generalizing rng keys fits rest with
  | zero =>
    simp only [genInit, Option.some.injEq, Prod.mk.injEq] at h
    obtain ⟨h1, _⟩ := h
    subst h1
    simp
  | succ p ih =>
    simp only [genInit] at h
    split at h
    · simp at h
    · rename_i k rng1 hk
      split at h
      · simp at h
      · rename_i ks fs rng2 hrec
        simp only [Option.some.injEq, Prod.mk.injEq] at h
        obtain ⟨h1, _⟩ := h
        subst h1
        intro k0 hk0
        rcases List.mem_cons.mp hk0 with e | e
        · subst e
          unfold genInitOne at hk
          split at hk
          · simp at hk
          · obtain ⟨s1, _, s3⟩ := seedKey_layout vowels isVowel hnd hv hl hiff
            obtain ⟨d1, d2⟩ := initSwaps_classes vowels isVowel hnd hv hiff _ _ _ _ _ s1 hk
            rw [seedKey_vowel_letters vowels isVowel hnd hv hl hiff] at d1
            rw [s3] at d2
            exact ⟨d1, d2⟩
        · exact ih rng1 ks fs rng2 hrec k0 e

/-- C31: for the vowels and marks that `vowIdentify` leaves for a ciphertext
(any number of vowels, so in particular two or more) and every random stream:
(1) each key that `genInit` produces holds at the vowel positions
`vowels[j] - 'a'` a rearrangement of the first `numVowels` letters of
`aeiouyt`, and at the other positions a rearrangement of the remaining
26 - `numVowels` letters of `aeiouytbcdfghjklmnpqrsvwxz`; (2) an individual
with zero swap rounds (`rand() % MAXSWAPS` = 0) gets a key that holds the
`j`-th letter of `aeiouyt` at position `vowels[j] - 'a'` and, at the other
positions in ascending order, the rest of `aeiouytbcdfghjklmnpqrsvwxz` in
that order. -/
theorem genInit_vowel_classes {α : Type} (ev : Key → α) (encText : List Nat) (popSize : Nat)
    (rng : List Nat) (keys : List Key) (fits : List α) (rest : List Nat)
    (h : genInit ev (vowIdentify encText []).vowels (vowIdentify encText []).isVowel
      popSize rng = some (keys, fits, rest)) :
    (∀ k ∈ keys,
      List.Perm (lettersAt k (vowelPositions (vowIdentify encText []).vowels))
        (genVow.take (vowIdentify encText []).vowels.length) ∧
      List.Perm (lettersAt k (otherPositions (vowIdentify encText []).isVowel))
        (genKey.drop (vowIdentify encText []).vowels.length)) ∧
    (∀ (r : Nat) (rng1 : List Nat), r % MAXSWAPS = 0 →
      ∃ k, genInitOne (vowIdentify encText []).vowels (vowIdentify encText []).isVowel
          (r :: rng1) = some (k, rng1) ∧
        (∀ j, j < (vowIdentify encText []).vowels.length →
          k.getD ((vowIdentify encText []).vowels.getD j 0 - chA) 0 = genVow.getD j 0) ∧
        lettersAt k (otherPositions (vowIdentify encText []).isVowel)
          = genKey.drop (vowIdentify encText []).vowels.length) := by
  have hinv : (vowIdentify encText []).vowels.length ≤ MAXVOWELS ∧
      (vowIdentify encText []).vowels.Nodup ∧
      (∀ c, c < NUMSYMBOLS →
        ((vowIdentify encText []).isVowel c = true
          ↔ chA + c ∈ (vowIdentify encText []).vowels)) := by
    have := vowLoop_spec (cmatOf encText) (MAXVOWELS + 1) ⟨fun _ => false, csumOf encText, []⟩
      (by simp) (by simp) (by intro c _; simp) (by simp)
    exact ⟨this.1, this.2.1, this.2.2.1⟩
  have hrange : ∀ v ∈ (vowIdentify encText []).vowels, chA ≤ v ∧ v < chA + 26 :=
    vowLoop_range (cmatOf encText) (MAXVOWELS + 1) ⟨fun _ => false, csumOf encText, []⟩
      (by simp)
  obtain ⟨hl, hnd, hiff⟩ := hinv
  have hl7 : (vowIdentify encText []).vowels.length ≤ 7 := hl
  refine ⟨genInit_classes ev _ _ hnd hrange hl7 hiff popSize rng keys fits rest h, ?_⟩
  intro r rng1 hr
  obtain ⟨_, s2, s3⟩ := seedKey_layout _ _ hnd hrange hl7 hiff
  refine ⟨seedKey (vowIdentify encText []).vowels, ?_, s2, s3⟩
  simp only [genInitOne, hr, initSwaps]

/-- C31, witness: the ciphertext `abacdc` (vowels `a`, `d`), two individuals
and the random values 1, 1, 4, 0, 1, 100: the first key has one swap round
(positions 1 and 4, then the vowel positions 0 and 3), the second has none. -/
theorem genInit_vowel_classes_witness :
    (∀ k ∈ [[101, 117, 111, 97, 105, 121, 116, 98, 99, 100, 102, 103, 104, 106, 107, 108,
          109, 110, 112, 113, 114, 115, 118, 119, 120, 122],
        [97, 105, 111, 101, 117, 121, 116, 98, 99, 100, 102, 103, 104, 106, 107, 108,
          109, 110, 112, 113, 114, 115, 118, 119, 120, 122]],
      List.Perm (lettersAt k (vowelPositions (vowIdentify abacdc []).vowels))
        (genVow.take (vowIdentify abacdc []).vowels.length) ∧
      List.Perm (lettersAt k (otherPositions (vowIdentify abacdc []).isVowel))
        (genKey.drop (vowIdentify abacdc []).vowels.length)) ∧
    (∀ (r : Nat) (rng1 : List Nat), r % MAXSWAPS = 0 →
      ∃ k, genInitOne (vowIdentify abacdc []).vowels (vowIdentify abacdc []).isVowel
          (r :: rng1) = some (k, rng1) ∧
        (∀ j, j < (vowIdentify abacdc []).vowels.length →
          k.getD ((vowIdentify abacdc []).vowels.getD j 0 - chA) 0 = genVow.getD j 0) ∧
        lettersAt k (otherPositions (vowIdentify abacdc []).isVowel)
          = genKey.drop (vowIdentify abacdc []).vowels.length) :=
  genInit_vowel_classes (fun _ => (0 : Int)) abacdc 2 [1, 1, 4, 0, 1, 100]
    [[101, 117, 111, 97, 105, 121, 116, 98, 99, 100, 102, 103, 104, 106, 107, 108,
        109, 110, 112, 113, 114, 115, 118, 119, 120, 122],
      [97, 105, 111, 101, 117, 121, 116, 98, 99, 100, 102, 103, 104, 106, 107, 108,
        109, 110, 112, 113, 114, 115, 118, 119, 120, 122]] [0, 0] [] (by decide)

/-! ## Mutation of the individuals -/

/-- One individual of `genMutate` on the stream `r :: rng`: the draw is
`z = r % 100`; with `z >= muteRate` nothing changes and only `r` is consumed,
with `z < muteRate` the positions `x` and `y` are the values accepted by the
two loops on the rest of the stream. -/
theorem mutateOne_draws {α : Type} (ev : Key → α) (muteRate : Int) (freq : List Nat)
    (k : Key) (f : α) (r : Nat) (rng : List Nat) (k1 : Key) (f1 : α) (rng1 : List Nat)
    (hk : IsKeyPerm k) (h : mutateOne ev muteRate freq k f (r :: rng) = some (k1, f1, rng1)) :
    (muteRate ≤ ((r % 100 : Nat) : Int) → k1 = k ∧ f1 = f ∧ rng1 = rng) ∧
    (((r % 100 : Nat) : Int) < muteRate → ∃ x y rng2,
      drawUntil (fun x => !(freq.getD x 0 == 0)) NUMSYMBOLS rng = some (x, rng2) ∧
      drawUntil (fun y => !(y == x || freq.getD y 0 == 0)) NUMSYMBOLS rng2 = some (y, rng1) ∧
      IsMutation ev freq k k1 f1 x y) := by
  simp only [mutateOne] at h
  constructor
  · intro hge
    have hnl : ¬ (((r % 100 : Nat) : Int) < muteRate) := by omega
    rw [if_neg hnl] at h
    simp only [Option.some.injEq, Prod.mk.injEq] at h
    exact ⟨h.1.symm, h.2.1.symm, h.2.2.symm⟩
  · intro hlt
    rw [if_pos hlt] at h
    split at h
    · simp at h
    · rename_i x r2 hx
      split at h
      · simp at h
      · rename_i y r3 hy
        simp only [Option.some.injEq, Prod.mk.injEq] at h
        obtain ⟨h1, h2, h3⟩ := h
        subst h1
        subst h2
        subst h3
        obtain ⟨hx26, hxok⟩ := drawUntil_some _ _ (by simp [NUMSYMBOLS]) _ _ _ hx
        obtain ⟨hy26, hyok⟩ := drawUntil_some _ _ (by simp [NUMSYMBOLS]) _ _ _ hy
        simp only [NUMSYMBOLS] at hx26 hy26
        have hfx : freq.getD x 0 ≠ 0 := by simpa using hxok
        have hfy : ¬ (y = x) ∧ freq.getD y 0 ≠ 0 := by simpa using hyok
        have hl := hk.length
        have gx := getD_swapKey k x y x (by omega) (by omega)
        have gy := getD_swapKey k x y y (by omega) (by omega)
        have hxy : x ≠ y := fun e => hfy.1 e.symm
        rw [if_neg hxy, if_pos rfl] at gx
        rw [if_pos rfl] at gy
        refine ⟨x, y, r2, hx, hy, hx26, hy26, hxy, Nat.pos_of_ne_zero hfx,
          Nat.pos_of_ne_zero hfy.2, length_swapKey k x y, gx, gy, ?_, ?_, rfl⟩
        · intro t htx hty
          rw [getD_swapKey k x y t (by omega) (by omega), if_neg hty, if_neg htx]
        · intro e
          rw [e] at gx
          exact hxy (IsKeyPerm.getD_inj k hk x y (by simpa [NUMSYMBOLS] using hx26)
            (by simpa [NUMSYMBOLS] using hy26) gx)

/-- The individual `i` of `genMutate`: the loop reaches it with the stream
`r :: rngi` that the first `i` individuals leave, and its new key and fitness
are those of `mutateOne` on that stream. -/
theorem genMutate_at {α : Type} (ev : Key → α) (muteRate : Int) (freq : List Nat)
    (popKey : List Key) (popFit : List α) (rng : List Nat) (keys : List Key) (fits : List α)
    (rest : List Nat) (hlen : popFit.length = popKey.length)
    (h : genMutate ev muteRate freq popKey popFit rng = some (keys, fits, rest)) :
    keys.length = popKey.length ∧ fits.length = popKey.length ∧
    ∀ i, i < popKey.length → ∃ k f k1 f1 r rngi rngi1,
      popKey[i]? = some k ∧ popFit[i]? = some f ∧ keys[i]? = some k1 ∧ fits[i]? = some f1 ∧
      genMutate ev muteRate freq (popKey.take i) (popFit.take i) rng
        = some (keys.take i, fits.take i, r :: rngi) ∧
      mutateOne ev muteRate freq k f (r :: rngi) = some (k1, f1, rngi1) := by
  induction popKey generalizing popFit rng keys fits rest with
  | nil =>
    simp only [genMutate, Option.some.injEq, Prod.mk.injEq] at h
    obtain ⟨h1, h2, _⟩ := h
    subst h1
    subst h2
    refine ⟨rfl, rfl, ?_⟩
    intro i hi
    simp at hi
  | cons k ks ih =>
    cases popFit with
    | nil => simp at hlen
    | cons f fs =>
      simp only [genMutate] at h
      split at h
      · simp at h
      · rename_i k1 f1 rng1 h1
        split at h
        · simp at h
        · rename_i ks1 fs1 rng2 h2
          simp only [Option.some.injEq, Prod.mk.injEq] at h
          obtain ⟨e1, e2, _⟩ := h
          subst e1
          subst e2
          obtain ⟨i1, i2, i3⟩ := ih fs rng1 ks1 fs1 rng2 (by simpa using hlen) h2
          refine ⟨by simp [i1], by simp [i2], ?_⟩
          intro i hi
          cases i with
          | zero =>
            cases rng with
            | nil => simp [mutateOne] at h1
            | cons r rngi =>
              refine ⟨k, f, k1, f1, r, rngi, rng1, by simp, by simp, by simp, by simp, ?_, h1⟩
              simp only [List.take_zero, genMutate]
          | succ i =>
            obtain ⟨k0, f0, k2, f2, r, rngi, rngi1, a1, a2, a3, a4, a5, a6⟩ :=
              i3 i (by simpa using hi)
            refine ⟨k0, f0, k2, f2, r, rngi, rngi1, by simpa using a1, by simpa using a2,
              by simpa using a3, by simpa using a4, ?_, a6⟩
            simp only [List.take_succ_cons, genMutate, h1, a5]

theorem drawUntil_append (ok : Nat → Bool) (m : Nat) (a b : List Nat) :
    drawUntil ok m (a ++ b)
      = match drawUntil ok m a with
        | some (v, r) => some (v, r ++ b)
        | none => drawUntil ok m b := by
  induction a with
  | nil => simp [drawUntil]
  | cons r rs ih =>
    simp only [List.cons_append, drawUntil]
    split
    · rfl
    · exact ih

/-- The two loops of a mutation end on every stream that goes on with the
draws `x0`, `y0`, `x0` for two distinct positions whose letters occur. -/
theorem mutateOne_returns {α : Type} (ev : Key → α) (muteRate : Int) (freq : List Nat)
    (k : Key) (f : α) (z : Nat) (rng0 : List Nat) (x0 y0 : Nat) (hx0 : x0 < 26) (hy0 : y0 < 26)
    (hxy : x0 ≠ y0) (hfx : 0 < freq.getD x0 0) (hfy : 0 < freq.getD y0 0) :
    ∃ res, mutateOne ev muteRate freq k f (z :: (rng0 ++ [x0, y0, x0])) = some res := by
  have mx : x0 % NUMSYMBOLS = x0 := Nat.mod_eq_of_lt (by simpa [NUMSYMBOLS] using hx0)
  have my : y0 % NUMSYMBOLS = y0 := Nat.mod_eq_of_lt (by simpa [NUMSYMBOLS] using hy0)
  have okx : (!(freq.getD x0 0 == 0)) = true := by
    simp only [Bool.not_eq_true', beq_eq_false_iff_ne, ne_eq]
    omega
  have oky : (!(freq.getD y0 0 == 0)) = true := by
    simp only [Bool.not_eq_true', beq_eq_false_iff_ne, ne_eq]
    omega
  -- the second loop on the last three draws, for every first position
  have second : ∀ (x : Nat) (pre : List Nat) (tl : List Nat),
      (tl = [x0, y0, x0] ∨ (tl = [y0, x0] ∧ x = x0)) →
      ∃ q, drawUntil (fun y => !(y == x || freq.getD y 0 == 0)) NUMSYMBOLS (pre ++ tl)
        = some q := by
    intro x pre tl htl
    rw [drawUntil_append]
    cases hpre : drawUntil (fun y => !(y == x || freq.getD y 0 == 0)) NUMSYMBOLS pre with
    | some q => exact ⟨_, rfl⟩
    | none =>
      simp only
      have fy0 : (freq.getD y0 0 == 0) = false := by
        simp only [beq_eq_false_iff_ne, ne_eq]; omega
      have fx0 : (freq.getD x0 0 == 0) = false := by
        simp only [beq_eq_false_iff_ne, ne_eq]; omega
      rcases htl with e | ⟨e, ex⟩
      · subst e
        by_cases hx : x0 = x
        · subst hx
          have hyx : (y0 == x0) = false := by
            simp only [beq_eq_false_iff_ne, ne_eq]; exact fun e => hxy e.symm
          simp only [drawUntil, mx, my, beq_self_eq_true, Bool.true_or, Bool.not_true,
            Bool.false_eq_true, if_false, hyx, fy0, Bool.or_self, Bool.not_false, if_true]
          exact ⟨_, rfl⟩
        · have hx2 : (x0 == x) = false := by
            simp only [beq_eq_false_iff_ne, ne_eq]; exact hx
          simp only [drawUntil, mx, hx2, fx0, Bool.or_self, Bool.not_false, if_true]
          exact ⟨_, rfl⟩
      · subst e
        subst ex
        have hyx : (y0 == x) = false := by
          simp only [beq_eq_false_iff_ne, ne_eq]; exact fun e => hxy e.symm
        simp only [drawUntil, my, hyx, fy0, Bool.or_self, Bool.not_false, if_true]
        exact ⟨_, rfl⟩
  unfold mutateOne
  simp only
  split
  · rw [drawUntil_append]
    cases hfirst : drawUntil (fun x => !(freq.getD x 0 == 0)) NUMSYMBOLS rng0 with
    | some q =>
      obtain ⟨x, r⟩ := q
      simp only
      obtain ⟨q2, hq2⟩ := second x r [x0, y0, x0] (Or.inl rfl)
      rw [hq2]
      exact ⟨_, rfl⟩
    | none =>
      have hd : drawUntil (fun x => !(freq.getD x 0 == 0)) NUMSYMBOLS [x0, y0, x0]
          = some (x0, [y0, x0]) := by
        simp only [drawUntil, mx, okx, if_true]
      simp only [hd]
      obtain ⟨q2, hq2⟩ := second x0 [] [y0, x0] (Or.inr ⟨rfl, rfl⟩)
      rw [List.nil_append] at hq2
      rw [hq2]
      exact ⟨_, rfl⟩
  · exact ⟨_, rfl⟩

/-- C32: when `genMutate` returns for a population of permutation keys, the
loop reaches every individual `i` with a stream `r :: rngi` (what the first
`i` individuals leave of the random stream), and its draw is `z = r % 100`:
(1) if `z >= muteRate` its key and fitness are unchanged and only `r` is
consumed; (2) if `z < muteRate` the two loops accept positions `x` and `y` on
the rest of the stream, which are distinct with `freq[x] > 0` and
`freq[y] > 0`, the letters at `x` and `y` are exchanged, every other position
is unchanged, the key differs from the old one, and the fitness is
`cryptoEval` of the new key. Hence (3) with `muteRate` 0 no individual is
mutated and (4) with `muteRate` 100 every one is. (5) The two loops that draw
`x` and `y` end on every stream that goes on with the draws `x0`, `y0`, `x0`
of two distinct positions whose letters occur in the ciphertext. -/
theorem genMutate_individuals {α : Type} (ev : Key → α) (muteRate : Int) (freq : List Nat)
    (popKey : List Key) (popFit : List α) (rng : List Nat) (keys : List Key) (fits : List α)
    (rest : List Nat) (hlen : popFit.length = popKey.length) (hk : ∀ k ∈ popKey, IsKeyPerm k)
    (h : genMutate ev muteRate freq popKey popFit rng = some (keys, fits, rest)) :
    keys.length = popKey.length ∧ fits.length = popKey.length ∧
    (∀ i, i < popKey.length → ∃ k f k1 f1 r rngi rngi1,
      popKey[i]? = some k ∧ popFit[i]? = some f ∧ keys[i]? = some k1 ∧ fits[i]? = some f1 ∧
      genMutate ev muteRate freq (popKey.take i) (popFit.take i) rng
        = some (keys.take i, fits.take i, r :: rngi) ∧
      mutateOne ev muteRate freq k f (r :: rngi) = some (k1, f1, rngi1) ∧
      (muteRate ≤ ((r % 100 : Nat) : Int) → k1 = k ∧ f1 = f ∧ rngi1 = rngi) ∧
      (((r % 100 : Nat) : Int) < muteRate → ∃ x y rng2,
        drawUntil (fun x => !(freq.getD x 0 == 0)) NUMSYMBOLS rngi = some (x, rng2) ∧
        drawUntil (fun y => !(y == x || freq.getD y 0 == 0)) NUMSYMBOLS rng2
          = some (y, rngi1) ∧
        IsMutation ev freq k k1 f1 x y)) ∧
    (muteRate ≤ 0 → keys = popKey ∧ fits = popFit) ∧
    (100 ≤ muteRate → ∀ i, i < popKey.length → ∃ k k1 f1 x y,
      popKey[i]? = some k ∧ keys[i]? = some k1 ∧ fits[i]? = some f1 ∧
      IsMutation ev freq k k1 f1 x y) ∧
    (∀ (k : Key) (f : α) (z : Nat) (rng0 : List Nat) (x0 y0 : Nat),
      x0 < 26 → y0 < 26 → x0 ≠ y0 → 0 < freq.getD x0 0 → 0 < freq.getD y0 0 →
      ∃ res, mutateOne ev muteRate freq k f (z :: (rng0 ++ [x0, y0, x0])) = some res) := by
  obtain ⟨h1, h2, h3⟩ := genMutate_at ev muteRate freq popKey popFit rng keys fits rest hlen h
  have hmem : ∀ (i : Nat) (k : Key), popKey[i]? = some k → IsKeyPerm k := by
    intro i k e
    obtain ⟨hi, e2⟩ := List.getElem?_eq_some.mp e
    exact hk k (e2 ▸ List.getElem_mem hi)
  refine ⟨h1, h2, ?_, ?_, ?_, ?_⟩
  · intro i hi
    obtain ⟨k, f, k1, f1, r, rngi, rngi1, a1, a2, a3, a4, a5, a6⟩ := h3 i hi
    obtain ⟨d1, d2⟩ := mutateOne_draws ev muteRate freq k f r rngi k1 f1 rngi1 (hmem i k a1) a6
    exact ⟨k, f, k1, f1, r, rngi, rngi1, a1, a2, a3, a4, a5, a6, d1, d2⟩
  · intro h0
    constructor
    · apply List.ext_getElem?
      intro i
      by_cases hi : i < popKey.length
      · obtain ⟨k, f, k1, f1, r, rngi, rngi1, a1, a2, a3, a4, a5, a6⟩ := h3 i hi
        obtain ⟨d1, _⟩ := mutateOne_draws ev muteRate freq k f r rngi k1 f1 rngi1
          (hmem i k a1) a6
        rw [a1, a3, (d1 (by omega)).1]
      · rw [List.getElem?_eq_none (by omega), List.getElem?_eq_none (by omega)]
    · apply List.ext_getElem?
      intro i
      by_cases hi : i < popKey.length
      · obtain ⟨k, f, k1, f1, r, rngi, rngi1, a1, a2, a3, a4, a5, a6⟩ := h3 i hi
        obtain ⟨d1, _⟩ := mutateOne_draws ev muteRate freq k f r rngi k1 f1 rngi1
          (hmem i k a1) a6
        rw [a2, a4, (d1 (by omega)).2.1]
      · rw [List.getElem?_eq_none (by omega), List.getElem?_eq_none (by omega)]
  · intro h100 i hi
    obtain ⟨k, f, k1, f1, r, rngi, rngi1, a1, a2, a3, a4, a5, a6⟩ := h3 i hi
    obtain ⟨_, d2⟩ := mutateOne_draws ev muteRate freq k f r rngi k1 f1 rngi1 (hmem i k a1) a6
    have hr : r % 100 < 100 := Nat.mod_lt r (by decide : 100 > 0)
    obtain ⟨x, y, _, _, _, hm⟩ := d2 (by omega)
    exact ⟨k, k1, f1, x, y, a1, a3, a4, hm⟩
  · intro k f z rng0 x0 y0 hx0 hy0 hxy hfx hfy
    exact mutateOne_returns ev muteRate freq k f z rng0 x0 y0 hx0 hy0 hxy hfx hfy

/-- C32, witness: two copies of the identity key with fitness 98 (the fitness
is the letter at position 1), `muteRate` 3, the frequencies 2, 1, 0, 5 and
the random values 2, 29, 3, 27, 50: the first individual draws 2, below 3,
then the positions 3 and 1, and becomes `adcb...` with fitness 100; the
second draws 50 and is unchanged. -/
theorem genMutate_individuals_witness :
    [swapKey alphabet 3 1, alphabet].length = [alphabet, alphabet].length ∧
    ([100, 98] : List Int).length = [alphabet, alphabet].length ∧
    (∀ i, i < [alphabet, alphabet].length → ∃ k f k1 f1 r rngi rngi1,
      [alphabet, alphabet][i]? = some k ∧ ([98, 98] : List Int)[i]? = some f ∧
      [swapKey alphabet 3 1, alphabet][i]? = some k1 ∧ ([100, 98] : List Int)[i]? = some f1 ∧
      genMutate (fun k => (k.getD 1 0 : Int)) (3 : Int) [2, 1, 0, 5] ([alphabet, alphabet].take i)
          (([98, 98] : List Int).take i) [2, 29, 3, 27, 50]
        = some ([swapKey alphabet 3 1, alphabet].take i, ([100, 98] : List Int).take i,
            r :: rngi) ∧
      mutateOne (fun k => (k.getD 1 0 : Int)) (3 : Int) [2, 1, 0, 5] k f (r :: rngi)
        = some (k1, f1, rngi1) ∧
      ((3 : Int) ≤ ((r % 100 : Nat) : Int) → k1 = k ∧ f1 = f ∧ rngi1 = rngi) ∧
      (((r % 100 : Nat) : Int) < (3 : Int) → ∃ x y rng2,
        drawUntil (fun x => !([2, 1, 0, 5].getD x 0 == 0)) NUMSYMBOLS rngi = some (x, rng2) ∧
        drawUntil (fun y => !(y == x || [2, 1, 0, 5].getD y 0 == 0)) NUMSYMBOLS rng2
          = some (y, rngi1) ∧
        IsMutation (fun k => (k.getD 1 0 : Int)) [2, 1, 0, 5] k k1 f1 x y)) ∧
    ((3 : Int) ≤ 0 → [swapKey alphabet 3 1, alphabet] = [alphabet, alphabet] ∧
      ([100, 98] : List Int) = ([98, 98] : List Int)) ∧
    (100 ≤ (3 : Int) → ∀ i, i < [alphabet, alphabet].length → ∃ k k1 f1 x y,
      [alphabet, alphabet][i]? = some k ∧
      [swapKey alphabet 3 1, alphabet][i]? = some k1 ∧ ([100, 98] : List Int)[i]? = some f1 ∧
      IsMutation (fun k => (k.getD 1 0 : Int)) [2, 1, 0, 5] k k1 f1 x y) ∧
    (∀ (k : Key) (f : Int) (z : Nat) (rng0 : List Nat) (x0 y0 : Nat),
      x0 < 26 → y0 < 26 → x0 ≠ y0 → 0 < [2, 1, 0, 5].getD x0 0 → 0 < [2, 1, 0, 5].getD y0 0 →
      ∃ res, mutateOne (fun k => (k.getD 1 0 : Int)) (3 : Int) [2, 1, 0, 5] k f
        (z :: (rng0 ++ [x0, y0, x0])) = some res) :=
  genMutate_individuals (fun k => (k.getD 1 0 : Int)) 3 [2, 1, 0, 5] [alphabet, alphabet]
    [98, 98] [2, 29, 3, 27, 50]
    [swapKey alphabet 3 1, alphabet] [100, 98] []
    (by decide) (by decide) (by decide)

end Alkindus
